import Mathlib

/-!
# TinyInfiniTensor: allocator, graph ordering, graph optimizer, MatMul shape inference

A shallow embedding of `src/core/allocator.cc`, `src/core/graph.cc` and
`src/operators/matmul.cc`.

Conventions of the embedding

* `size_t` values are natural numbers below `SIZE = 2^64`; every `size_t`
  addition, subtraction and multiplication of the source is written with an
  explicit `% SIZE`.
* `std::map<size_t, size_t>` (the allocator's `freeBlock`) is a list of
  `(key, value)` pairs kept in strictly increasing key order; iteration order
  of the map is the order of the list.
* Shared pointers to operators and tensors are handles (natural numbers) into
  two heaps carried by the graph; pointer equality is equality of handles.
* A failed `IT_ASSERT` (it throws) and an out-of-range `vector::at` make the
  embedded function return `none`.
-/

namespace infini

/-! ## Allocator (`src/core/allocator.cc`) -/

/-- Number of values of `size_t` on the 64-bit target. -/
def SIZE : Nat := 18446744073709551616

/-- The ordered map `std::map<size_t, size_t>`: pairs `(offset, length)` in
strictly increasing order of `offset`. -/
abbrev FreeMap := List (Nat × Nat)

/-- Well-formedness of the list as a `std::map`: keys strictly increasing. -/
def MapWF (m : FreeMap) : Prop := m.Pairwise (fun a b => a.1 < b.1)

instance (m : FreeMap) : Decidable (MapWF m) := by
  unfold MapWF; infer_instance

/-- `std::map::erase(it)` for the iterator at key `k`. -/
def mapErase (k : Nat) (m : FreeMap) : FreeMap :=
  m.filter (fun e => e.1 != k)

/-- `m[k] = v` of `std::map`: assigns when the key is present, inserts at the
ordered position otherwise. -/
def mapInsert (k v : Nat) : FreeMap → FreeMap
  | [] => [(k, v)]
  | e :: t =>
    if k < e.1 then (k, v) :: e :: t
    else if k = e.1 then (k, v) :: t
    else e :: mapInsert k v t

/-- State of `Allocator`: `used`, `peak`, the lazily materialised `ptr`
(`none` is `nullptr`), `alignment` and the free list `freeBlock`. -/
structure Allocator where
  used : Nat
  peak : Nat
  ptr : Option Nat
  alignment : Nat
  freeBlock : FreeMap
deriving DecidableEq, Repr

/-- The constructor `Allocator::Allocator`: `alignment = sizeof(uint64_t)`. -/
def Allocator.fresh : Allocator :=
  { used := 0, peak := 0, ptr := none, alignment := 8, freeBlock := [] }

/-- `Allocator::getAlignedSize`:
`((size - 1) / alignment + 1) * alignment` in `size_t` arithmetic. A zero
`alignment` is a division by zero (`none`). -/
def Allocator.getAlignedSize (a : Allocator) (size : Nat) : Option Nat :=
  if a.alignment = 0 then none
  else some ((((size + SIZE - 1) % SIZE) / a.alignment + 1) % SIZE * a.alignment % SIZE)

/-- `Allocator::alloc`: returns the offset and the new state; `none` when the
assertion `ptr == nullptr` fails. -/
def Allocator.alloc (a : Allocator) (size0 : Nat) : Option (Nat × Allocator) :=
  if a.ptr ≠ none then none
  else
    match a.getAlignedSize size0 with
    | none => none
    | some size =>
      if a.freeBlock.length = 0 then
        some (a.peak, { a with peak := (a.peak + size) % SIZE,
                               used := (a.used + size) % SIZE })
      else
        match a.freeBlock.find? (fun it => decide (size ≤ it.2)) with
        | some it =>
          -- `remain >= 0` holds for every `size_t`, the entry is always written
          let offset := it.1
          let remain := (it.2 + SIZE - size) % SIZE
          some (offset, { a with
            freeBlock := mapInsert ((offset + size) % SIZE) remain (mapErase it.1 a.freeBlock),
            used := (a.used + size) % SIZE })
        | none =>
          match a.freeBlock.getLast? with
          | none => none
          | some it =>
            if (it.1 + it.2) % SIZE = a.peak then
              some (it.1, { a with
                peak := (a.peak + (size + SIZE - it.2) % SIZE) % SIZE,
                freeBlock := mapErase it.1 a.freeBlock,
                used := (a.used + size) % SIZE })
            else
              some (a.peak, { a with peak := (a.peak + size) % SIZE,
                                     used := (a.used + size) % SIZE })

/-- `Allocator::free`: `none` when the assertion `ptr == nullptr` fails. -/
def Allocator.free (a : Allocator) (addr size0 : Nat) : Option Allocator :=
  if a.ptr ≠ none then none
  else
    match a.getAlignedSize size0 with
    | none => none
    | some size =>
      let left := a.freeBlock.find? (fun item => decide ((item.1 + item.2) % SIZE = addr))
      let begin := match left with
        | some l => l.1
        | none => addr
      let blockSize0 := match left with
        | some l => (0 + l.2) % SIZE
        | none => 0
      let fb1 := match left with
        | some l => mapErase l.1 a.freeBlock
        | none => a.freeBlock
      let blockSize1 := (blockSize0 + size) % SIZE
      let right := fb1.find? (fun item => decide (item.1 = (addr + size) % SIZE))
      let blockSize2 := match right with
        | some r => (blockSize1 + r.2) % SIZE
        | none => blockSize1
      let fb2 := match right with
        | some r => mapErase r.1 fb1
        | none => fb1
      some { a with used := (a.used + SIZE - size) % SIZE,
                    freeBlock := mapInsert begin blockSize2 fb2 }

/-- One call of the allocator's interface. -/
inductive Call where
  | alloc (size : Nat)
  | free (addr size : Nat)
deriving DecidableEq, Repr

/-- A live allocation: the offset `alloc` returned, the size it was asked for,
and the aligned size it occupies. -/
structure Live where
  offset : Nat
  size : Nat
  aligned : Nat
deriving DecidableEq, Repr

/-- The allocator together with the allocations that are live, newest first. -/
structure Session where
  a : Allocator
  live : List Live
deriving DecidableEq, Repr

def Session.fresh : Session := { a := Allocator.fresh, live := [] }

/-- Performs one call. A `free` is performed only for a live allocation, with
the offset `alloc` returned for it and the size it was allocated with; any other
`free` is outside the sequences considered (`none`). -/
def Session.step (s : Session) : Call → Option Session
  | .alloc size =>
    match s.a.getAlignedSize size, s.a.alloc size with
    | some al, some (off, a') => some { a := a', live := ⟨off, size, al⟩ :: s.live }
    | _, _ => none
  | .free addr size =>
    match s.live.find? (fun l => decide (l.offset = addr ∧ l.size = size)) with
    | none => none
    | some l =>
      match s.a.free addr size with
      | some a' => some { a := a', live := s.live.erase l }
      | none => none

/-- Performs a sequence of calls from left to right. -/
def Session.run (s : Session) : List Call → Option Session
  | [] => some s
  | c :: cs =>
    match s.step c with
    | some s' => s'.run cs
    | none => none

/-- The two byte ranges `[o1, o1 + l1)` and `[o2, o2 + l2)` share no byte. -/
def RangesDisjoint (o1 l1 o2 l2 : Nat) : Prop :=
  ∀ x, o1 ≤ x → x < o1 + l1 → o2 ≤ x → x < o2 + l2 → False

/-- Arithmetic form of disjointness of `[o1, o1 + l1)` and `[o2, o2 + l2)`. -/
def Sep (o1 l1 o2 l2 : Nat) : Prop :=
  l1 = 0 ∨ l2 = 0 ∨ o1 + l1 ≤ o2 ∨ o2 + l2 ≤ o1

/-- Sum of the aligned sizes requested by the `alloc` calls of a sequence
(aligned with the constructor's alignment 8). -/
def totalAligned : List Call → Nat
  | [] => 0
  | .alloc size :: cs => (Allocator.fresh.getAlignedSize size).getD 0 + totalAligned cs
  | .free _ _ :: cs => totalAligned cs

/-- The invariant of the planning phase: `tot` bounds the bytes requested so far. -/
structure Inv (s : Session) (tot : Nat) : Prop where
  ptr : s.a.ptr = none
  align : s.a.alignment = 8
  wf : MapWF s.a.freeBlock
  peak_le : s.a.peak ≤ tot
  fb_le : ∀ e ∈ s.a.freeBlock, e.1 + e.2 ≤ s.a.peak
  live_le : ∀ l ∈ s.live, l.offset + l.aligned ≤ s.a.peak
  live_al : ∀ l ∈ s.live, s.a.getAlignedSize l.size = some l.aligned
  fb_disj : ∀ e1 ∈ s.a.freeBlock, ∀ e2 ∈ s.a.freeBlock, e1.1 ≠ e2.1 → Sep e1.1 e1.2 e2.1 e2.2
  fb_live : ∀ e ∈ s.a.freeBlock, ∀ l ∈ s.live, Sep e.1 e.2 l.offset l.aligned
  live_disj : s.live.Pairwise (fun x y => Sep x.offset x.aligned y.offset y.aligned)
  noadj : ∀ e1 ∈ s.a.freeBlock, ∀ e2 ∈ s.a.freeBlock, e1.1 ≠ e2.1 → e1.1 + e1.2 ≠ e2.1
  used : s.a.used = (s.live.map Live.aligned).sum % SIZE

/-- Further invariant of the planning phase when no request has aligned size zero:
free entries and live allocations cover `[0, peak)`, and a zero-length entry sits at
the end of a live allocation. -/
structure Inv2 (s : Session) (tot : Nat) : Prop where
  cover : ∀ x, x < s.a.peak →
    (∃ e ∈ s.a.freeBlock, e.1 ≤ x ∧ x < e.1 + e.2) ∨
    (∃ l ∈ s.live, l.offset ≤ x ∧ x < l.offset + l.aligned)
  zero : ∀ e ∈ s.a.freeBlock, e.2 = 0 → ∃ l ∈ s.live, l.offset + l.aligned = e.1
  livepos : ∀ l ∈ s.live, 0 < l.aligned
  pos : 0 < tot → 0 < s.a.peak

/-- Scenario "allocator first-fit" of the specification. -/
def firstFitCalls : List Call :=
  [.alloc 16, .alloc 32, .alloc 16, .free 16 32, .alloc 24, .alloc 8]

/-- State reached by `firstFitCalls`. -/
def firstFitFinal : Session :=
  { a := { used := 64, peak := 64, ptr := none, alignment := 8, freeBlock := [(48, 0)] },
    live := [⟨40, 8, 8⟩, ⟨16, 24, 24⟩, ⟨48, 16, 16⟩, ⟨0, 16, 16⟩] }

/-- A sequence that leaves a zero-length entry in the free list. -/
def exactFitCalls : List Call :=
  [.alloc 16, .alloc 16, .alloc 16, .free 16 16, .alloc 16, .free 0 16]

/-- State reached by `exactFitCalls`. -/
def exactFitFinal : Session :=
  { a := { used := 32, peak := 48, ptr := none, alignment := 8,
           freeBlock := [(0, 16), (32, 0)] },
    live := [⟨16, 16, 16⟩, ⟨32, 16, 16⟩] }

/-- A sequence whose requests exceed the 64-bit range: `peak` wraps around. -/
def wrapCalls : List Call := [.alloc (SIZE - 8), .alloc 16, .alloc 8]

/-- State reached by `wrapCalls`. -/
def wrapFinal : Session :=
  { a := { used := 16, peak := 16, ptr := none, alignment := 8, freeBlock := [] },
    live := [⟨8, 8, 8⟩, ⟨SIZE - 8, 16, 16⟩, ⟨0, SIZE - 8, SIZE - 8⟩] }

/-- State reached by `wrapCalls` followed by `free(8, 8)`. -/
def wrapFreeFinal : Session :=
  { a := { used := 8, peak := 16, ptr := none, alignment := 8, freeBlock := [(8, 8)] },
    live := [⟨SIZE - 8, 16, 16⟩, ⟨0, SIZE - 8, SIZE - 8⟩] }

/-- A sequence with a zero-size request; every allocation is freed at the end. -/
def zeroSizeCalls : List Call :=
  [.alloc 16, .alloc 16, .free 16 16, .alloc 0, .free 0 16, .free 16 0]

/-- State reached by `zeroSizeCalls`. -/
def zeroSizeFinal : Session :=
  { a := { used := 0, peak := 32, ptr := none, alignment := 8,
           freeBlock := [(0, 32), (16, 0)] },
    live := [] }

/-- A sequence of non-zero requests that wraps `peak`; every allocation is freed at
the end. -/
def wrapFreeAllCalls : List Call :=
  [.alloc 8, .alloc 8, .alloc (SIZE - 8), .free 16 (SIZE - 8), .free 8 8, .free 0 8]

/-- State reached by `wrapFreeAllCalls`. -/
def wrapFreeAllFinal : Session :=
  { a := { used := 0, peak := 8, ptr := none, alignment := 8,
           freeBlock := [(0, 8), (16, 0)] },
    live := [] }

/-- Scenario "allocator first-fit" continued until every allocation is freed. -/
def freeAllCalls : List Call :=
  firstFitCalls ++ [.free 0 16, .free 40 8, .free 48 16, .free 16 24]

/-- State reached by `freeAllCalls`. -/
def freeAllFinal : Session :=
  { a := { used := 0, peak := 64, ptr := none, alignment := 8, freeBlock := [(0, 64)] },
    live := [] }

/-- Every field of the allocator is a `size_t` value. -/
def Allocator.InRange (a : Allocator) : Prop :=
  a.used < SIZE ∧ a.peak < SIZE ∧ ∀ e ∈ a.freeBlock, e.1 < SIZE ∧ e.2 < SIZE

/-- Scenario "allocator tail-grow" of the specification. -/
def tailGrowCalls : List Call := [.alloc 16, .alloc 16, .free 16 16, .alloc 40]

/-- State reached by `tailGrowCalls`. -/
def tailGrowFinal : Session :=
  { a := { used := 56, peak := 56, ptr := none, alignment := 8, freeBlock := [] },
    live := [⟨16, 40, 40⟩, ⟨0, 16, 16⟩] }

/-- The allocator of scenario "allocator first-fit" after `free(b, 32)`. -/
def afterFreeB : Allocator :=
  { used := 32, peak := 64, ptr := none, alignment := 8, freeBlock := [(16, 32)] }

/-! ## MatMul shape inference (`src/operators/matmul.cc`) -/

/-- `Shape`: `vector<int>`. -/
abbrev Shape := List Int

/-- `std::swap(shape[size - 1], shape[size - 2])` on a shape of rank at least 2. -/
def swapLastTwo (shape : Shape) : Shape :=
  shape.take (shape.length - 2) ++
    [shape.getD (shape.length - 1) 0, shape.getD (shape.length - 2) 0]

/-- `MatmulObj::inferShape` on the dims of the input tensors. `none` is a failed
`IT_ASSERT`; when no assertion fails the function returns `std::make_optional` of a
vector of shapes, which is the value under `some`. -/
def MatmulObj.inferShape (transA transB : Bool) (inputs : List Shape) : Option (List Shape) :=
  if ¬ (inputs.length ≥ 2) then none
  else
    let shapeA := inputs.getD 0 []
    let shapeB := inputs.getD 1 []
    if ¬ (shapeA.length ≥ 2 ∧ shapeB.length ≥ 2) then none
    else
      let shapeA := if transA then swapLastTwo shapeA else shapeA
      let shapeB := if transB then swapLastTwo shapeB else shapeB
      let shape := shapeA.take (shapeA.length - 2)
      let shape := shape ++ [shapeA.getD (shapeA.length - 2) 0]
      let shape := shape ++ [shapeB.getD (shapeB.length - 1) 0]
      some [shape]

/-- The leading (batch) dims of a shape: all but the last two. -/
def batchDims (shape : Shape) : Shape := shape.take (shape.length - 2)

/-- Broadcast of two dims as the specification uses it: equal, or one of them is 1. -/
def broadcastDim (a b : Int) : Option Int :=
  if a = b then some a else if a = 1 then some b else if b = 1 then some a else none

/-- Broadcast of two dim lists given innermost dim first; the shorter list is padded. -/
def broadcastRev : Shape → Shape → Option Shape
  | [], q => some q
  | a :: p, [] => some (a :: p)
  | a :: p, b :: q =>
    match broadcastDim a b, broadcastRev p q with
    | some d, some r => some (d :: r)
    | _, _ => none

/-- The `broadcast` of the specification: right-aligned broadcast of two dim lists;
`none` when they are not broadcast-compatible. -/
def broadcastShapes (p q : Shape) : Option Shape :=
  (broadcastRev p.reverse q.reverse).map List.reverse

/-- The row count `m = A[-2]` after the swap that `trans_a` asks for. -/
def dimM (transA : Bool) (A : Shape) : Int :=
  if transA then A.getD (A.length - 1) 0 else A.getD (A.length - 2) 0

/-- The inner dim `k_a = A[-1]` after the swap that `trans_a` asks for. -/
def dimKa (transA : Bool) (A : Shape) : Int :=
  if transA then A.getD (A.length - 2) 0 else A.getD (A.length - 1) 0

/-- The inner dim `k_b = B[-2]` after the swap that `trans_b` asks for. -/
def dimKb (transB : Bool) (B : Shape) : Int :=
  if transB then B.getD (B.length - 1) 0 else B.getD (B.length - 2) 0

/-- The column count `n = B[-1]` after the swap that `trans_b` asks for. -/
def dimN (transB : Bool) (B : Shape) : Int :=
  if transB then B.getD (B.length - 2) 0 else B.getD (B.length - 1) 0

/-- The output shape the specification asks of MatMul:
`broadcast(prefix(A), prefix(B)) ++ [m, n]`, defined when both ranks are at least 2,
the inner dims agree and the prefixes are broadcast-compatible. -/
def matmulShapeSpec (transA transB : Bool) (A B : Shape) : Option Shape :=
  if A.length ≥ 2 ∧ B.length ≥ 2 ∧ dimKa transA A = dimKb transB B then
    (broadcastShapes (batchDims A) (batchDims B)).map
      (fun p => p ++ [dimM transA A, dimN transB B])
  else none

/-! ## Graph (`src/core/graph.cc`) -/

/-- Modelled from the spec: the operator variants that `graph.cc` tells apart by
`getOpType()` and `dynamic_pointer_cast`, with the attributes it reads
(`Transpose.permute`, `MatMul.trans_a`, `MatMul.trans_b`); `core/op_type.h`,
`operators/transpose.h` and `operators/matmul.h` are not among the sources. -/
inductive OpKind where
  | transpose (permute : List Int)
  | matmul (transA transB : Bool)
  | other
deriving DecidableEq, Repr

/-- Modelled from the spec: `OperatorObj` (`core/operator.h` is not among the sources):
variant, ordered input and output tensors, predecessor and successor operators, all as
handles. -/
structure OperatorObj where
  kind : OpKind
  inputs : List Nat
  outputs : List Nat
  predecessors : List Nat
  successors : List Nat
deriving DecidableEq, Repr

/-- Modelled from the spec: `TensorObj` (`core/tensor.h` is not among the sources): `fuid`,
dims, producing operator `source` (`none` is the null pointer) and consuming operators
`targets`. -/
structure TensorObj where
  fuid : Nat
  dims : Shape
  source : Option Nat
  targets : List Nat
deriving DecidableEq, Repr

/-- Modelled from the spec: `GraphObj` (`core/graph.h` is not among the sources): the
vectors `ops` and `tensors` of shared pointers (handles), the flag `sorted`, and the two
heaps that hold the objects the handles point to. -/
structure GraphObj where
  ops : List Nat
  tensors : List Nat
  sorted : Bool
  op : Nat → OperatorObj
  tensor : Nat → TensorObj

/-- Modelled from the spec: `OperatorObj::addPredecessors` (`core/operator.h` is not among
the sources) appends to `predecessors`. -/
def OperatorObj.addPredecessors (o : OperatorObj) (p : Nat) : OperatorObj :=
  { o with predecessors := o.predecessors ++ [p] }

/-- Modelled from the spec: `OperatorObj::addSuccessors` (`core/operator.h` is not among
the sources) appends to `successors`. -/
def OperatorObj.addSuccessors (o : OperatorObj) (p : Nat) : OperatorObj :=
  { o with successors := o.successors ++ [p] }

/-- Modelled from the spec: `OperatorObj::removePredecessors` (`core/operator.cc` is not
among the sources) erases every occurrence. -/
def OperatorObj.removePredecessors (o : OperatorObj) (p : Nat) : OperatorObj :=
  { o with predecessors := o.predecessors.filter (fun q => q != p) }

/-- Modelled from the spec: `OperatorObj::replaceInput(old, new)` (`core/operator.cc` is
not among the sources) replaces every occurrence of `old` among the inputs. -/
def OperatorObj.replaceInput (o : OperatorObj) (t1 t2 : Nat) : OperatorObj :=
  { o with inputs := o.inputs.map (fun t => if t = t1 then t2 else t) }

/-- Modelled from the spec: `TensorObj::addTarget` (`core/tensor.h` is not among the
sources) appends to `targets`. -/
def TensorObj.addTarget (t : TensorObj) (op : Nat) : TensorObj :=
  { t with targets := t.targets ++ [op] }

/-- Modelled from the spec: `TensorObj::removeTarget` (`core/tensor.h` is not among the
sources) erases every occurrence. -/
def TensorObj.removeTarget (t : TensorObj) (op : Nat) : TensorObj :=
  { t with targets := t.targets.filter (fun q => q != op) }

/-- Modelled from the spec: `TensorObj::setSource` (`core/tensor.h` is not among the
sources) sets the producing operator. -/
def TensorObj.setSource (t : TensorObj) (op : Nat) : TensorObj :=
  { t with source := some op }

/-- `GraphObj::addTensor(const Tensor &)`: appends the handle (the runtime assertion is
outside the model). -/
def GraphObj.addTensor (g : GraphObj) (t : Nat) : GraphObj :=
  { g with tensors := g.tensors ++ [t] }

/-- The loop over `op->getInputs()` of `addOperatorAndConnect`. -/
def connectInputs (h : Nat) : List Nat → GraphObj → GraphObj
  | [], g => g
  | input :: rest, g =>
    let g1 := { g with tensor := Function.update g.tensor input ((g.tensor input).addTarget h) }
    let g2 := match (g1.tensor input).source with
      | some pred =>
        let g' := { g1 with op := Function.update g1.op pred ((g1.op pred).addSuccessors h) }
        { g' with op := Function.update g'.op h ((g'.op h).addPredecessors pred) }
      | none => g1
    connectInputs h rest g2

/-- The loop over `output->getTargets()` of `addOperatorAndConnect`. -/
def connectTargets (h : Nat) : List Nat → GraphObj → GraphObj
  | [], g => g
  | succ :: rest, g =>
    let g1 := { g with op := Function.update g.op succ ((g.op succ).addPredecessors h) }
    let g2 := { g1 with op := Function.update g1.op h ((g1.op h).addSuccessors succ) }
    connectTargets h rest g2

/-- The loop over `op->getOutputs()` of `addOperatorAndConnect`. -/
def connectOutputs (h : Nat) : List Nat → GraphObj → GraphObj
  | [], g => g
  | output :: rest, g =>
    let g1 := { g with tensor := Function.update g.tensor output ((g.tensor output).setSource h) }
    connectOutputs h rest (connectTargets h (g1.tensor output).targets g1)

/-- `GraphObj::addOperatorAndConnect` for the operator object at handle `h`. -/
def GraphObj.addOperatorAndConnect (g : GraphObj) (h : Nat) : GraphObj :=
  let g0 := { g with sorted := false, ops := g.ops ++ [h] }
  let g1 := connectInputs h (g0.op h).inputs g0
  connectOutputs h (g1.op h).outputs g1

/-- The test of `topo_sort` that admits `op`: it is not yet flagged and every input has
no source or a flagged source. -/
def topoReady (g : GraphObj) (flags : List Nat) (op : Nat) : Bool :=
  !(flags.contains op) &&
    (g.op op).inputs.all (fun input =>
      match (g.tensor input).source with
      | none => true
      | some ptr => flags.contains ptr)

/-- One run of the loop `for (auto const &op : ops)` of `topo_sort` over the operators
still to visit; the state is `(sorted, flags, modified)`. -/
def topoSweep (g : GraphObj) : List Nat → List Nat × List Nat × Bool → List Nat × List Nat × Bool
  | [], st => st
  | op :: rest, (sorted, flags, modified) =>
    if topoReady g flags op then topoSweep g rest (sorted ++ [op], op :: flags, true)
    else topoSweep g rest (sorted, flags, modified)

/-- The `while (sorted.size() < ops.size())` loop of `topo_sort`, run for at most `fuel`
tests of its condition; `none` when the fuel runs out. The result is the returned flag
and the vector `sorted`. -/
def topoLoop (g : GraphObj) : Nat → List Nat → List Nat → Option (Bool × List Nat)
  | 0, _, _ => none
  | fuel + 1, sorted, flags =>
    if sorted.length < g.ops.length then
      match topoSweep g g.ops (sorted, flags, false) with
      | (sorted', flags', modified) =>
        if !modified then some (false, sorted')
        else topoLoop g fuel sorted' flags'
    else some (true, sorted)

/-- `GraphObj::topo_sort`: the returned flag and the graph afterwards; `none` when the
loop has not ended within `fuel` tests of its condition. -/
def GraphObj.topo_sort (g : GraphObj) (fuel : Nat) : Option (Bool × GraphObj) :=
  if g.sorted then some (true, g)
  else
    match topoLoop g fuel [] [] with
    | none => none
    | some (false, _) => some (false, g)
    | some (true, sorted) => some (true, { g with ops := sorted, sorted := true })

/-- Operator `p` produces an input of operator `q`, both operators of the graph. -/
def Produces (g : GraphObj) (p q : Nat) : Prop :=
  p ∈ g.ops ∧ q ∈ g.ops ∧ ∃ t ∈ (g.op q).inputs, (g.tensor t).source = some p

/-- The producer relation of the graph contains a cycle. -/
def HasCycle (g : GraphObj) : Prop := ∃ op, Relation.TransGen (Produces g) op op

/-- Every input tensor's source, when present, is an operator of the graph. -/
def SourcesInGraph (g : GraphObj) : Prop :=
  ∀ op ∈ g.ops, ∀ t ∈ (g.op op).inputs, ∀ p ∈ (g.tensor t).source, p ∈ g.ops

instance (g : GraphObj) : Decidable (SourcesInGraph g) := by
  unfold SourcesInGraph; infer_instance

/-- In the list `l` every operator stands after the producer of each of its inputs. -/
def ProducersFirst (g : GraphObj) (l : List Nat) : Prop :=
  ∀ l1 op l2, l = l1 ++ op :: l2 →
    ∀ t ∈ (g.op op).inputs, ∀ p, (g.tensor t).source = some p → p ∈ l1

/-- A graph with no tensor and no operator over the given heaps of freshly constructed
objects. -/
def GraphObj.empty (op : Nat → OperatorObj) (tensor : Nat → TensorObj) : GraphObj :=
  { ops := [], tensors := [], sorted := false, op := op, tensor := tensor }

/-- A freshly constructed operator: no predecessor, no successor. -/
def OperatorObj.make (kind : OpKind) (inputs outputs : List Nat) : OperatorObj :=
  { kind := kind, inputs := inputs, outputs := outputs, predecessors := [], successors := [] }

/-- A freshly constructed tensor: no source, no target. -/
def TensorObj.make (fuid : Nat) (dims : Shape) : TensorObj :=
  { fuid := fuid, dims := dims, source := none, targets := [] }

/-- Objects of scenario "transpose cancellation": tensors `X` (0), `Y` (1), `Z` (2),
`W` (3). -/
def cancelTensors : Nat → TensorObj
  | 0 => TensorObj.make 0 [2, 3, 4]
  | 1 => TensorObj.make 1 [2, 4, 3]
  | 2 => TensorObj.make 2 [2, 3, 4]
  | n => TensorObj.make n [2, 3, 3]

/-- Objects of scenario "transpose cancellation": `Y = Transpose(X)` (0),
`Z = Transpose(Y)` (1), `W = MatMul(Z, Z)` (2). -/
def cancelOps : Nat → OperatorObj
  | 0 => OperatorObj.make (.transpose [0, 2, 1]) [0] [1]
  | 1 => OperatorObj.make (.transpose [0, 2, 1]) [1] [2]
  | _ => OperatorObj.make (.matmul false false) [2, 2] [3]

/-- The graph of scenario "transpose cancellation", its operators added in the order
`MatMul`, second transpose, first transpose. -/
def reversedGraph : GraphObj :=
  (((((((GraphObj.empty cancelOps cancelTensors).addTensor 0).addTensor 1).addTensor 2).addTensor 3
    ).addOperatorAndConnect 2).addOperatorAndConnect 1).addOperatorAndConnect 0

/-- Objects of a graph with a cycle: operator 0 reads tensor 1 and writes tensor 0,
operator 1 reads tensor 0 and writes tensor 1. -/
def cycleOps : Nat → OperatorObj
  | 0 => OperatorObj.make .other [1] [0]
  | _ => OperatorObj.make .other [0] [1]

/-- The graph whose tensor and operator links form a cycle. -/
def cycleGraph : GraphObj :=
  ((((GraphObj.empty cycleOps (fun n => TensorObj.make n [1])).addTensor 0).addTensor 1
    ).addOperatorAndConnect 0).addOperatorAndConnect 1

/-! ## Optimizer and validity check (`src/core/graph.cc`) -/

/-- Modelled from the spec: `GraphObj::removeOperator` (`core/graph.h` is not among the
sources), a structural deletion of the first occurrence that clears `sorted`. -/
def GraphObj.removeOperator (g : GraphObj) (op : Nat) : GraphObj :=
  { g with ops := g.ops.erase op, sorted := false }

/-- Modelled from the spec: `GraphObj::removeTensor` (`core/graph.h` is not among the
sources), a structural deletion of the first occurrence that clears `sorted`. -/
def GraphObj.removeTensor (g : GraphObj) (t : Nat) : GraphObj :=
  { g with tensors := g.tensors.erase t, sorted := false }

/-- `getOpType() == OpType::Transpose`. -/
def OpKind.isTranspose : OpKind → Bool
  | .transpose _ => true
  | _ => false

/-- `getOpType() == OpType::MatMul`. -/
def OpKind.isMatMul : OpKind → Bool
  | .matmul _ _ => true
  | _ => false

/-- Modelled from the spec: the accessors of `MatmulObj` (`operators/matmul.h` is not
among the sources) as `optimize` calls them: `setTransA(!getTransA())` when `i == 0`,
else `setTransB(!getTransB())`. -/
def OperatorObj.toggleTrans (o : OperatorObj) (i : Nat) : OperatorObj :=
  match o.kind with
  | .matmul a b =>
    if i = 0 then { o with kind := .matmul (!a) b } else { o with kind := .matmul a (!b) }
  | _ => o

/-- The conversion `(int)` of a `size_t` value (truncation to 32 bits, two's
complement). -/
def sizeToInt (x : Nat) : Int :=
  ((x % 4294967296 + 2147483648) % 4294967296 : Nat) - 2147483648

/-- The test of rule 2,
`permute[size - 1] == (int)(size - 2) && permute[size - 2] == (int)(size - 1)`, the
indices being `size_t` values; `none` when an index that is read lies outside the
vector (undefined behaviour). -/
def lastTwoSwapped (permute : List Int) : Option Bool :=
  let i1 := (permute.length + SIZE - 1) % SIZE
  let i2 := (permute.length + SIZE - 2) % SIZE
  match permute[i1]? with
  | none => none
  | some v1 =>
    if v1 = sizeToInt i2 then
      match permute[i2]? with
      | none => none
      | some v2 => some (decide (v2 = sizeToInt i1))
    else some false

/-- State of `optimize` inside its loop: the two heaps and the vectors `removeOps`,
`removeTensors`. -/
structure OptState where
  op : Nat → OperatorObj
  tensor : Nat → TensorObj
  removeOps : List Nat
  removeTensors : List Nat

/-- Rule 1 of `optimize` for the operator `h`, taken when `h` is a Transpose with
exactly one predecessor. `getInputs(0)` on an operator without input throws (`none`). -/
def cancelStep (h : Nat) (st : OptState) : Option OptState :=
  match (st.op h).predecessors[0]? with
  | none => some st
  | some p =>
    match (st.op p).kind, (st.op h).kind with
    | .transpose prePermute, .transpose curPermute =>
      if curPermute = prePermute then
        match (st.op p).inputs[0]?, (st.op h).inputs[0]? with
        | some pre_input, some cur_input =>
          some { op := Function.update st.op h ((st.op h).replaceInput cur_input pre_input),
                 tensor := Function.update st.tensor pre_input
                   ((st.tensor pre_input).removeTarget p),
                 removeOps := st.removeOps ++ [p, h],
                 removeTensors := st.removeTensors ++ [cur_input] }
        | _, _ => none
      else some st
    | _, _ => some st

/-- One turn of the loop `for (size_t i = 0; i < predecessors.size(); i++)` of rule 2
for the MatMul `h` and its `i`-th predecessor `p`. -/
def fuseStep (h i p : Nat) (st : OptState) : Option OptState :=
  match (st.op p).kind with
  | .transpose permute =>
    match lastTwoSwapped permute with
    | none => none
    | some false => some st
    | some true =>
      let flag := !(st.removeOps.contains p)
      match (st.op p).inputs[0]?, (st.op h).inputs[i]? with
      | some pre_input, some cur_input =>
        let o1 := ((st.op h).replaceInput cur_input pre_input).removePredecessors p
        some { op := Function.update st.op h (if flag then o1.toggleTrans i else o1),
               tensor := Function.update st.tensor pre_input
                 (((st.tensor pre_input).removeTarget p).addTarget h),
               removeOps := if flag then st.removeOps ++ [p] else st.removeOps,
               removeTensors := st.removeTensors ++ [cur_input] }
      | _, _ => none
  | _ => some st

/-- The loop of rule 2 over the copy `predecessors` taken before the loop, from index
`i` on. -/
def fuseLoop (h : Nat) : List Nat → Nat → OptState → Option OptState
  | [], _, st => some st
  | p :: rest, i, st =>
    match fuseStep h i p st with
    | none => none
    | some st' => fuseLoop h rest (i + 1) st'

/-- The body of the loop `for (auto op : ops)` of `optimize` for the operator `h`. -/
def optimizeStep (st : OptState) (h : Nat) : Option OptState :=
  if (st.op h).predecessors.length = 1 ∧ (st.op h).kind.isTranspose = true then
    cancelStep h st
  else if (st.op h).kind.isMatMul = true then
    fuseLoop h (st.op h).predecessors 0 st
  else some st

/-- The loop `for (auto op : ops)` of `optimize`. -/
def optimizeOps : List Nat → OptState → Option OptState
  | [], st => some st
  | h :: rest, st =>
    match optimizeStep st h with
    | none => none
    | some st' => optimizeOps rest st'

/-- `GraphObj::optimize`; `none` when `getInputs` throws or an index is out of range. -/
def GraphObj.optimize (g : GraphObj) : Option GraphObj :=
  match optimizeOps g.ops { op := g.op, tensor := g.tensor, removeOps := [],
                            removeTensors := [] } with
  | none => none
  | some st =>
    some (st.removeTensors.foldl GraphObj.removeTensor
      (st.removeOps.foldl GraphObj.removeOperator
        { g with op := st.op, tensor := st.tensor }))

/-- `GraphObj::checkValid`: `true` when the function returns (it returns `true`), `false`
when one of its `IT_ASSERT`s fails. -/
def GraphObj.checkValid (g : GraphObj) : Bool :=
  g.tensors.all (fun t =>
    !((g.tensor t).targets.length == 0 && (g.tensor t).source.isNone) &&
    (g.tensor t).targets.all (fun op => g.ops.contains op) &&
    (match (g.tensor t).source with
      | some op => g.ops.contains op
      | none => true)) &&
  g.ops.all (fun op =>
    (g.op op).inputs.all (fun t => g.tensors.contains t) &&
    (g.op op).outputs.all (fun t => g.tensors.contains t) &&
    (g.op op).predecessors.all (fun pre => g.ops.contains pre) &&
    (g.op op).successors.all (fun suc => g.ops.contains suc)) &&
  decide ((g.tensors.map (fun t => (g.tensor t).fuid)).Nodup)

/-- Two transposes in a row, `Y = Transpose(X)`, `Z = Transpose(Y)`, same permute
`[0,2,1]`; `Z` is the output of the graph. -/
def chainGraph : GraphObj :=
  (((((GraphObj.empty cancelOps cancelTensors).addTensor 0).addTensor 1).addTensor 2
    ).addOperatorAndConnect 0).addOperatorAndConnect 1

/-- Scenario "transpose cancellation" of the specification, built in order. -/
def cancelGraph : GraphObj :=
  (((((((GraphObj.empty cancelOps cancelTensors).addTensor 0).addTensor 1).addTensor 2).addTensor 3
    ).addOperatorAndConnect 0).addOperatorAndConnect 1).addOperatorAndConnect 2

/-- Objects of a chain of three transposes: `Y = Transpose(X, [0,2,1])` (0),
`Z = Transpose(Y, [0,2,1])` (1), `V = Transpose(Z, [1,0,2])` (2). -/
def chain3Ops : Nat → OperatorObj
  | 0 => OperatorObj.make (.transpose [0, 2, 1]) [0] [1]
  | 1 => OperatorObj.make (.transpose [0, 2, 1]) [1] [2]
  | _ => OperatorObj.make (.transpose [1, 0, 2]) [2] [3]

/-- The chain of three transposes: the third one consumes the output `Z` of the pair
that rule 1 removes. -/
def chain3Graph : GraphObj :=
  (((((((GraphObj.empty chain3Ops cancelTensors).addTensor 0).addTensor 1).addTensor 2).addTensor 3
    ).addOperatorAndConnect 0).addOperatorAndConnect 1).addOperatorAndConnect 2

/-- The permute swaps the last two axes and is the identity on every other axis. -/
def IsLastTwoSwap (permute : List Int) : Prop :=
  2 ≤ permute.length ∧
    permute = (List.range (permute.length - 2)).map Int.ofNat ++
      [((permute.length - 1 : Nat) : Int), ((permute.length - 2 : Nat) : Int)]

instance (permute : List Int) : Decidable (IsLastTwoSwap permute) := by
  unfold IsLastTwoSwap; infer_instance

/-- The situation of rule 2 with a single consumer: operand `i` (0 or 1) of the MatMul
`M` (flags `a`, `b`) is the tensor `z`, produced by the Transpose `T` whose permute
`perm` swaps the last two axes and is the identity elsewhere and whose input is `A`; no
other operand of any operator of the graph is produced by `T`; the other operand of `M`
is not produced by a Transpose. -/
def FuseSite (g : GraphObj) (M T i z A : Nat) (a b : Bool) (perm : List Int) : Prop :=
  (i = 0 ∨ i = 1) ∧
  (g.op M).kind = .matmul a b ∧
  (g.op T).kind = .transpose perm ∧
  IsLastTwoSwap perm ∧
  (g.op M).inputs[i]? = some z ∧
  (g.tensor z).source = some T ∧
  (g.op T).inputs[0]? = some A ∧
  (∀ Q ∈ g.ops, ∀ j < (g.op Q).inputs.length, ∀ t ∈ (g.op Q).inputs[j]?,
    (g.tensor t).source = some T → Q = M ∧ j = i) ∧
  (∀ j < (g.op M).inputs.length, j ≠ i → ∀ t ∈ (g.op M).inputs[j]?,
    ∀ p ∈ (g.tensor t).source, (g.op p).kind.isTranspose = false)

instance (g : GraphObj) (M T i z A : Nat) (a b : Bool) (perm : List Int) :
    Decidable (FuseSite g M T i z A a b perm) := by
  unfold FuseSite; infer_instance

/-- The contract of the operator variants: a Transpose has one input and a non-empty
permute of non-negative entries whose length fits an `int`; a MatMul has two inputs. -/
def OperatorObj.ArityOK (o : OperatorObj) : Prop :=
  match o.kind with
  | .transpose perm =>
    o.inputs.length = 1 ∧ perm ≠ [] ∧ (∀ v ∈ perm, 0 ≤ v) ∧ perm.length < 2147483648
  | .matmul _ _ => o.inputs.length = 2
  | .other => True

instance (o : OperatorObj) : Decidable o.ArityOK := by
  unfold OperatorObj.ArityOK; split <;> infer_instance

/-- The graph is linked the way `addOperatorAndConnect` links operators that are added
after their producers: the operator and tensor lists hold each handle once, the
operators keep the contract of their variant, every source of an input is an operator
of the graph, and the predecessor list of every operator holds the producers of its
inputs in operand order. -/
def LinkedInOrder (g : GraphObj) : Prop :=
  g.ops.Nodup ∧ g.tensors.Nodup ∧ (∀ Q ∈ g.ops, (g.op Q).ArityOK) ∧ SourcesInGraph g ∧
  (∀ Q ∈ g.ops,
    (g.op Q).predecessors = (g.op Q).inputs.filterMap (fun t => (g.tensor t).source))

instance (g : GraphObj) : Decidable (LinkedInOrder g) := by
  unfold LinkedInOrder; infer_instance

/-- Rule 1 does not remove the Transpose `T`: it is not a Transpose whose only
predecessor is a Transpose with the same permute. -/
def NotCancelled (g : GraphObj) (T : Nat) : Prop :=
  ∀ p ∈ (g.op T).predecessors, (g.op T).predecessors.length = 1 →
    (g.op p).kind ≠ (g.op T).kind

instance (g : GraphObj) (T : Nat) : Decidable (NotCancelled g T) := by
  unfold NotCancelled; infer_instance

/-- The predecessor index of the producer of operand `i` of `M` is `i`: operand 0 has a
producer when `i = 1`. -/
def OperandAligned (g : GraphObj) (M i : Nat) : Prop :=
  i = 1 → ∃ t ∈ (g.op M).inputs[0]?, (g.tensor t).source ≠ none

instance (g : GraphObj) (M i : Nat) : Decidable (OperandAligned g M i) := by
  unfold OperandAligned; infer_instance

/-- Objects of scenario "MatMul fusion, operand A": tensors `A` (0), `B` (1), `At` (2),
`C` (3). -/
def fuseTensors : Nat → TensorObj
  | 0 => TensorObj.make 0 [1, 4, 3]
  | 1 => TensorObj.make 1 [1, 3, 5]
  | 2 => TensorObj.make 2 [1, 3, 4]
  | n => TensorObj.make n [1, 4, 5]

/-- Objects of scenario "MatMul fusion, operand A": `At = Transpose(A, [0,2,1])` (0),
`C = MatMul(At, B)` (1). -/
def fuseOps : Nat → OperatorObj
  | 0 => OperatorObj.make (.transpose [0, 2, 1]) [0] [2]
  | _ => OperatorObj.make (.matmul false false) [2, 1] [3]

/-- Scenario "MatMul fusion, operand A" of the specification. -/
def fuseGraph : GraphObj :=
  ((((((GraphObj.empty fuseOps fuseTensors).addTensor 0).addTensor 1).addTensor 2).addTensor 3
    ).addOperatorAndConnect 0).addOperatorAndConnect 1

/-- Objects of a transposed pair in front of a MatMul: tensors `X` (0), `Y` (1), `Z` (2),
`B` (3), `C` (4). -/
def pairTensors : Nat → TensorObj
  | 0 => TensorObj.make 0 [1, 4, 3]
  | 1 => TensorObj.make 1 [1, 3, 4]
  | 2 => TensorObj.make 2 [1, 4, 3]
  | 3 => TensorObj.make 3 [1, 3, 5]
  | n => TensorObj.make n [1, 4, 5]

/-- Objects of a transposed pair in front of a MatMul: `Y = Transpose(X, [0,2,1])` (0),
`Z = Transpose(Y, [0,2,1])` (1), `C = MatMul(Z, B)` (2). -/
def pairOps : Nat → OperatorObj
  | 0 => OperatorObj.make (.transpose [0, 2, 1]) [0] [1]
  | 1 => OperatorObj.make (.transpose [0, 2, 1]) [1] [2]
  | _ => OperatorObj.make (.matmul false false) [2, 3] [4]

/-- A MatMul whose operand 0 is the output of the second of two equal transposes. -/
def pairGraph : GraphObj :=
  ((((((((GraphObj.empty pairOps pairTensors).addTensor 0).addTensor 1).addTensor 2).addTensor 3
    ).addTensor 4).addOperatorAndConnect 0).addOperatorAndConnect 1).addOperatorAndConnect 2

/-- Objects of a MatMul whose operand 1 is transposed and whose operand 0 is a graph
input: tensors `A` (0), `B` (1), `Bt` (2), `C` (3); `Bt = Transpose(B, [0,2,1])` (0),
`C = MatMul(A, Bt)` (1). -/
def operandBOps : Nat → OperatorObj
  | 0 => OperatorObj.make (.transpose [0, 2, 1]) [1] [2]
  | _ => OperatorObj.make (.matmul false false) [0, 2] [3]

/-- A MatMul whose operand 1 is transposed and whose operand 0 is a graph input. -/
def operandBGraph : GraphObj :=
  ((((((GraphObj.empty operandBOps fuseTensors).addTensor 0).addTensor 1).addTensor 2).addTensor 3
    ).addOperatorAndConnect 0).addOperatorAndConnect 1

/-- What every turn of the loop of `optimize` keeps, relative to the graph `g` it
started from: the number of inputs of every operator, the variant and attributes of
every operator that is not a MatMul, the variant of every MatMul, and the input `A` of
the Transpose `T`. -/
structure OptInv (g : GraphObj) (T A : Nat) (st : OptState) : Prop where
  len : ∀ Q, (st.op Q).inputs.length = (g.op Q).inputs.length
  kind : ∀ Q, (g.op Q).kind.isMatMul = false → (st.op Q).kind = (g.op Q).kind
  mm : ∀ Q, (g.op Q).kind.isMatMul = true → (st.op Q).kind.isMatMul = true
  inT : (st.op T).inputs[0]? = some A

/-- What a turn of the loop of `optimize` for an operator `h` keeps of the Transpose
`T`, the MatMul `M` and the tensor `A`: every other operator object, the marks in
`removeOps` and `removeTensors`, `T` unmarked, `M` among the targets of `A` and `T` not
among them. -/
structure StepKeeps (M T A h : Nat) (st st' : OptState) : Prop where
  ops : ∀ Q, Q ≠ h → st'.op Q = st.op Q
  unmarked : T ∉ st.removeOps → T ∉ st'.removeOps
  marks : ∀ x ∈ st.removeOps, x ∈ st'.removeOps
  tmarks : ∀ x ∈ st.removeTensors, x ∈ st'.removeTensors
  target : M ∈ (st.tensor A).targets → M ∈ (st'.tensor A).targets
  notarget : T ∉ (st.tensor A).targets → T ∉ (st'.tensor A).targets

/-- The state of `optimize` once rule 2 has rewired operand `i` of the MatMul `M`
(flags `a`, `b` at the start) from the output `z` of the Transpose `T` to its input
`A`. -/
structure Fused (M T i z A : Nat) (a b : Bool) (st : OptState) : Prop where
  input : (st.op M).inputs[i]? = some A
  flags : (st.op M).kind = if i = 0 then .matmul (!a) b else .matmul a (!b)
  marked : T ∈ st.removeOps
  tmarked : z ∈ st.removeTensors
  target : M ∈ (st.tensor A).targets
  notarget : T ∉ (st.tensor A).targets

/-- What the proof of rule 2 uses of the situation `FuseSite` in a graph linked in
order. -/
structure FuseFacts (g : GraphObj) (M T i z A : Nat) (a b : Bool) (perm : List Int) :
    Prop where
  kM : (g.op M).kind = .matmul a b
  kT : (g.op T).kind = .transpose perm
  sw : lastTwoSwapped perm = some true
  inz : (g.op M).inputs[i]? = some z
  inA : (g.op T).inputs[0]? = some A
  preds : ∃ pre post, (g.op M).predecessors = pre ++ T :: post ∧ pre.length = i ∧
    ∀ p ∈ pre ++ post, (g.op p).kind.isTranspose = false
  other : ∀ h ∈ g.ops, h ≠ M → T ∉ (g.op h).predecessors
  arity : ∀ h ∈ g.ops, (g.op h).ArityOK ∧ (∀ p ∈ (g.op h).predecessors, (g.op p).ArityOK) ∧
    (g.op h).predecessors.length ≤ (g.op h).inputs.length
  nc : NotCancelled g T

/-- Alignment invariant of the planning phase, wrap-around included: `peak`, every
free-list key and length, and every live offset and aligned size are multiples of 8. -/
structure AlignedInv (s : Session) : Prop where
  ptr : s.a.ptr = none
  align : s.a.alignment = 8
  peak : s.a.peak % 8 = 0
  fb : ∀ e ∈ s.a.freeBlock, e.1 % 8 = 0 ∧ e.2 % 8 = 0
  live : ∀ l ∈ s.live, l.offset % 8 = 0 ∧ l.aligned % 8 = 0

/-- Total length of the entries of the free list. -/
def freeTotal (m : FreeMap) : Nat := (m.map Prod.snd).sum

/-- Accounting of the planning phase: the aligned sizes of the live allocations and the
lengths of the free-list entries together make up `peak`. -/
def Accounted (s : Session) : Prop :=
  (s.live.map Live.aligned).sum + freeTotal s.a.freeBlock = s.a.peak

/-! ## Memory planning of the graph (`GraphObj::dataMalloc`) -/

/-- `Allocator::getPtr`: the pointer it returns and the state afterwards. `rtAlloc` stands
for `runtime->alloc`, whose code is not among the sources; the null pointer is `0`. -/
def Allocator.getPtr (a : Allocator) (rtAlloc : Nat → Nat) : Nat × Allocator :=
  match a.ptr with
  | none => (rtAlloc a.peak, { a with ptr := if rtAlloc a.peak = 0 then none
                                              else some (rtAlloc a.peak) })
  | some p => (p, a)

/-- Modelled from the spec: `TensorObj::getBytes` (`core/tensor.h` is not among the
sources); the specification gives `byte_size = product(shape) * sizeof(dtype)`. `elem` is
`sizeof(dtype)`, the arithmetic is that of `size_t`. -/
def TensorObj.getBytes (elem : Nat) (t : TensorObj) : Nat :=
  ((t.dims.map Int.toNat).prod * elem) % SIZE

/-- The first loop of `dataMalloc`: `offsets.push_back(allocator.alloc(tensor->getBytes()))`
for every tensor in order; `bytes` gives `getBytes()` of a tensor handle. -/
def allocTensors (bytes : Nat → Nat) : List Nat → Allocator → Option (List Nat × Allocator)
  | [], a => some ([], a)
  | t :: ts, a =>
    match a.alloc (bytes t) with
    | none => none
    | some (off, a1) =>
      match allocTensors bytes ts a1 with
      | none => none
      | some (offs, a2) => some (off :: offs, a2)

/-- What `dataMalloc` leaves behind: the allocator, the pointer `getPtr` returned, and the
address bound to each tensor by `setDataBlob`, in the order of the tensor list. -/
structure DataLayout where
  allocator : Allocator
  base : Nat
  blobs : List (Nat × Nat)
deriving DecidableEq, Repr

/-- The second loop of `dataMalloc`, `for (int i = 0; i < vecSize; i++)` with
`int vecSize = offsets.size()`: the first `vecSize` tensors are bound (none when the
converted value is not positive), tensor `i` to `ptr + offsets[i]` computed in
`uintptr_t`. -/
def bindBlobs (ptr : Nat) (tensors offsets : List Nat) : List (Nat × Nat) :=
  ((tensors.zip offsets).take (sizeToInt offsets.length).toNat).map
    (fun p => (p.1, (ptr + p.2) % SIZE))

/-- `GraphObj::dataMalloc` with the graph's allocator `a`: `none` when the assertion
`topo_sort() == true` or an assertion of `alloc` fails. -/
def GraphObj.dataMalloc (g : GraphObj) (a : Allocator) (bytes rtAlloc : Nat → Nat)
    (fuel : Nat) : Option (GraphObj × DataLayout) :=
  match g.topo_sort fuel with
  | some (true, g1) =>
    match allocTensors bytes g1.tensors a with
    | none => none
    | some (offsets, a1) =>
      some (g1, { allocator := (a1.getPtr rtAlloc).2, base := (a1.getPtr rtAlloc).1,
                  blobs := bindBlobs (a1.getPtr rtAlloc).1 g1.tensors offsets })
  | _ => none

/-- The least multiple of 8 that is at least `n`. -/
def align8 (n : Nat) : Nat := (n + 7) / 8 * 8

/-- The offsets `sum over j < i of align8 (bytes t_j)`, counted from `p`. -/
def prefixOffsets (bytes : Nat → Nat) : Nat → List Nat → List Nat
  | _, [] => []
  | p, t :: ts => p :: prefixOffsets bytes (p + align8 (bytes t)) ts

/-- Objects of a graph with two `Float32` tensors of shape `[2147483647, 2147483647]`,
the second one computed from the first by one operator. -/
def hugeGraph : GraphObj :=
  (((GraphObj.empty (fun _ => OperatorObj.make .other [0] [1])
      (fun n => TensorObj.make n [2147483647, 2147483647])).addTensor 0).addTensor 1
    ).addOperatorAndConnect 0

/-- The sum over all tensors `t` of the list of `align8 (bytes t)`. -/
def plannedTotal (bytes : Nat → Nat) (ts : List Nat) : Nat :=
  (ts.map (fun t => align8 (bytes t))).sum

/-- The sum over `j < i` of `align8 (bytes t_j)`. -/
def plannedOffset (bytes : Nat → Nat) (ts : List Nat) (i : Nat) : Nat :=
  plannedTotal bytes (ts.take i)

/-- The byte sizes `getBytes()` of the tensors of `g` when every tensor is `Float32`. -/
def f32Bytes (g : GraphObj) (t : Nat) : Nat := (g.tensor t).getBytes 4

/-- A graph that passes `checkValid` although its cross references are broken: tensor 0
names operator 0 as its source without being one of its outputs, and operator 0 reads
tensor 0 without being one of its targets. -/
def crossRefGraph : GraphObj :=
  { ops := [0], tensors := [0, 1], sorted := false,
    op := fun _ => OperatorObj.make .other [0] [1],
    tensor := fun n => { fuid := n, dims := [1], source := some 0, targets := [] } }

/-- Modelled from the spec: the shape computed by `Transpose` (`operators/transpose.cc` is
not among the sources); the specification gives `out[i] = in[permute[i]]`. -/
def permuteShape (permute : List Int) (s : Shape) : Shape :=
  permute.map (fun p => s.getD p.toNat 0)

/-- Objects of two rotations in a row: `Y = Transpose(X, [1,2,0])` (0),
`Z = Transpose(Y, [1,2,0])` (1), with `X : [2,3,4]`, `Y : [3,4,2]`, `Z : [4,2,3]`. -/
def rotateOps : Nat → OperatorObj
  | 0 => OperatorObj.make (.transpose [1, 2, 0]) [0] [1]
  | _ => OperatorObj.make (.transpose [1, 2, 0]) [1] [2]

/-- Tensors of `rotateGraph`. -/
def rotateTensors : Nat → TensorObj
  | 0 => TensorObj.make 0 [2, 3, 4]
  | 1 => TensorObj.make 1 [3, 4, 2]
  | n => TensorObj.make n [4, 2, 3]

/-- Two transposes in a row with the same permute `[1,2,0]`, which is not its own
inverse. -/
def rotateGraph : GraphObj :=
  (((((GraphObj.empty rotateOps rotateTensors).addTensor 0).addTensor 1).addTensor 2
    ).addOperatorAndConnect 0).addOperatorAndConnect 1

/-- Objects of a MatMul that reads one transposed tensor on both operands: tensors `A` (0),
`At` (1), `C` (2); `At = Transpose(A, [0,2,1])` (0), `C = MatMul(At, At)` (1). -/
def sharedOps : Nat → OperatorObj
  | 0 => OperatorObj.make (.transpose [0, 2, 1]) [0] [1]
  | _ => OperatorObj.make (.matmul false false) [1, 1] [2]

/-- The graph `At = Transpose(A, [0,2,1])`, `C = MatMul(At, At)` with `A : [1,4,4]`. -/
def sharedGraph : GraphObj :=
  (((((GraphObj.empty sharedOps (fun n => TensorObj.make n [1, 4, 4])).addTensor 0).addTensor 1
    ).addTensor 2).addOperatorAndConnect 0).addOperatorAndConnect 1

/-- Objects of two MatMuls that read one transposed tensor: tensors `A` (0), `At` (1),
`B` (2), `C` (3), `D` (4); `At = Transpose(A, [0,2,1])` (0), `C = MatMul(At, B)` (1),
`D = MatMul(At, B)` (2). -/
def twoConsumerOps : Nat → OperatorObj
  | 0 => OperatorObj.make (.transpose [0, 2, 1]) [0] [1]
  | 1 => OperatorObj.make (.matmul false false) [1, 2] [3]
  | _ => OperatorObj.make (.matmul false false) [1, 2] [4]

/-- The graph of two MatMuls whose operand 0 is the output of one Transpose. -/
def twoConsumerGraph : GraphObj :=
  (((((((((GraphObj.empty twoConsumerOps (fun n => TensorObj.make n [1, 4, 4])).addTensor 0
    ).addTensor 1).addTensor 2).addTensor 3).addTensor 4).addOperatorAndConnect 0
    ).addOperatorAndConnect 1).addOperatorAndConnect 2)

/-- Objects of a graph whose operators are added consumer first: `C` (0) reads tensor 1,
`A` (1) computes tensor 1 from the graph input 0, `B` (2) computes tensor 3 from the graph
input 0. -/
def tieOps : Nat → OperatorObj
  | 0 => OperatorObj.make .other [1] [2]
  | 1 => OperatorObj.make .other [0] [1]
  | _ => OperatorObj.make .other [0] [3]

/-- The graph with operator list `[C, A, B]`, where `A` produces the input of `C` and `B`
depends on neither. -/
def tieGraph : GraphObj :=
  (((((((GraphObj.empty tieOps (fun n => TensorObj.make n [1])).addTensor 0).addTensor 1
    ).addTensor 2).addTensor 3).addOperatorAndConnect 0).addOperatorAndConnect 1
    ).addOperatorAndConnect 2

/-- The condition of rule 1 holds for the operator `h` in the state `st`: it is a
Transpose with exactly one predecessor, a Transpose with the same permute. -/
def R1Fires (st : OptState) (h : Nat) : Prop :=
  (st.op h).predecessors.length = 1 ∧
  ∃ p perm, (st.op h).predecessors[0]? = some p ∧ (st.op p).kind = .transpose perm ∧
    (st.op h).kind = .transpose perm

/-- The test of rule 2 fails on the operator `q`: it is no Transpose, or a Transpose for
which the test evaluates to `false`. -/
def TestFails (st : OptState) (q : Nat) : Prop :=
  ∀ perm, (st.op q).kind = .transpose perm → lastTwoSwapped perm = some false

/-- The loop of `optimize` has nothing left to do for the operator `h`: if the condition
of rule 1 holds it is marked for removal, and if it is a MatMul the test of rule 2 fails
on each of its predecessors. -/
def Settled (st : OptState) (h : Nat) : Prop :=
  (R1Fires st h → h ∈ st.removeOps) ∧
  ((st.op h).kind.isMatMul = true → ∀ q ∈ (st.op h).predecessors, TestFails st q)

/-- What a turn of the loop of `optimize` for the operator `h` keeps: every other
operator object, the variant and attributes of `h` unless it is a MatMul, which stays a
MatMul, the predecessors of `h` unless it is a MatMul, the number of inputs of `h`, and
the marks in `removeOps`. -/
structure StepFrame (h : Nat) (st st' : OptState) : Prop where
  ops : ∀ x, x ≠ h → st'.op x = st.op x
  kind : (st'.op h).kind = (st.op h).kind ∨
    ((st.op h).kind.isMatMul = true ∧ (st'.op h).kind.isMatMul = true)
  preds : (st.op h).kind.isMatMul = false → (st'.op h).predecessors = (st.op h).predecessors
  marks : ∀ x ∈ st.removeOps, x ∈ st'.removeOps
  len : (st'.op h).inputs.length = (st.op h).inputs.length

/-- What the loop of `optimize` keeps of every operator, relative to the graph `g` it
started from: the number of inputs, the variant and permute of a Transpose, and whether
the operator is a MatMul. -/
structure ArityInv (g : GraphObj) (st : OptState) : Prop where
  len : ∀ Q, (st.op Q).inputs.length = (g.op Q).inputs.length
  tr : ∀ Q perm, (st.op Q).kind = .transpose perm ↔ (g.op Q).kind = .transpose perm
  mm : ∀ Q, (st.op Q).kind.isMatMul = (g.op Q).kind.isMatMul

/-- The permute ends with the entries `n - 1`, `n - 2` (`n` its length), which is all that
the test of rule 2 looks at. -/
def EndsSwapped (permute : List Int) : Prop :=
  2 ≤ permute.length ∧
    permute[permute.length - 1]? = some (Int.ofNat (permute.length - 2)) ∧
    permute[permute.length - 2]? = some (Int.ofNat (permute.length - 1))

instance (permute : List Int) : Decidable (EndsSwapped permute) := by
  unfold EndsSwapped; infer_instance

/-- The operator is a Transpose whose permute ends swapped: it passes the test of rule 2. -/
def OpKind.PassesTest : OpKind → Prop
  | .transpose q => EndsSwapped q
  | _ => False

instance (k : OpKind) : Decidable k.PassesTest := by
  unfold OpKind.PassesTest; split <;> infer_instance

/-- The situation in which rule 2 has nothing to do for the MatMul `M`: operand `i` of `M`
is the tensor `z`, produced by the Transpose `T` with permute `perm`; no operand of `M`
is produced by a Transpose whose permute ends swapped (so `perm` does not); and no
operator of the graph other than `M` reads a tensor produced by `T`. -/
def InertSite (g : GraphObj) (M T i z : Nat) (perm : List Int) : Prop :=
  (g.op M).kind.isMatMul = true ∧
  (g.op T).kind = .transpose perm ∧
  (g.op M).inputs[i]? = some z ∧
  (g.tensor z).source = some T ∧
  (∀ t ∈ (g.op M).inputs, ∀ p ∈ (g.tensor t).source, ¬ (g.op p).kind.PassesTest) ∧
  (∀ Q ∈ g.ops, ∀ t ∈ (g.op Q).inputs, (g.tensor t).source = some T → Q = M)

instance (g : GraphObj) (M T i z : Nat) (perm : List Int) :
    Decidable (InertSite g M T i z perm) := by
  unfold InertSite; infer_instance

/-- What the loop of `optimize` keeps in the situation `InertSite`, relative to the graph
`g` it started from: the operator object of `M`, `T` and `z` unmarked, and `z` no input of
any other operator of the graph. -/
structure InertInv (g : GraphObj) (M T z : Nat) (st : OptState) : Prop where
  arity : ArityInv g st
  opM : st.op M = g.op M
  unmarked : T ∉ st.removeOps
  tunmarked : z ∉ st.removeTensors
  noz : ∀ Q ∈ g.ops, Q ≠ M → z ∉ (st.op Q).inputs

/-- What the proof uses of the situation `InertSite` in a graph linked in order. -/
structure InertFacts (g : GraphObj) (M T z : Nat) : Prop where
  mm : (g.op M).kind.isMatMul = true
  failM : ∀ q ∈ (g.op M).predecessors, ∀ perm, (g.op q).kind = .transpose perm →
    lastTwoSwapped perm = some false
  other : ∀ h ∈ g.ops, h ≠ M → T ∉ (g.op h).predecessors
  pm : ∀ h ∈ g.ops, ∀ p ∈ (g.op h).predecessors, p ∈ g.ops
  nc : NotCancelled g T

/-- Objects of a MatMul whose operand 0 is permuted by `[2,0,1]`: tensors `A` (0),
`B` (1), `At` (2), `C` (3); `At = Transpose(A, [2,0,1])` (0), `C = MatMul(At, B)` (1). -/
def inertOps : Nat → OperatorObj
  | 0 => OperatorObj.make (.transpose [2, 0, 1]) [0] [2]
  | _ => OperatorObj.make (.matmul false false) [2, 1] [3]

/-- Tensors of `inertGraph`: `A : [4,1,3]`, `B : [1,4,5]`, `At : [3,4,1]`, `C : [3,4,5]`. -/
def inertTensors : Nat → TensorObj
  | 0 => TensorObj.make 0 [4, 1, 3]
  | 1 => TensorObj.make 1 [1, 4, 5]
  | 2 => TensorObj.make 2 [3, 4, 1]
  | n => TensorObj.make n [3, 4, 5]

/-- The specification's scenario of a Transpose that is not a last-two swap in front of a
MatMul. -/
def inertGraph : GraphObj :=
  ((((((GraphObj.empty inertOps inertTensors).addTensor 0).addTensor 1).addTensor 2).addTensor 3
    ).addOperatorAndConnect 0).addOperatorAndConnect 1

/-- Objects of a MatMul with both operands transposed: tensors `A` (0), `B` (1), `At` (2),
`Bt` (3), `C` (4); `At = Transpose(A, [2,0,1])` (0), `Bt = Transpose(B, [0,2,1])` (1),
`C = MatMul(At, Bt)` (2). -/
def mixedOps : Nat → OperatorObj
  | 0 => OperatorObj.make (.transpose [2, 0, 1]) [0] [2]
  | 1 => OperatorObj.make (.transpose [0, 2, 1]) [1] [3]
  | _ => OperatorObj.make (.matmul false false) [2, 3] [4]

/-- Tensors of `mixedGraph`. -/
def mixedTensors : Nat → TensorObj
  | 0 => TensorObj.make 0 [4, 1, 3]
  | 1 => TensorObj.make 1 [1, 5, 4]
  | 2 => TensorObj.make 2 [3, 4, 1]
  | 3 => TensorObj.make 3 [1, 4, 5]
  | n => TensorObj.make n [3, 4, 5]

/-- A MatMul whose operand 0 is permuted by `[2,0,1]` and whose operand 1 is a last-two
swap. -/
def mixedGraph : GraphObj :=
  ((((((((GraphObj.empty mixedOps mixedTensors).addTensor 0).addTensor 1).addTensor 2).addTensor 3
    ).addTensor 4).addOperatorAndConnect 0).addOperatorAndConnect 1).addOperatorAndConnect 2

/-- Objects of a MatMul whose operand 0 is permuted by `[1,0,3,2]`: tensors `A` (0),
`B` (1), `At` (2), `C` (3); `At = Transpose(A, [1,0,3,2])` (0), `C = MatMul(At, B)` (1). -/
def doubleSwapOps : Nat → OperatorObj
  | 0 => OperatorObj.make (.transpose [1, 0, 3, 2]) [0] [2]
  | _ => OperatorObj.make (.matmul false false) [2, 1] [3]

/-- Tensors of `doubleSwapGraph`. -/
def doubleSwapTensors : Nat → TensorObj
  | 0 => TensorObj.make 0 [2, 3, 4, 5]
  | 1 => TensorObj.make 1 [3, 2, 4, 6]
  | 2 => TensorObj.make 2 [3, 2, 5, 4]
  | n => TensorObj.make n [3, 2, 5, 6]

/-- A MatMul whose operand 0 is produced by a Transpose that swaps the last two axes and
also the first two. -/
def doubleSwapGraph : GraphObj :=
  ((((((GraphObj.empty doubleSwapOps doubleSwapTensors).addTensor 0).addTensor 1).addTensor 2
    ).addTensor 3).addOperatorAndConnect 0).addOperatorAndConnect 1

/-- A graph whose operator list holds one operator twice: `addOperatorAndConnect` is
called twice for the operator 0, which computes tensor 1 from the graph input 0. -/
def dupGraph : GraphObj :=
  ((((GraphObj.empty (fun _ => OperatorObj.make .other [0] [1])
      (fun n => TensorObj.make n [1])).addTensor 0).addTensor 1
    ).addOperatorAndConnect 0).addOperatorAndConnect 0

/-- The contract of the operator variants in a graph: every operator of the graph and
every predecessor of an operator of the graph keeps the contract of its variant
(`ArityOK`), and an operator has no more predecessors than inputs. The operator list may
hold an operator more than once. -/
def ArityLinked (g : GraphObj) : Prop :=
  ∀ h ∈ g.ops, (g.op h).ArityOK ∧ (∀ p ∈ (g.op h).predecessors, (g.op p).ArityOK) ∧
    (g.op h).predecessors.length ≤ (g.op h).inputs.length

instance (g : GraphObj) : Decidable (ArityLinked g) := by
  unfold ArityLinked; infer_instance

/-- The graph of scenario "MatMul fusion, operand A" with `addOperatorAndConnect` called
twice for the Transpose: the operator list is `[Transpose, Transpose, MatMul]`. -/
def dupFuseGraph : GraphObj :=
  (((((((GraphObj.empty fuseOps fuseTensors).addTensor 0).addTensor 1).addTensor 2).addTensor 3
    ).addOperatorAndConnect 0).addOperatorAndConnect 0).addOperatorAndConnect 1

/-! # Proofs -/

/-! ## The ordered map -/

theorem mem_mapErase {k : Nat} {m : FreeMap} {x : Nat × Nat} :
    x ∈ mapErase k m ↔ x ∈ m ∧ x.1 ≠ k := by
  simp [mapErase]

theorem mapWF_mapErase {k : Nat} {m : FreeMap} (h : MapWF m) : MapWF (mapErase k m) :=
  List.Pairwise.filter _ h

theorem mapWF_key_inj {m : FreeMap} (h : MapWF m) {x y : Nat × Nat}
    (hx : x ∈ m) (hy : y ∈ m) (hk : x.1 = y.1) : x = y := by
  induction m with
  | nil => simp at hx
  | cons e t ih =>
    rw [MapWF, List.pairwise_cons] at h
    rcases List.mem_cons.1 hx with rfl | hx'
    · rcases List.mem_cons.1 hy with rfl | hy'
      · rfl
      · have := h.1 y hy'; omega
    · rcases List.mem_cons.1 hy with rfl | hy'
      · have := h.1 x hx'; omega
      · exact ih h.2 hx' hy'

theorem mem_mapInsert {k v : Nat} {m : FreeMap} (h : MapWF m) {x : Nat × Nat} :
    x ∈ mapInsert k v m ↔ x = (k, v) ∨ (x ∈ m ∧ x.1 ≠ k) := by
  induction m with
  | nil => simp [mapInsert]
  | cons e t ih =>
    rw [MapWF, List.pairwise_cons] at h
    unfold mapInsert
    by_cases h1 : k < e.1
    · rw [if_pos h1]
      simp only [List.mem_cons]
      constructor
      · rintro (rfl | rfl | hx)
        · exact Or.inl rfl
        · exact Or.inr ⟨Or.inl rfl, by omega⟩
        · exact Or.inr ⟨Or.inr hx, by have := h.1 x hx; omega⟩
      · rintro (rfl | ⟨hx, _⟩)
        · exact Or.inl rfl
        · exact Or.inr hx
    · by_cases h2 : k = e.1
      · rw [if_neg h1, if_pos h2]
        simp only [List.mem_cons]
        constructor
        · rintro (rfl | hx)
          · exact Or.inl rfl
          · exact Or.inr ⟨Or.inr hx, by have := h.1 x hx; omega⟩
        · rintro (rfl | ⟨rfl | hx, hne⟩)
          · exact Or.inl rfl
          · exact absurd h2.symm hne
          · exact Or.inr hx
      · rw [if_neg h1, if_neg h2]
        simp only [List.mem_cons, ih h.2]
        constructor
        · rintro (rfl | rfl | ⟨hx, hne⟩)
          · exact Or.inr ⟨Or.inl rfl, fun h => h2 h.symm⟩
          · exact Or.inl rfl
          · exact Or.inr ⟨Or.inr hx, hne⟩
        · rintro (rfl | ⟨rfl | hx, hne⟩)
          · exact Or.inr (Or.inl rfl)
          · exact Or.inl rfl
          · exact Or.inr (Or.inr ⟨hx, hne⟩)

theorem mapWF_mapInsert {k v : Nat} {m : FreeMap} (h : MapWF m) : MapWF (mapInsert k v m) := by
  induction m with
  | nil => simp [mapInsert, MapWF]
  | cons e t ih =>
    have h0 := h
    rw [MapWF, List.pairwise_cons] at h
    unfold mapInsert
    by_cases h1 : k < e.1
    · rw [if_pos h1]
      rw [MapWF, List.pairwise_cons]
      refine ⟨?_, h0⟩
      intro y hy
      rcases List.mem_cons.1 hy with rfl | hy'
      · exact h1
      · have := h.1 y hy'; simp only; omega
    · by_cases h2 : k = e.1
      · rw [if_neg h1, if_pos h2]
        rw [MapWF, List.pairwise_cons]
        exact ⟨fun y hy => by have := h.1 y hy; simp only; omega, h.2⟩
      · rw [if_neg h1, if_neg h2]
        rw [MapWF, List.pairwise_cons]
        refine ⟨?_, ih h.2⟩
        intro y hy
        rcases (mem_mapInsert h.2).1 hy with rfl | ⟨hy', _⟩
        · simp only; omega
        · exact h.1 y hy'



/-! ## The allocator's invariant -/

theorem rangesDisjoint_iff_sep {o1 l1 o2 l2 : Nat} :
    RangesDisjoint o1 l1 o2 l2 ↔ Sep o1 l1 o2 l2 := by
  unfold RangesDisjoint Sep
  constructor
  · intro h
    by_contra hc
    rcases Nat.le_total o1 o2 with h12 | h12
    · exact h o2 h12 (by omega) (le_refl _) (by omega)
    · exact h o1 (le_refl _) (by omega) h12 (by omega)
  · intro h x h1 h2 h3 h4
    omega

theorem sep_symm {o1 l1 o2 l2 : Nat} (h : Sep o1 l1 o2 l2) : Sep o2 l2 o1 l1 := by
  unfold Sep at *; omega

theorem getAlignedSize_eq {a : Allocator} (h8 : a.alignment = 8) (n : Nat) :
    a.getAlignedSize n = some ((((n + SIZE - 1) % SIZE) / 8 + 1) % SIZE * 8 % SIZE) := by
  simp [Allocator.getAlignedSize, h8]

theorem getAlignedSize_bounds {a : Allocator} (h8 : a.alignment = 8) {n s : Nat}
    (h : a.getAlignedSize n = some s) : s < SIZE ∧ s % 8 = 0 := by
  rw [getAlignedSize_eq h8] at h
  simp only [Option.some.injEq, SIZE] at h
  simp only [SIZE]
  omega

/-- The three outcomes of `alloc`: bump at `peak`, first fit, growth of the tail span. -/
theorem alloc_cases {a a' : Allocator} {size0 s off : Nat} (hp : a.ptr = none)
    (hs : a.getAlignedSize size0 = some s) (h : a.alloc size0 = some (off, a')) :
    (off = a.peak ∧ a' = { a with peak := (a.peak + s) % SIZE, used := (a.used + s) % SIZE } ∧
        (∀ e ∈ a.freeBlock, e.2 < s) ∧
        (∀ it, a.freeBlock.getLast? = some it → (it.1 + it.2) % SIZE ≠ a.peak)) ∨
    (∃ it, a.freeBlock.find? (fun it => decide (s ≤ it.2)) = some it ∧ off = it.1 ∧
        a' = { a with
          freeBlock := mapInsert ((it.1 + s) % SIZE) ((it.2 + SIZE - s) % SIZE)
            (mapErase it.1 a.freeBlock),
          used := (a.used + s) % SIZE }) ∨
    (∃ it, (∀ e ∈ a.freeBlock, e.2 < s) ∧ a.freeBlock.getLast? = some it ∧
        (it.1 + it.2) % SIZE = a.peak ∧ off = it.1 ∧
        a' = { a with
          peak := (a.peak + (s + SIZE - it.2) % SIZE) % SIZE,
          freeBlock := mapErase it.1 a.freeBlock,
          used := (a.used + s) % SIZE }) := by
  unfold Allocator.alloc at h
  have hne : ¬ (a.ptr ≠ none) := by simp [hp]
  rw [if_neg hne] at h
  simp only [hs] at h
  by_cases h0 : a.freeBlock.length = 0
  · simp only [h0, if_true, Option.some.injEq, Prod.mk.injEq] at h
    have hnil : a.freeBlock = [] := List.length_eq_zero.1 h0
    left
    refine ⟨h.1.symm, h.2.symm, ?_, ?_⟩
    · simp [hnil]
    · simp [hnil]
  · simp only [h0, if_false] at h
    cases hf : a.freeBlock.find? (fun it => decide (s ≤ it.2)) with
    | some it =>
      simp only [hf, Option.some.injEq, Prod.mk.injEq] at h
      right; left
      exact ⟨it, rfl, h.1.symm, h.2.symm⟩
    | none =>
      simp only [hf] at h
      have hall : ∀ e ∈ a.freeBlock, e.2 < s := by
        intro e he
        have := List.find?_eq_none.1 hf e he
        simpa using this
      cases hl : a.freeBlock.getLast? with
      | none => simp [hl] at h
      | some it =>
        simp only [hl] at h
        by_cases hpk : (it.1 + it.2) % SIZE = a.peak
        · simp only [hpk, if_true, Option.some.injEq, Prod.mk.injEq] at h
          right; right
          exact ⟨it, hall, rfl, hpk, h.1.symm, h.2.symm⟩
        · simp only [hpk, if_false, Option.some.injEq, Prod.mk.injEq] at h
          left
          refine ⟨h.1.symm, h.2.symm, hall, ?_⟩
          intro it' hit'
          cases hit'
          exact hpk

theorem mapWF_getLast_max {m : FreeMap} (h : MapWF m) {it : Nat × Nat}
    (hl : m.getLast? = some it) : it ∈ m ∧ ∀ e ∈ m, e.1 ≤ it.1 := by
  have hmem : it ∈ m := List.mem_of_getLast?_eq_some hl
  refine ⟨hmem, ?_⟩
  induction m with
  | nil => simp at hmem
  | cons x t ih =>
    rw [MapWF, List.pairwise_cons] at h
    intro e he
    cases t with
    | nil =>
      simp at hl he; subst hl; subst he; exact le_refl _
    | cons y t' =>
      have hl' : (y :: t').getLast? = some it := by
        simpa [List.getLast?_cons_cons] using hl
      have hit : it ∈ y :: t' := List.mem_of_getLast?_eq_some hl'
      rcases List.mem_cons.1 he with rfl | he'
      · exact le_of_lt (h.1 it hit)
      · exact ih h.2 hl' hit e he'

theorem inv_alloc_bump {s : Session} {tot size al : Nat} (hI : Inv s tot)
    (hal : s.a.getAlignedSize size = some al) (htot : tot + al < SIZE) :
    Inv { a := { s.a with peak := (s.a.peak + al) % SIZE, used := (s.a.used + al) % SIZE },
          live := ⟨s.a.peak, size, al⟩ :: s.live } (tot + al) := by
  have hpk := hI.peak_le
  have hmod : (s.a.peak + al) % SIZE = s.a.peak + al := Nat.mod_eq_of_lt (by omega)
  refine ⟨hI.ptr, hI.align, hI.wf, ?_, ?_, ?_, ?_, hI.fb_disj, ?_, ?_, hI.noadj, ?_⟩
  · simp only [hmod]; omega
  · intro e he
    have := hI.fb_le e he
    simp only [hmod]; omega
  · intro l hl
    simp only [hmod]
    rcases List.mem_cons.1 hl with rfl | hl'
    · simp
    · have := hI.live_le l hl'; omega
  · intro l hl
    rcases List.mem_cons.1 hl with rfl | hl'
    · exact hal
    · exact hI.live_al l hl'
  · intro e he l hl
    rcases List.mem_cons.1 hl with rfl | hl'
    · have := hI.fb_le e he
      simp only [Sep]; omega
    · exact hI.fb_live e he l hl'
  · refine List.pairwise_cons.2 ⟨?_, hI.live_disj⟩
    intro l hl
    have := hI.live_le l hl
    simp only [Sep]; omega
  · simp only [List.map_cons, List.sum_cons]
    rw [hI.used]
    simp only [SIZE]; omega

theorem inv_alloc_fit {s : Session} {tot size al : Nat} {it : Nat × Nat} (hI : Inv s tot)
    (hal : s.a.getAlignedSize size = some al) (htot : tot + al < SIZE)
    (hf : s.a.freeBlock.find? (fun it => decide (al ≤ it.2)) = some it) :
    Inv { a := { s.a with
            freeBlock := mapInsert ((it.1 + al) % SIZE) ((it.2 + SIZE - al) % SIZE)
              (mapErase it.1 s.a.freeBlock),
            used := (s.a.used + al) % SIZE },
          live := ⟨it.1, size, al⟩ :: s.live } (tot + al) := by
  have hpk := hI.peak_le
  have hmem : it ∈ s.a.freeBlock := List.mem_of_find?_eq_some hf
  have hge : al ≤ it.2 := by simpa using List.find?_some hf
  have hle := hI.fb_le it hmem
  have hk : (it.1 + al) % SIZE = it.1 + al := Nat.mod_eq_of_lt (by omega)
  have hv : (it.2 + SIZE - al) % SIZE = it.2 - al := by
    simp only [SIZE] at *; omega
  rw [hk, hv]
  have hwf1 : MapWF (mapErase it.1 s.a.freeBlock) := mapWF_mapErase hI.wf
  have hm : ∀ x, x ∈ mapInsert (it.1 + al) (it.2 - al) (mapErase it.1 s.a.freeBlock) →
      x = (it.1 + al, it.2 - al) ∨ (x ∈ s.a.freeBlock ∧ x.1 ≠ it.1 ∧ x.1 ≠ it.1 + al) := by
    intro x hx
    rcases (mem_mapInsert hwf1).1 hx with h | ⟨h1, h2⟩
    · exact Or.inl h
    · exact Or.inr ⟨(mem_mapErase.1 h1).1, (mem_mapErase.1 h1).2, h2⟩
  refine ⟨hI.ptr, hI.align, mapWF_mapInsert hwf1, ?_, ?_, ?_, ?_, ?_, ?_, ?_, ?_, ?_⟩
  · show s.a.peak ≤ tot + al
    omega
  · intro e he
    show e.1 + e.2 ≤ s.a.peak
    rcases hm e he with rfl | ⟨h1, _, _⟩
    · simp only; omega
    · exact hI.fb_le e h1
  · intro l hl
    show l.offset + l.aligned ≤ s.a.peak
    rcases List.mem_cons.1 hl with rfl | hl'
    · simp only; omega
    · exact hI.live_le l hl'
  · intro l hl
    rcases List.mem_cons.1 hl with rfl | hl'
    · exact hal
    · exact hI.live_al l hl'
  · intro e1 he1 e2 he2 hne
    rcases hm e1 he1 with rfl | ⟨h1, h1a, h1b⟩ <;> rcases hm e2 he2 with rfl | ⟨h2, h2a, h2b⟩
    · exact absurd rfl hne
    · have := hI.fb_disj it hmem e2 h2 (fun h => h2a h.symm)
      simp only [Sep] at *; omega
    · have := hI.fb_disj e1 h1 it hmem h1a
      simp only [Sep] at *; omega
    · exact hI.fb_disj e1 h1 e2 h2 hne
  · intro e he l hl
    rcases hm e he with rfl | ⟨h1, h1a, h1b⟩ <;> rcases List.mem_cons.1 hl with rfl | hl'
    · simp only [Sep]; omega
    · have := hI.fb_live it hmem l hl'
      simp only [Sep] at *; omega
    · have := hI.fb_disj e h1 it hmem h1a
      simp only [Sep] at *; omega
    · exact hI.fb_live e h1 l hl'
  · refine List.pairwise_cons.2 ⟨?_, hI.live_disj⟩
    intro l hl
    have := hI.fb_live it hmem l hl
    simp only [Sep] at *; omega
  · intro e1 he1 e2 he2 hne
    rcases hm e1 he1 with rfl | ⟨h1, h1a, h1b⟩ <;> rcases hm e2 he2 with rfl | ⟨h2, h2a, h2b⟩
    · exact absurd rfl hne
    · have := hI.noadj it hmem e2 h2 (fun h => h2a h.symm)
      simp only at *; omega
    · have h3 := hI.fb_disj e1 h1 it hmem h1a
      have h4 := hI.noadj e1 h1 it hmem h1a
      simp only [Sep] at *; omega
    · exact hI.noadj e1 h1 e2 h2 hne
  · show (s.a.used + al) % SIZE = _
    simp only [List.map_cons, List.sum_cons]
    rw [hI.used]
    simp only [SIZE]; omega

theorem inv_alloc_tail {s : Session} {tot size al : Nat} {it : Nat × Nat} (hI : Inv s tot)
    (hal : s.a.getAlignedSize size = some al) (htot : tot + al < SIZE)
    (hall : ∀ e ∈ s.a.freeBlock, e.2 < al) (hl : s.a.freeBlock.getLast? = some it)
    (hend : (it.1 + it.2) % SIZE = s.a.peak) :
    Inv { a := { s.a with
            peak := (s.a.peak + (al + SIZE - it.2) % SIZE) % SIZE,
            freeBlock := mapErase it.1 s.a.freeBlock,
            used := (s.a.used + al) % SIZE },
          live := ⟨it.1, size, al⟩ :: s.live } (tot + al) := by
  have hpk := hI.peak_le
  obtain ⟨hmem, hmax⟩ := mapWF_getLast_max hI.wf hl
  have hlt := hall it hmem
  have hle := hI.fb_le it hmem
  have hend' : it.1 + it.2 = s.a.peak := by
    rw [Nat.mod_eq_of_lt (by omega)] at hend; exact hend
  have hv : (al + SIZE - it.2) % SIZE = al - it.2 := by
    simp only [SIZE] at *; omega
  have hp' : (s.a.peak + (al - it.2)) % SIZE = it.1 + al := by
    rw [Nat.mod_eq_of_lt (by omega)]; omega
  rw [hv, hp']
  have hm : ∀ x, x ∈ mapErase it.1 s.a.freeBlock → x ∈ s.a.freeBlock ∧ x.1 < it.1 := by
    intro x hx
    have := mem_mapErase.1 hx
    have h2 := hmax x this.1
    exact ⟨this.1, by omega⟩
  refine ⟨hI.ptr, hI.align, mapWF_mapErase hI.wf, ?_, ?_, ?_, ?_, ?_, ?_, ?_, ?_, ?_⟩
  · show it.1 + al ≤ tot + al
    omega
  · intro e he
    show e.1 + e.2 ≤ it.1 + al
    have := hI.fb_le e (hm e he).1
    omega
  · intro l hl
    show l.offset + l.aligned ≤ it.1 + al
    rcases List.mem_cons.1 hl with rfl | hl'
    · simp
    · have := hI.live_le l hl'; omega
  · intro l hl
    rcases List.mem_cons.1 hl with rfl | hl'
    · exact hal
    · exact hI.live_al l hl'
  · intro e1 he1 e2 he2 hne
    exact hI.fb_disj e1 (hm e1 he1).1 e2 (hm e2 he2).1 hne
  · intro e he l hl
    obtain ⟨h1, h1a⟩ := hm e he
    rcases List.mem_cons.1 hl with rfl | hl'
    · have := hI.fb_disj e h1 it hmem (by omega)
      have := hI.fb_le e h1
      simp only [Sep] at *; omega
    · exact hI.fb_live e h1 l hl'
  · refine List.pairwise_cons.2 ⟨?_, hI.live_disj⟩
    intro l hl
    have := hI.fb_live it hmem l hl
    have := hI.live_le l hl
    simp only [Sep] at *; omega
  · intro e1 he1 e2 he2 hne
    exact hI.noadj e1 (hm e1 he1).1 e2 (hm e2 he2).1 hne
  · show (s.a.used + al) % SIZE = _
    simp only [List.map_cons, List.sum_cons]
    rw [hI.used]
    simp only [SIZE]; omega

theorem free_cases {a : Allocator} {addr size0 s b : Nat} (hp : a.ptr = none)
    (hs : a.getAlignedSize size0 = some s) (hwf : MapWF a.freeBlock)
    (hle : ∀ e ∈ a.freeBlock, e.1 + e.2 ≤ b) (haddr : addr + s ≤ b)
    (hb : b < SIZE) :
    ∃ fb' lo ll rl,
      a.free addr size0 =
        some { a with used := (a.used + SIZE - s) % SIZE, freeBlock := fb' } ∧
      MapWF fb' ∧ lo + ll = addr ∧
      ((lo, ll) ∈ a.freeBlock ∨ (ll = 0 ∧ ∀ e ∈ a.freeBlock, e.1 + e.2 ≠ addr)) ∧
      ((addr + s, rl) ∈ a.freeBlock ∨ (rl = 0 ∧ ∀ e ∈ a.freeBlock, e.1 = addr + s → e.1 = lo)) ∧
      (∀ x, x ∈ fb' ↔ x = (lo, ll + s + rl) ∨ (x ∈ a.freeBlock ∧ x.1 ≠ lo ∧ x.1 ≠ addr + s)) := by
  have hne : ¬ (a.ptr ≠ none) := by simp [hp]
  have has : (addr + s) % SIZE = addr + s := Nat.mod_eq_of_lt (by omega)
  unfold Allocator.free
  rw [if_neg hne]
  simp only [hs, has]
  cases hL : a.freeBlock.find? (fun item => decide ((item.1 + item.2) % SIZE = addr)) with
  | none =>
    have hnoL : ∀ e ∈ a.freeBlock, e.1 + e.2 ≠ addr := by
      intro e he
      have h1 := List.find?_eq_none.1 hL e he
      have h2 := hle e he
      rw [Nat.mod_eq_of_lt (by omega)] at h1
      simpa using h1
    simp only []
    cases hR : a.freeBlock.find? (fun item => decide (item.1 = addr + s)) with
    | none =>
      have hnoR : ∀ e ∈ a.freeBlock, e.1 ≠ addr + s := by
        intro e he
        simpa using List.find?_eq_none.1 hR e he
      refine ⟨_, addr, 0, 0, rfl, mapWF_mapInsert hwf, by omega, Or.inr ⟨rfl, hnoL⟩,
        Or.inr ⟨rfl, fun e he h => absurd h (hnoR e he)⟩, ?_⟩
      intro x
      have e1 : (0 + s) % SIZE = s := by rw [Nat.mod_eq_of_lt (by omega)]; omega
      simp only [e1]
      rw [mem_mapInsert hwf]
      constructor
      · rintro (h | ⟨h1, h2⟩)
        · exact Or.inl (by simpa using h)
        · exact Or.inr ⟨h1, h2, hnoR x h1⟩
      · rintro (h | ⟨h1, h2, _⟩)
        · exact Or.inl (by simpa using h)
        · exact Or.inr ⟨h1, h2⟩
    | some r =>
      have hrm : r ∈ a.freeBlock := List.mem_of_find?_eq_some hR
      have hrk : r.1 = addr + s := by simpa using List.find?_some hR
      have hrle := hle r hrm
      have hwf1 : MapWF (mapErase r.1 a.freeBlock) := mapWF_mapErase hwf
      refine ⟨_, addr, 0, r.2, rfl, mapWF_mapInsert hwf1, by omega, Or.inr ⟨rfl, hnoL⟩,
        Or.inl (by rw [← hrk]; exact hrm), ?_⟩
      intro x
      have e1 : ((0 + s) % SIZE + r.2) % SIZE = 0 + s + r.2 := by
        rw [Nat.mod_eq_of_lt (a := 0 + s) (by omega), Nat.mod_eq_of_lt (by omega)]
      simp only [e1]
      rw [mem_mapInsert hwf1, mem_mapErase, hrk]
      tauto
  | some l =>
    have hlm : l ∈ a.freeBlock := List.mem_of_find?_eq_some hL
    have hlle := hle l hlm
    have hlk : l.1 + l.2 = addr := by
      have h1 := List.find?_some hL
      rw [Nat.mod_eq_of_lt (by omega)] at h1
      simpa using h1
    have hwf1 : MapWF (mapErase l.1 a.freeBlock) := mapWF_mapErase hwf
    simp only []
    cases hR : (mapErase l.1 a.freeBlock).find? (fun item => decide (item.1 = addr + s)) with
    | none =>
      have hnoR : ∀ e ∈ mapErase l.1 a.freeBlock, e.1 ≠ addr + s := by
        intro e he
        simpa using List.find?_eq_none.1 hR e he
      refine ⟨_, l.1, l.2, 0, rfl, mapWF_mapInsert hwf1, hlk, Or.inl hlm, Or.inr ⟨rfl, ?_⟩, ?_⟩
      · intro e he h
        by_contra hc
        exact hnoR e (mem_mapErase.2 ⟨he, hc⟩) h
      · intro x
        have e1 : ((0 + l.2) % SIZE + s) % SIZE = l.2 + s + 0 := by
          rw [Nat.mod_eq_of_lt (a := 0 + l.2) (by omega), Nat.mod_eq_of_lt (by omega)]
          omega
        simp only [e1]
        rw [mem_mapInsert hwf1, mem_mapErase]
        constructor
        · rintro (h | ⟨⟨h1, h2⟩, h3⟩)
          · exact Or.inl h
          · exact Or.inr ⟨h1, h2, hnoR x (mem_mapErase.2 ⟨h1, h2⟩)⟩
        · rintro (h | ⟨h1, h2, _⟩)
          · exact Or.inl h
          · exact Or.inr ⟨⟨h1, h2⟩, h2⟩
    | some r =>
      have hrm1 : r ∈ mapErase l.1 a.freeBlock := List.mem_of_find?_eq_some hR
      have hrm : r ∈ a.freeBlock := (mem_mapErase.1 hrm1).1
      have hrk : r.1 = addr + s := by simpa using List.find?_some hR
      have hrle := hle r hrm
      have hwf2 : MapWF (mapErase r.1 (mapErase l.1 a.freeBlock)) := mapWF_mapErase hwf1
      refine ⟨_, l.1, l.2, r.2, rfl, mapWF_mapInsert hwf2, hlk, Or.inl hlm,
        Or.inl (by rw [← hrk]; exact hrm), ?_⟩
      intro x
      have e1 : (((0 + l.2) % SIZE + s) % SIZE + r.2) % SIZE = l.2 + s + r.2 := by
        rw [Nat.mod_eq_of_lt (a := 0 + l.2) (by omega),
          Nat.mod_eq_of_lt (a := 0 + l.2 + s) (by omega), Nat.mod_eq_of_lt (by omega)]
        omega
      simp only [e1]
      rw [mem_mapInsert hwf2, mem_mapErase, mem_mapErase, hrk]
      tauto

theorem pairwise_erase_rel {α : Type} [DecidableEq α] {R : α → α → Prop}
    (hsym : ∀ a b, R a b → R b a) {L : List α} (hP : L.Pairwise R) {l x : α}
    (hl : l ∈ L) (hx : x ∈ L.erase l) : R l x := by
  induction L with
  | nil => simp at hl
  | cons y t ih =>
    rw [List.pairwise_cons] at hP
    by_cases hy : y = l
    · subst hy
      rw [List.erase_cons_head] at hx
      exact hP.1 x hx
    · rw [List.erase_cons_tail (by simpa using hy)] at hx
      have hlt : l ∈ t := by
        rcases List.mem_cons.1 hl with h | h
        · exact absurd h.symm hy
        · exact h
      rcases List.mem_cons.1 hx with rfl | hx'
      · exact hsym _ _ (hP.1 l hlt)
      · exact ih hP.2 hlt hx'

theorem inv_free {s : Session} {tot : Nat} {l : Live} {a' : Allocator} (hI : Inv s tot)
    (htot : tot < SIZE) (hl : l ∈ s.live) (h : s.a.free l.offset l.size = some a') :
    Inv { a := a', live := s.live.erase l } tot := by
  have hpk := hI.peak_le
  have hal := hI.live_al l hl
  have hlle := hI.live_le l hl
  obtain ⟨fb', lo, ll, rl, hfree, hwf', hlo, hleft, hright, hm⟩ :=
    free_cases (b := s.a.peak) hI.ptr hal hI.wf hI.fb_le hlle (by omega)
  rw [hfree] at h
  simp only [Option.some.injEq] at h
  subst h
  have hsub : ∀ x, x ∈ s.live.erase l → x ∈ s.live := fun x hx => List.mem_of_mem_erase hx
  have hsep : ∀ x, x ∈ s.live.erase l → Sep l.offset l.aligned x.offset x.aligned :=
    fun x hx => pairwise_erase_rel (fun a b h => sep_symm h) hI.live_disj hl hx
  -- the merged span lies below `peak`
  have hNle : lo + (ll + l.aligned + rl) ≤ s.a.peak := by
    rcases hright with hr | ⟨hr, _⟩
    · have := hI.fb_le _ hr; simp only at this; omega
    · omega
  -- facts about an entry that survives next to the merged span
  have hother : ∀ e, e ∈ s.a.freeBlock → e.1 ≠ lo → e.1 ≠ l.offset + l.aligned →
      Sep lo (ll + l.aligned + rl) e.1 e.2 ∧ lo + (ll + l.aligned + rl) ≠ e.1 ∧
        e.1 + e.2 ≠ lo := by
    intro e he h1 h2
    have hf := hI.fb_live e he l hl
    have hA : Sep lo ll e.1 e.2 ∧ e.1 + e.2 ≠ lo := by
      rcases hleft with hL | ⟨hL, hno⟩
      · have h3 := hI.fb_disj _ hL e he (fun h => h1 h.symm)
        have h4 := hI.noadj e he _ hL h1
        exact ⟨h3, h4⟩
      · have := hno e he
        refine ⟨Or.inl hL, by omega⟩
    have hB : Sep (l.offset + l.aligned) rl e.1 e.2 ∧ l.offset + l.aligned + rl ≠ e.1 := by
      rcases hright with hR | ⟨hR, _⟩
      · have h3 := hI.fb_disj _ hR e he (fun h => h2 h.symm)
        have h4 := hI.noadj _ hR e he (fun h => h2 h.symm)
        exact ⟨h3, h4⟩
      · refine ⟨Or.inl hR, by omega⟩
    simp only [Sep] at *
    omega
  refine ⟨hI.ptr, hI.align, hwf', hI.peak_le, ?_, ?_, ?_, ?_, ?_, ?_, ?_, ?_⟩
  · intro e he
    show e.1 + e.2 ≤ s.a.peak
    rcases (hm e).1 he with rfl | ⟨h1, _, _⟩
    · exact hNle
    · exact hI.fb_le e h1
  · intro x hx
    exact hI.live_le x (hsub x hx)
  · intro x hx
    exact hI.live_al x (hsub x hx)
  · intro e1 he1 e2 he2 hne
    rcases (hm e1).1 he1 with rfl | ⟨h1, h1a, h1b⟩ <;>
      rcases (hm e2).1 he2 with rfl | ⟨h2, h2a, h2b⟩
    · exact absurd rfl hne
    · exact (hother e2 h2 h2a h2b).1
    · exact sep_symm (hother e1 h1 h1a h1b).1
    · exact hI.fb_disj e1 h1 e2 h2 hne
  · intro e he x hx
    rcases (hm e).1 he with rfl | ⟨h1, h1a, h1b⟩
    · have h0 := hsep x hx
      have hA : Sep lo ll x.offset x.aligned := by
        rcases hleft with hL | ⟨hL, _⟩
        · exact hI.fb_live _ hL x (hsub x hx)
        · exact Or.inl hL
      have hB : Sep (l.offset + l.aligned) rl x.offset x.aligned := by
        rcases hright with hR | ⟨hR, _⟩
        · exact hI.fb_live _ hR x (hsub x hx)
        · exact Or.inl hR
      simp only [Sep] at *
      omega
    · exact hI.fb_live e h1 x (hsub x hx)
  · exact hI.live_disj.sublist (List.erase_sublist l s.live)
  · intro e1 he1 e2 he2 hne
    rcases (hm e1).1 he1 with rfl | ⟨h1, h1a, h1b⟩ <;>
      rcases (hm e2).1 he2 with rfl | ⟨h2, h2a, h2b⟩
    · exact absurd rfl hne
    · exact (hother e2 h2 h2a h2b).2.1
    · exact (hother e1 h1 h1a h1b).2.2
    · exact hI.noadj e1 h1 e2 h2 hne
  · show (s.a.used + SIZE - l.aligned) % SIZE = _
    have hsum := List.sum_map_erase Live.aligned hl
    have hb := (getAlignedSize_bounds hI.align hal).1
    rw [hI.used, ← hsum]
    simp only [SIZE] at *
    omega

theorem inv_fresh : Inv Session.fresh 0 := by
  refine ⟨rfl, rfl, List.Pairwise.nil, le_refl _, ?_, ?_, ?_, ?_, ?_, List.Pairwise.nil, ?_, rfl⟩ <;>
    simp [Session.fresh, Allocator.fresh]

theorem totalAligned_alloc {a : Allocator} (h8 : a.alignment = 8) {size al : Nat}
    (hal : a.getAlignedSize size = some al) (cs : List Call) :
    totalAligned (.alloc size :: cs) = al + totalAligned cs := by
  have h1 : Allocator.fresh.getAlignedSize size = some al := by
    rw [getAlignedSize_eq (a := Allocator.fresh) rfl, ← getAlignedSize_eq h8]
    exact hal
  show (Allocator.fresh.getAlignedSize size).getD 0 + totalAligned cs = _
  rw [h1]
  rfl

theorem totalAligned_cons (c : Call) (cs : List Call) :
    totalAligned (c :: cs) = totalAligned [c] + totalAligned cs := by
  cases c with
  | alloc n => show _ + _ = (_ + 0) + _; rw [Nat.add_zero]
  | free a n => show _ = 0 + _; rw [Nat.zero_add]; rfl

theorem totalAligned_single_alloc {a : Allocator} (h8 : a.alignment = 8) {size al : Nat}
    (hal : a.getAlignedSize size = some al) : totalAligned [.alloc size] = al := by
  rw [totalAligned_alloc h8 hal]; rfl

theorem step_alloc_eq (s : Session) (size : Nat) :
    s.step (.alloc size) =
      match s.a.getAlignedSize size, s.a.alloc size with
      | some al, some (off, a') => some { a := a', live := ⟨off, size, al⟩ :: s.live }
      | _, _ => none := rfl

theorem step_free_eq (s : Session) (addr size : Nat) :
    s.step (.free addr size) =
      match s.live.find? (fun l => decide (l.offset = addr ∧ l.size = size)) with
      | none => none
      | some l =>
        match s.a.free addr size with
        | some a' => some { a := a', live := s.live.erase l }
        | none => none := rfl

theorem inv_step {s s' : Session} {tot : Nat} {c : Call} (hI : Inv s tot)
    (htot : tot + totalAligned [c] < SIZE) (h : s.step c = some s') :
    Inv s' (tot + totalAligned [c]) := by
  cases c with
  | alloc size =>
    obtain ⟨al, hal⟩ : ∃ al, s.a.getAlignedSize size = some al := ⟨_, getAlignedSize_eq hI.align size⟩
    rw [totalAligned_single_alloc hI.align hal] at htot ⊢
    rw [step_alloc_eq] at h
    simp only [hal] at h
    cases hA : s.a.alloc size with
    | none => simp [hA] at h
    | some r =>
      obtain ⟨off, a'⟩ := r
      simp only [hA, Option.some.injEq] at h
      subst h
      rcases alloc_cases hI.ptr hal hA with ⟨h1, h2, _, _⟩ | ⟨it, hf, h1, h2⟩ |
        ⟨it, hall, hl, hend, h1, h2⟩
      · subst h1; subst h2
        exact inv_alloc_bump hI hal htot
      · subst h1; subst h2
        exact inv_alloc_fit hI hal htot hf
      · subst h1; subst h2
        exact inv_alloc_tail hI hal htot hall hl hend
  | free addr size =>
    have h0 : totalAligned [Call.free addr size] = 0 := rfl
    rw [h0, Nat.add_zero] at htot ⊢
    rw [step_free_eq] at h
    cases hF : s.live.find? (fun l => decide (l.offset = addr ∧ l.size = size)) with
    | none => rw [hF] at h; simp at h
    | some l =>
      have hl : l ∈ s.live := List.mem_of_find?_eq_some hF
      have hp : l.offset = addr ∧ l.size = size := by simpa using List.find?_some hF
      rw [hF] at h
      cases hA : s.a.free addr size with
      | none => simp [hA] at h
      | some a' =>
        simp only [hA, Option.some.injEq] at h
        subst h
        rw [← hp.1, ← hp.2] at hA
        exact inv_free hI htot hl hA

theorem run_nil (s : Session) : s.run [] = some s := rfl

theorem run_cons (s : Session) (c : Call) (cs : List Call) :
    s.run (c :: cs) = match s.step c with
      | some s' => s'.run cs
      | none => none := rfl

theorem inv_run {cs : List Call} : ∀ {s s' : Session} {tot : Nat}, Inv s tot →
    tot + totalAligned cs < SIZE → s.run cs = some s' → Inv s' (tot + totalAligned cs) := by
  induction cs with
  | nil =>
    intro s s' tot hI _ h
    rw [run_nil, Option.some.injEq] at h
    subst h
    exact hI
  | cons c cs ih =>
    intro s s' tot hI htot h
    rw [totalAligned_cons] at htot ⊢
    rw [run_cons] at h
    cases hS : s.step c with
    | none => simp [hS] at h
    | some s1 =>
      simp only [hS] at h
      have h1 := inv_step hI (by omega) hS
      have h2 := ih h1 (by omega) h
      rw [← Nat.add_assoc]
      exact h2

/-- While the buffer is not materialised every `alloc` returns. -/
theorem alloc_isSome {a : Allocator} (hp : a.ptr = none) {n s : Nat}
    (hs : a.getAlignedSize n = some s) : (a.alloc n).isSome = true := by
  have hne : ¬ (a.ptr ≠ none) := by simp [hp]
  unfold Allocator.alloc
  rw [if_neg hne, hs]
  simp only []
  split
  · rfl
  · rename_i h0
    split
    · rfl
    · split
      · rename_i hl
        rw [List.getLast?_eq_none_iff] at hl
        simp [hl] at h0
      · split <;> rfl

/-- While the buffer is not materialised every `free` returns. -/
theorem free_isSome {a : Allocator} (hp : a.ptr = none) (h8 : a.alignment = 8) (addr n : Nat) :
    (a.free addr n).isSome = true := by
  have hne : ¬ (a.ptr ≠ none) := by simp [hp]
  unfold Allocator.free
  rw [if_neg hne, getAlignedSize_eq h8]
  rfl

theorem step_alloc_isSome {s : Session} (hp : s.a.ptr = none) (h8 : s.a.alignment = 8)
    (n : Nat) : (s.step (.alloc n)).isSome = true := by
  rw [step_alloc_eq, getAlignedSize_eq h8]
  have := alloc_isSome hp (getAlignedSize_eq h8 n)
  cases hA : s.a.alloc n with
  | none => rw [hA] at this; simp at this
  | some r => rfl

theorem step_free_isSome {s : Session} (hp : s.a.ptr = none) (h8 : s.a.alignment = 8)
    {l : Live} (hl : l ∈ s.live) : (s.step (.free l.offset l.size)).isSome = true := by
  rw [step_free_eq]
  cases hF : s.live.find? (fun x => decide (x.offset = l.offset ∧ x.size = l.size)) with
  | none =>
    have := List.find?_eq_none.1 hF l hl
    simp at this
  | some x =>
    have := free_isSome hp h8 l.offset l.size
    cases hA : s.a.free l.offset l.size with
    | none => rw [hA] at this; simp at this
    | some r => rfl

/-! ## Coverage of `[0, peak)` -/

theorem inv2_alloc_bump {s : Session} {tot size al : Nat} (hI : Inv s tot) (hJ : Inv2 s tot)
    (htot : tot + al < SIZE) (hpos : 0 < al) :
    Inv2 { a := { s.a with peak := (s.a.peak + al) % SIZE, used := (s.a.used + al) % SIZE },
           live := ⟨s.a.peak, size, al⟩ :: s.live } (tot + al) := by
  have hpk := hI.peak_le
  have hmod : (s.a.peak + al) % SIZE = s.a.peak + al := Nat.mod_eq_of_lt (by omega)
  rw [hmod]
  refine ⟨?_, ?_, ?_, ?_⟩
  · intro x hx
    by_cases hlt : x < s.a.peak
    · rcases hJ.cover x hlt with h | ⟨l, hl, h⟩
      · exact Or.inl h
      · exact Or.inr ⟨l, List.mem_cons_of_mem _ hl, h⟩
    · refine Or.inr ⟨_, List.mem_cons_self _ _, ?_⟩
      simp only at hx ⊢; omega
  · intro e he h0
    obtain ⟨l, hl, h⟩ := hJ.zero e he h0
    exact ⟨l, List.mem_cons_of_mem _ hl, h⟩
  · intro l hl
    rcases List.mem_cons.1 hl with rfl | hl'
    · exact hpos
    · exact hJ.livepos l hl'
  · intro _
    show 0 < s.a.peak + al
    omega

theorem inv2_alloc_fit {s : Session} {tot size al : Nat} {it : Nat × Nat} (hI : Inv s tot)
    (hJ : Inv2 s tot) (htot : tot + al < SIZE) (hpos : 0 < al)
    (hf : s.a.freeBlock.find? (fun it => decide (al ≤ it.2)) = some it) :
    Inv2 { a := { s.a with
              freeBlock := mapInsert ((it.1 + al) % SIZE) ((it.2 + SIZE - al) % SIZE)
                (mapErase it.1 s.a.freeBlock),
              used := (s.a.used + al) % SIZE },
           live := ⟨it.1, size, al⟩ :: s.live } (tot + al) := by
  have hpk := hI.peak_le
  have hmem : it ∈ s.a.freeBlock := List.mem_of_find?_eq_some hf
  have hge : al ≤ it.2 := by simpa using List.find?_some hf
  have hle := hI.fb_le it hmem
  have hk : (it.1 + al) % SIZE = it.1 + al := Nat.mod_eq_of_lt (by omega)
  have hv : (it.2 + SIZE - al) % SIZE = it.2 - al := by
    simp only [SIZE] at *; omega
  rw [hk, hv]
  have hwf1 : MapWF (mapErase it.1 s.a.freeBlock) := mapWF_mapErase hI.wf
  have hm : ∀ x, x ∈ mapInsert (it.1 + al) (it.2 - al) (mapErase it.1 s.a.freeBlock) ↔
      x = (it.1 + al, it.2 - al) ∨ (x ∈ s.a.freeBlock ∧ x.1 ≠ it.1 ∧ x.1 ≠ it.1 + al) := by
    intro x
    rw [mem_mapInsert hwf1, mem_mapErase]
    tauto
  refine ⟨?_, ?_, ?_, ?_⟩
  · intro x hx
    rcases hJ.cover x hx with ⟨e, he, h1, h2⟩ | ⟨l, hl, h⟩
    · by_cases hk1 : e.1 = it.1
      · have : e = it := mapWF_key_inj hI.wf he hmem hk1
        subst this
        by_cases hxa : x < e.1 + al
        · exact Or.inr ⟨_, List.mem_cons_self _ _, by simp only; omega⟩
        · exact Or.inl ⟨_, (hm _).2 (Or.inl rfl), by simp only; omega⟩
      · by_cases hk2 : e.1 = it.1 + al
        · exfalso
          have h3 := hI.fb_disj e he it hmem hk1
          have h4 := hI.noadj it hmem e he (fun h => hk1 h.symm)
          simp only [Sep] at h3
          omega
        · exact Or.inl ⟨e, (hm e).2 (Or.inr ⟨he, hk1, hk2⟩), h1, h2⟩
    · exact Or.inr ⟨l, List.mem_cons_of_mem _ hl, h⟩
  · intro e he h0
    rcases (hm e).1 he with rfl | ⟨h1, _, _⟩
    · refine ⟨_, List.mem_cons_self _ _, ?_⟩
      simp only at h0 ⊢
    · obtain ⟨l, hl, h⟩ := hJ.zero e h1 h0
      exact ⟨l, List.mem_cons_of_mem _ hl, h⟩
  · intro l hl
    rcases List.mem_cons.1 hl with rfl | hl'
    · exact hpos
    · exact hJ.livepos l hl'
  · intro _
    show 0 < s.a.peak
    omega

theorem inv2_alloc_tail {s : Session} {tot size al : Nat} {it : Nat × Nat} (hI : Inv s tot)
    (hJ : Inv2 s tot) (htot : tot + al < SIZE) (hpos : 0 < al)
    (hall : ∀ e ∈ s.a.freeBlock, e.2 < al) (hl : s.a.freeBlock.getLast? = some it)
    (hend : (it.1 + it.2) % SIZE = s.a.peak) :
    Inv2 { a := { s.a with
              peak := (s.a.peak + (al + SIZE - it.2) % SIZE) % SIZE,
              freeBlock := mapErase it.1 s.a.freeBlock,
              used := (s.a.used + al) % SIZE },
           live := ⟨it.1, size, al⟩ :: s.live } (tot + al) := by
  have hpk := hI.peak_le
  obtain ⟨hmem, hmax⟩ := mapWF_getLast_max hI.wf hl
  have hlt := hall it hmem
  have hle := hI.fb_le it hmem
  have hend' : it.1 + it.2 = s.a.peak := by
    rw [Nat.mod_eq_of_lt (by omega)] at hend; exact hend
  have hv : (al + SIZE - it.2) % SIZE = al - it.2 := by
    simp only [SIZE] at *; omega
  have hp' : (s.a.peak + (al - it.2)) % SIZE = it.1 + al := by
    rw [Nat.mod_eq_of_lt (by omega)]; omega
  rw [hv, hp']
  refine ⟨?_, ?_, ?_, ?_⟩
  · intro x hx
    by_cases hxi : it.1 ≤ x
    · exact Or.inr ⟨_, List.mem_cons_self _ _, by simp only at hx ⊢; omega⟩
    · rcases hJ.cover x (by omega) with ⟨e, he, h1, h2⟩ | ⟨l, hl, h⟩
      · refine Or.inl ⟨e, mem_mapErase.2 ⟨he, ?_⟩, h1, h2⟩
        intro hk1
        omega
      · exact Or.inr ⟨l, List.mem_cons_of_mem _ hl, h⟩
  · intro e he h0
    obtain ⟨l, hl, h⟩ := hJ.zero e (mem_mapErase.1 he).1 h0
    exact ⟨l, List.mem_cons_of_mem _ hl, h⟩
  · intro l hl
    rcases List.mem_cons.1 hl with rfl | hl'
    · exact hpos
    · exact hJ.livepos l hl'
  · intro _
    show 0 < it.1 + al
    omega

theorem inv2_free {s : Session} {tot : Nat} {l : Live} {a' : Allocator} (hI : Inv s tot)
    (hJ : Inv2 s tot) (htot : tot < SIZE) (hl : l ∈ s.live)
    (h : s.a.free l.offset l.size = some a') :
    Inv2 { a := a', live := s.live.erase l } tot := by
  have hpk := hI.peak_le
  have hal := hI.live_al l hl
  have hlle := hI.live_le l hl
  have hlpos := hJ.livepos l hl
  obtain ⟨fb', lo, ll, rl, hfree, hwf', hlo, hleft, hright, hm⟩ :=
    free_cases (b := s.a.peak) hI.ptr hal hI.wf hI.fb_le hlle (by omega)
  rw [hfree] at h
  simp only [Option.some.injEq] at h
  subst h
  refine ⟨?_, ?_, ?_, ?_⟩
  · intro x hx
    have hN : lo ≤ x → x < l.offset + l.aligned + rl →
        ∃ e ∈ fb', e.1 ≤ x ∧ x < e.1 + e.2 := by
      intro h1 h2
      exact ⟨_, (hm _).2 (Or.inl rfl), h1, by simp only; omega⟩
    rcases hJ.cover x hx with ⟨e, he, h1, h2⟩ | ⟨l', hl', h1, h2⟩
    · left
      by_cases hk1 : e.1 = lo
      · rcases hleft with hL | ⟨hL, _⟩
        · have : e = (lo, ll) := mapWF_key_inj hI.wf he hL hk1
          subst this
          exact hN h1 (by simp only at h2; omega)
        · exfalso
          have h3 := hI.fb_live e he l hl
          simp only [Sep] at h3
          omega
      · by_cases hk2 : e.1 = l.offset + l.aligned
        · rcases hright with hR | ⟨_, hR⟩
          · have : e = (l.offset + l.aligned, rl) := mapWF_key_inj hI.wf he hR hk2
            subst this
            exact hN (by simp only at h1; omega) (by simp only at h2; omega)
          · exact absurd (hR e he hk2) hk1
        · exact ⟨e, (hm e).2 (Or.inr ⟨he, hk1, hk2⟩), h1, h2⟩
    · by_cases hll : l' = l
      · subst hll
        exact Or.inl (hN (by omega) (by omega))
      · exact Or.inr ⟨l', (List.mem_erase_of_ne hll).2 hl', h1, h2⟩
  · intro e he h0
    rcases (hm e).1 he with rfl | ⟨h1, h1a, h1b⟩
    · simp only at h0; omega
    · obtain ⟨l', hl', h⟩ := hJ.zero e h1 h0
      refine ⟨l', (List.mem_erase_of_ne ?_).2 hl', h⟩
      rintro rfl
      exact h1b h.symm
  · intro x hx
    exact hJ.livepos x (List.mem_of_mem_erase hx)
  · exact hJ.pos

theorem getAlignedSize_pos {a : Allocator} (h8 : a.alignment = 8) {n al : Nat}
    (hn : 0 < n ∧ n ≤ SIZE - 8) (h : a.getAlignedSize n = some al) : 0 < al := by
  rw [getAlignedSize_eq h8] at h
  simp only [Option.some.injEq, SIZE] at h hn
  omega

theorem inv2_fresh : Inv2 Session.fresh 0 := by
  refine ⟨?_, ?_, ?_, ?_⟩ <;> simp [Session.fresh, Allocator.fresh]

theorem inv2_step {s s' : Session} {tot : Nat} {c : Call} (hI : Inv s tot) (hJ : Inv2 s tot)
    (htot : tot + totalAligned [c] < SIZE) (hsz : ∀ n, c = .alloc n → 0 < n ∧ n ≤ SIZE - 8)
    (h : s.step c = some s') : Inv2 s' (tot + totalAligned [c]) := by
  cases c with
  | alloc size =>
    obtain ⟨al, hal⟩ : ∃ al, s.a.getAlignedSize size = some al := ⟨_, getAlignedSize_eq hI.align size⟩
    have hpos : 0 < al := getAlignedSize_pos hI.align (hsz size rfl) hal
    rw [totalAligned_single_alloc hI.align hal] at htot ⊢
    rw [step_alloc_eq] at h
    simp only [hal] at h
    cases hA : s.a.alloc size with
    | none => simp [hA] at h
    | some r =>
      obtain ⟨off, a'⟩ := r
      simp only [hA, Option.some.injEq] at h
      subst h
      rcases alloc_cases hI.ptr hal hA with ⟨h1, h2, _, _⟩ | ⟨it, hf, h1, h2⟩ |
        ⟨it, hall, hl, hend, h1, h2⟩
      · subst h1; subst h2
        exact inv2_alloc_bump hI hJ htot hpos
      · subst h1; subst h2
        exact inv2_alloc_fit hI hJ htot hpos hf
      · subst h1; subst h2
        exact inv2_alloc_tail hI hJ htot hpos hall hl hend
  | free addr size =>
    have h0 : totalAligned [Call.free addr size] = 0 := rfl
    rw [h0, Nat.add_zero] at htot ⊢
    rw [step_free_eq] at h
    cases hF : s.live.find? (fun l => decide (l.offset = addr ∧ l.size = size)) with
    | none => rw [hF] at h; simp at h
    | some l =>
      have hl : l ∈ s.live := List.mem_of_find?_eq_some hF
      have hp : l.offset = addr ∧ l.size = size := by simpa using List.find?_some hF
      rw [hF] at h
      cases hA : s.a.free addr size with
      | none => simp [hA] at h
      | some a' =>
        simp only [hA, Option.some.injEq] at h
        subst h
        rw [← hp.1, ← hp.2] at hA
        exact inv2_free hI hJ htot hl hA

theorem inv2_run {cs : List Call} : ∀ {s s' : Session} {tot : Nat}, Inv s tot → Inv2 s tot →
    tot + totalAligned cs < SIZE → (∀ n, Call.alloc n ∈ cs → 0 < n ∧ n ≤ SIZE - 8) →
    s.run cs = some s' → Inv2 s' (tot + totalAligned cs) := by
  induction cs with
  | nil =>
    intro s s' tot _ hJ _ _ h
    rw [run_nil, Option.some.injEq] at h
    subst h
    exact hJ
  | cons c cs ih =>
    intro s s' tot hI hJ htot hsz h
    rw [totalAligned_cons] at htot ⊢
    rw [run_cons] at h
    cases hS : s.step c with
    | none => simp [hS] at h
    | some s1 =>
      simp only [hS] at h
      have h1 := inv_step hI (by omega) hS
      have h1' := inv2_step hI hJ (by omega)
        (fun n hn => hsz n (by rw [hn]; exact List.mem_cons_self _ _)) hS
      have h2 := ih h1 h1' (by omega) (fun n hn => hsz n (List.mem_cons_of_mem _ hn)) h
      rw [← Nat.add_assoc]
      exact h2

theorem totalAligned_pos {cs : List Call} (hsz : ∀ n, Call.alloc n ∈ cs → 0 < n ∧ n ≤ SIZE - 8)
    (hone : ∃ n, Call.alloc n ∈ cs) : 0 < totalAligned cs := by
  obtain ⟨n, hn⟩ := hone
  induction cs with
  | nil => simp at hn
  | cons c cs ih =>
    rw [totalAligned_cons]
    rcases List.mem_cons.1 hn with h | h
    · subst h
      have h1 : Allocator.fresh.getAlignedSize n = some _ := getAlignedSize_eq rfl n
      have h2 := getAlignedSize_pos (a := Allocator.fresh) rfl (hsz n (List.mem_cons_self _ _)) h1
      rw [totalAligned_single_alloc (a := Allocator.fresh) rfl h1]
      omega
    · have := ih (fun m hm => hsz m (List.mem_cons_of_mem _ hm)) h
      omega

/-- With no live allocation left, the invariants leave exactly the span `[0, peak)`. -/
theorem freeBlock_eq_of_no_live {s : Session} {tot : Nat} (hI : Inv s tot) (hJ : Inv2 s tot)
    (hpos : 0 < tot) (hlive : s.live = []) : s.a.freeBlock = [(0, s.a.peak)] := by
  have hpk := hJ.pos hpos
  have hnz : ∀ e ∈ s.a.freeBlock, 0 < e.2 := by
    intro e he
    by_contra h0
    obtain ⟨l, hl, _⟩ := hJ.zero e he (by omega)
    rw [hlive] at hl
    simp at hl
  have hcov : ∀ x, x < s.a.peak → ∃ e ∈ s.a.freeBlock, e.1 ≤ x ∧ x < e.1 + e.2 := by
    intro x hx
    rcases hJ.cover x hx with h | ⟨l, hl, _⟩
    · exact h
    · rw [hlive] at hl; simp at hl
  obtain ⟨e0, he0, h01, h02⟩ := hcov 0 hpk
  have hk0 : e0.1 = 0 := by omega
  have hle0 := hI.fb_le e0 he0
  have hfull : e0.2 = s.a.peak := by
    by_contra hne
    obtain ⟨e1, he1, h11, h12⟩ := hcov e0.2 (by omega)
    have hk : e0.1 ≠ e1.1 := by
      intro hk
      have := mapWF_key_inj hI.wf he0 he1 hk
      subst this
      omega
    have h3 := hI.fb_disj e0 he0 e1 he1 hk
    have h4 := hI.noadj e0 he0 e1 he1 hk
    have h5 := hnz e1 he1
    simp only [Sep] at h3
    omega
  have hall : ∀ e ∈ s.a.freeBlock, e = e0 := by
    intro e he
    by_contra hne
    have hk : e.1 ≠ e0.1 := fun hk => hne (mapWF_key_inj hI.wf he he0 hk)
    have h3 := hI.fb_disj e he e0 he0 hk
    have h5 := hnz e he
    have h6 := hI.fb_le e he
    simp only [Sep] at h3
    omega
  have he0' : e0 = (0, s.a.peak) := by
    rw [← hk0, ← hfull]
  have hwf := hI.wf
  cases hfb : s.a.freeBlock with
  | nil => rw [hfb] at he0; simp at he0
  | cons x t =>
    rw [hfb] at hall hwf
    have hx := hall x (List.mem_cons_self _ _)
    cases t with
    | nil => rw [hx, he0']
    | cons y t' =>
      exfalso
      have hy := hall y (by simp)
      rw [MapWF, List.pairwise_cons] at hwf
      have := hwf.1 y (by simp)
      rw [hx, hy] at this
      omega

/-! ## Claims on the allocator -/

/-- C1 (amended): for every sequence of `alloc`/`free` calls on a fresh allocator
before `getPtr` whose aligned request sizes sum to less than `2^64`, every `free`
releasing a live allocation with the offset returned for it and the same size, the
byte ranges `[offset, offset + alignedSize)` of any two live allocations are
disjoint; and the sequence can always be continued (every `alloc` and every `free`
of a live allocation returns). -/
theorem alloc_live_ranges_disjoint (cs : List Call) (s : Session)
    (hfit : totalAligned cs < SIZE) (hrun : Session.fresh.run cs = some s) :
    s.live.Pairwise (fun x y => RangesDisjoint x.offset x.aligned y.offset y.aligned) ∧
    (∀ n, (s.step (.alloc n)).isSome = true) ∧
    (∀ l ∈ s.live, (s.step (.free l.offset l.size)).isSome = true) := by
  have hI := inv_run inv_fresh (by rw [Nat.zero_add]; exact hfit) hrun
  refine ⟨?_, ?_, ?_⟩
  · exact hI.live_disj.imp (fun h => rangesDisjoint_iff_sep.2 h)
  · exact fun n => step_alloc_isSome hI.ptr hI.align n
  · exact fun l hl => step_free_isSome hI.ptr hI.align hl

theorem alloc_live_ranges_disjoint_witness :
    totalAligned firstFitCalls < SIZE ∧
    Session.fresh.run firstFitCalls = some firstFitFinal ∧
    firstFitFinal.live.Pairwise
      (fun x y => RangesDisjoint x.offset x.aligned y.offset y.aligned) :=
  ⟨by decide, by decide,
    (alloc_live_ranges_disjoint firstFitCalls firstFitFinal (by decide) (by decide)).1⟩

/-- C1 as stated fails: after `alloc(2^64 - 8)`, `alloc(16)`, `alloc(8)` the counter
`peak` has wrapped around and the third allocation `[8, 16)` lies inside the first one
`[0, 2^64 - 8)`. -/
theorem alloc_live_ranges_overlap_after_wrap :
    Session.fresh.run wrapCalls = some wrapFinal ∧
      ¬ wrapFinal.live.Pairwise
        (fun x y => RangesDisjoint x.offset x.aligned y.offset y.aligned) := by
  refine ⟨by decide, ?_⟩
  intro h
  have h1 := (List.pairwise_cons.1 h).1 ⟨0, SIZE - 8, SIZE - 8⟩ (by simp [wrapFinal])
  exact h1 8 (by decide) (by decide) (by decide) (by decide)

/-- C9 (amended): after every sequence of `alloc`/`free` calls on a fresh allocator
(before `getPtr`, frees of live allocations only) whose aligned request sizes sum to
less than `2^64`, the entries of the free list are pairwise disjoint, each ends at or
below `peak`, none overlaps a live allocation, and no entry ends exactly where another
entry starts (zero-length entries included). -/
theorem free_list_invariant (cs : List Call) (s : Session)
    (hfit : totalAligned cs < SIZE) (hrun : Session.fresh.run cs = some s) :
    (∀ e1 ∈ s.a.freeBlock, ∀ e2 ∈ s.a.freeBlock, e1 ≠ e2 →
      RangesDisjoint e1.1 e1.2 e2.1 e2.2) ∧
    (∀ e ∈ s.a.freeBlock, e.1 + e.2 ≤ s.a.peak) ∧
    (∀ e ∈ s.a.freeBlock, ∀ l ∈ s.live, RangesDisjoint e.1 e.2 l.offset l.aligned) ∧
    (∀ e1 ∈ s.a.freeBlock, ∀ e2 ∈ s.a.freeBlock, e1 ≠ e2 → e1.1 + e1.2 ≠ e2.1) := by
  have hI := inv_run inv_fresh (by rw [Nat.zero_add]; exact hfit) hrun
  have hk : ∀ e1 ∈ s.a.freeBlock, ∀ e2 ∈ s.a.freeBlock, e1 ≠ e2 → e1.1 ≠ e2.1 :=
    fun e1 h1 e2 h2 hne hk => hne (mapWF_key_inj hI.wf h1 h2 hk)
  refine ⟨?_, hI.fb_le, ?_, ?_⟩
  · exact fun e1 h1 e2 h2 hne => rangesDisjoint_iff_sep.2 (hI.fb_disj e1 h1 e2 h2 (hk e1 h1 e2 h2 hne))
  · exact fun e he l hl => rangesDisjoint_iff_sep.2 (hI.fb_live e he l hl)
  · exact fun e1 h1 e2 h2 hne => hI.noadj e1 h1 e2 h2 (hk e1 h1 e2 h2 hne)

theorem free_list_invariant_witness :
    totalAligned exactFitCalls < SIZE ∧
    Session.fresh.run exactFitCalls = some exactFitFinal ∧
    (∀ e1 ∈ exactFitFinal.a.freeBlock, ∀ e2 ∈ exactFitFinal.a.freeBlock,
      e1 ≠ e2 → e1.1 + e1.2 ≠ e2.1) :=
  ⟨by decide, by decide,
    (free_list_invariant exactFitCalls exactFitFinal (by decide) (by decide)).2.2.2⟩

/-- C9 as stated fails: after `alloc(2^64 - 8)`, `alloc(16)`, `alloc(8)`, `free(8, 8)`
the free entry `(8, 8)` overlaps the live allocation `[0, 2^64 - 8)`. -/
theorem free_list_overlaps_live_after_wrap :
    Session.fresh.run (wrapCalls ++ [.free 8 8]) = some wrapFreeFinal ∧
      ¬ (∀ e ∈ wrapFreeFinal.a.freeBlock, ∀ l ∈ wrapFreeFinal.live,
          RangesDisjoint e.1 e.2 l.offset l.aligned) := by
  refine ⟨by decide, ?_⟩
  intro h
  have h1 := h (8, 8) (by simp [wrapFreeFinal]) ⟨0, SIZE - 8, SIZE - 8⟩ (by simp [wrapFreeFinal])
  exact h1 8 (by decide) (by decide) (by decide) (by decide)

/-- C8 (amended): for every sequence of `alloc`/`free` calls on a fresh allocator before
`getPtr` that makes at least one allocation, requests only sizes between `1` and
`2^64 - 8` whose aligned sizes sum to less than `2^64`, frees only live allocations (with
their returned offset and their size) and ends with every allocation freed, in whatever
order, the free list ends as exactly one entry, offset `0` with length `peak`, and
`used = 0`. -/
theorem free_all_coalesces (cs : List Call) (s : Session)
    (hsz : ∀ n, Call.alloc n ∈ cs → 0 < n ∧ n ≤ SIZE - 8)
    (hfit : totalAligned cs < SIZE) (hone : ∃ n, Call.alloc n ∈ cs)
    (hrun : Session.fresh.run cs = some s) (hlive : s.live = []) :
    s.a.freeBlock = [(0, s.a.peak)] ∧ s.a.used = 0 := by
  have hI := inv_run inv_fresh (by rw [Nat.zero_add]; exact hfit) hrun
  have hJ := inv2_run inv_fresh inv2_fresh (by rw [Nat.zero_add]; exact hfit) hsz hrun
  have hpos : 0 < 0 + totalAligned cs := by
    rw [Nat.zero_add]; exact totalAligned_pos hsz hone
  refine ⟨freeBlock_eq_of_no_live hI hJ hpos hlive, ?_⟩
  rw [hI.used, hlive]
  rfl

theorem free_all_coalesces_witness :
    (∀ n, Call.alloc n ∈ freeAllCalls → 0 < n ∧ n ≤ SIZE - 8) ∧
    totalAligned freeAllCalls < SIZE ∧ (∃ n, Call.alloc n ∈ freeAllCalls) ∧
    Session.fresh.run freeAllCalls = some freeAllFinal ∧ freeAllFinal.live = [] ∧
    freeAllFinal.a.freeBlock = [(0, freeAllFinal.a.peak)] ∧ freeAllFinal.a.used = 0 :=
  have h1 : ∀ n, Call.alloc n ∈ freeAllCalls → 0 < n ∧ n ≤ SIZE - 8 := by
    intro n hn
    simp only [freeAllCalls, firstFitCalls, List.cons_append, List.nil_append, List.mem_cons,
      Call.alloc.injEq, List.mem_singleton, reduceCtorEq, or_false, false_or,
      List.not_mem_nil] at hn
    simp only [SIZE]
    omega
  ⟨h1, by decide, ⟨16, by decide⟩, by decide, rfl,
    free_all_coalesces freeAllCalls freeAllFinal h1 (by decide) ⟨16, by decide⟩ (by decide) rfl⟩

/-- C8 as stated fails: a zero-size request leaves the zero-length entry `(16, 0)` next
to `(0, peak)` after every allocation is freed; so does a sequence of non-zero requests
that wraps `peak`. -/
theorem free_all_leaves_zero_length_entry :
    (Session.fresh.run zeroSizeCalls = some zeroSizeFinal ∧ zeroSizeFinal.live = [] ∧
      zeroSizeFinal.a.freeBlock = [(0, zeroSizeFinal.a.peak), (16, 0)]) ∧
    (Session.fresh.run wrapFreeAllCalls = some wrapFreeAllFinal ∧ wrapFreeAllFinal.live = [] ∧
      wrapFreeAllFinal.a.freeBlock = [(0, wrapFreeAllFinal.a.peak), (16, 0)]) :=
  ⟨⟨by decide, rfl, rfl⟩, ⟨by decide, rfl, rfl⟩⟩

theorem find_first_lowest {m : FreeMap} (h : MapWF m) {p : Nat × Nat → Bool} {x : Nat × Nat}
    (hf : m.find? p = some x) : ∀ e ∈ m, p e = true → x.1 ≤ e.1 := by
  induction m with
  | nil => simp at hf
  | cons y t ih =>
    rw [MapWF, List.pairwise_cons] at h
    intro e he hpe
    by_cases hy : p y = true
    · rw [List.find?_cons_of_pos _ hy, Option.some.injEq] at hf
      subst hf
      rcases List.mem_cons.1 he with rfl | he'
      · exact le_refl _
      · exact le_of_lt (h.1 e he')
    · rw [List.find?_cons_of_neg _ hy] at hf
      rcases List.mem_cons.1 he with rfl | he'
      · exact absurd hpe hy
      · exact ih h.2 hf e he' hpe

/-- C7: placement policy of `alloc`, all sums being `size_t` sums (`% 2^64`). With `s`
the aligned request and the free list in increasing offset order, `alloc` returns and
`used` grows by `s`; (1) when a span of length `>= s` exists, the offset is that of the
lowest-offset such span `it`, `peak` is unchanged and the free list becomes the old one
without `it`, with the remainder `(it.offset + s, it.len - s)` written at its key;
(2) otherwise, when the highest-offset span `it` ends exactly at `peak`, the offset is
`it.offset`, the span is removed and `peak` grows by `s - it.len`; (3) otherwise the
offset is the old `peak`, `peak` grows by `s` and the free list is unchanged. The two
scenarios of the specification evaluate to `d = 16`, `e = 40`, `peak = 64` and to
`c = 16`, `peak = 56`. -/
theorem alloc_placement_policy (a : Allocator) (size s : Nat) (hp : a.ptr = none)
    (hwf : MapWF a.freeBlock) (hr : a.InRange) (hs : a.getAlignedSize size = some s) :
    (∃ off a', a.alloc size = some (off, a') ∧ a'.used = (a.used + s) % SIZE ∧
      (∀ it ∈ a.freeBlock, s ≤ it.2 → (∀ e ∈ a.freeBlock, s ≤ e.2 → it.1 ≤ e.1) →
        off = it.1 ∧ a'.peak = a.peak ∧
        ((it.1 + s) % SIZE, it.2 - s) ∈ a'.freeBlock ∧
        ∀ e, e ∈ a'.freeBlock ↔ e = ((it.1 + s) % SIZE, it.2 - s) ∨
          (e ∈ a.freeBlock ∧ e.1 ≠ it.1 ∧ e.1 ≠ (it.1 + s) % SIZE)) ∧
      ((∀ e ∈ a.freeBlock, e.2 < s) → ∀ it ∈ a.freeBlock, (∀ e ∈ a.freeBlock, e.1 ≤ it.1) →
        (it.1 + it.2) % SIZE = a.peak →
        off = it.1 ∧ a'.peak = (a.peak + (s - it.2)) % SIZE ∧
        ∀ e, e ∈ a'.freeBlock ↔ e ∈ a.freeBlock ∧ e ≠ it) ∧
      ((∀ e ∈ a.freeBlock, e.2 < s) →
        (∀ it ∈ a.freeBlock, (∀ e ∈ a.freeBlock, e.1 ≤ it.1) → (it.1 + it.2) % SIZE ≠ a.peak) →
        off = a.peak ∧ a'.peak = (a.peak + s) % SIZE ∧ a'.freeBlock = a.freeBlock)) ∧
    (Session.fresh.run firstFitCalls = some firstFitFinal ∧
      firstFitFinal.live = [⟨40, 8, 8⟩, ⟨16, 24, 24⟩, ⟨48, 16, 16⟩, ⟨0, 16, 16⟩] ∧
      firstFitFinal.a.peak = 64) ∧
    (Session.fresh.run tailGrowCalls = some tailGrowFinal ∧
      tailGrowFinal.live = [⟨16, 40, 40⟩, ⟨0, 16, 16⟩] ∧ tailGrowFinal.a.peak = 56) := by
  refine ⟨?_, ⟨by decide, rfl, rfl⟩, ⟨by decide, rfl, rfl⟩⟩
  have hsome := alloc_isSome hp hs
  cases hA : a.alloc size with
  | none => rw [hA] at hsome; simp at hsome
  | some r =>
    obtain ⟨off, a'⟩ := r
    have hsl : s < SIZE := by
      unfold Allocator.getAlignedSize at hs
      split at hs
      · simp at hs
      · rw [Option.some.injEq] at hs
        rw [← hs]
        exact Nat.mod_lt _ (by decide)
    refine ⟨off, a', rfl, ?_, ?_, ?_, ?_⟩
    · rcases alloc_cases hp hs hA with ⟨_, h2, _, _⟩ | ⟨it, _, _, h2⟩ | ⟨it, _, _, _, _, h2⟩ <;>
        rw [h2]
    · intro it hit hge hmin
      rcases alloc_cases hp hs hA with ⟨_, _, hall, _⟩ | ⟨it0, hf, h1, h2⟩ | ⟨_, hall, _⟩
      · have := hall it hit; omega
      · have hmem0 : it0 ∈ a.freeBlock := List.mem_of_find?_eq_some hf
        have hge0 : s ≤ it0.2 := by simpa using List.find?_some hf
        have hlow := find_first_lowest hwf hf it hit (by simpa using hge)
        have hlow' := hmin it0 hmem0 hge0
        have heq : it0 = it := mapWF_key_inj hwf hmem0 hit (by omega)
        subst heq
        have hv : (it0.2 + SIZE - s) % SIZE = it0.2 - s := by
          have := (hr.2.2 it0 hmem0).2
          simp only [SIZE] at *; omega
        have hwf1 : MapWF (mapErase it0.1 a.freeBlock) := mapWF_mapErase hwf
        have hm : ∀ e, e ∈ a'.freeBlock ↔ e = ((it0.1 + s) % SIZE, it0.2 - s) ∨
            (e ∈ a.freeBlock ∧ e.1 ≠ it0.1 ∧ e.1 ≠ (it0.1 + s) % SIZE) := by
          intro e
          rw [h2, hv]
          show e ∈ mapInsert _ _ _ ↔ _
          rw [mem_mapInsert hwf1, mem_mapErase]
          tauto
        refine ⟨h1, by rw [h2], (hm _).2 (Or.inl rfl), hm⟩
      · have := hall it hit; omega
    · intro hall it hit hmax hend
      rcases alloc_cases hp hs hA with ⟨_, _, _, hno⟩ | ⟨it0, hf, _, _⟩ | ⟨it0, _, hl, _, h1, h2⟩
      · exfalso
        cases hl : a.freeBlock.getLast? with
        | none =>
          rw [List.getLast?_eq_none_iff] at hl
          rw [hl] at hit; simp at hit
        | some l =>
          obtain ⟨hlm, hlmax⟩ := mapWF_getLast_max hwf hl
          have heq : l = it := mapWF_key_inj hwf hlm hit
            (le_antisymm (hmax l hlm) (hlmax it hit))
          subst heq
          exact hno l hl hend
      · have hmem0 : it0 ∈ a.freeBlock := List.mem_of_find?_eq_some hf
        have hge0 : s ≤ it0.2 := by simpa using List.find?_some hf
        have := hall it0 hmem0; omega
      · obtain ⟨hlm, hlmax⟩ := mapWF_getLast_max hwf hl
        have heq : it0 = it := mapWF_key_inj hwf hlm hit
          (le_antisymm (hmax it0 hlm) (hlmax it hit))
        subst heq
        have hlt := hall it0 hit
        have hv : (s + SIZE - it0.2) % SIZE = s - it0.2 := by
          simp only [SIZE] at *; omega
        refine ⟨h1, by rw [h2, hv], ?_⟩
        intro e
        rw [h2]
        show e ∈ mapErase _ _ ↔ _
        rw [mem_mapErase]
        constructor
        · rintro ⟨h3, h4⟩
          exact ⟨h3, fun h => h4 (by rw [h])⟩
        · rintro ⟨h3, h4⟩
          exact ⟨h3, fun h => h4 (mapWF_key_inj hwf h3 hit h)⟩
    · intro hall hno
      rcases alloc_cases hp hs hA with ⟨h1, h2, _, _⟩ | ⟨it0, hf, _, _⟩ | ⟨it0, _, hl, hend, _, _⟩
      · exact ⟨h1, by rw [h2], by rw [h2]⟩
      · have hmem0 : it0 ∈ a.freeBlock := List.mem_of_find?_eq_some hf
        have hge0 : s ≤ it0.2 := by simpa using List.find?_some hf
        have := hall it0 hmem0; omega
      · obtain ⟨hlm, hlmax⟩ := mapWF_getLast_max hwf hl
        exact absurd hend (hno it0 hlm hlmax)

theorem alloc_placement_policy_witness :
    afterFreeB.ptr = none ∧ MapWF afterFreeB.freeBlock ∧ afterFreeB.InRange ∧
    afterFreeB.getAlignedSize 24 = some 24 ∧
    ∃ off a', afterFreeB.alloc 24 = some (off, a') ∧ a'.used = (afterFreeB.used + 24) % SIZE :=
  have hr : afterFreeB.InRange := by
    refine ⟨by decide, by decide, ?_⟩
    intro e he
    simp only [afterFreeB, List.mem_singleton] at he
    subst he
    exact ⟨by decide, by decide⟩
  ⟨rfl, by decide, hr, by decide,
    (alloc_placement_policy afterFreeB 24 24 rfl (by decide) hr (by decide)).1.imp
      (fun _ h => h.imp (fun _ h' => ⟨h'.1, h'.2.1⟩))⟩

/-! ## Claim on MatMul shape inference -/

theorem length_swapLastTwo {shape : Shape} (h : 2 ≤ shape.length) :
    (swapLastTwo shape).length = shape.length := by
  simp only [swapLastTwo, List.length_append, List.length_take, List.length_cons,
    List.length_nil]
  omega

theorem take_swapLastTwo {shape : Shape} (h : 2 ≤ shape.length) :
    (swapLastTwo shape).take (shape.length - 2) = shape.take (shape.length - 2) := by
  unfold swapLastTwo
  rw [List.take_append_eq_append_take]
  simp only [List.length_take, List.take_take]
  have : min (shape.length - 2) shape.length = shape.length - 2 := by omega
  simp [this]

theorem getD_swapLastTwo_fst {shape : Shape} (h : 2 ≤ shape.length) :
    (swapLastTwo shape).getD (shape.length - 2) 0 = shape.getD (shape.length - 1) 0 := by
  unfold swapLastTwo
  rw [List.getD_append_right _ _ _ _ (by simp only [List.length_take]; omega)]
  have : shape.length - 2 - (List.take (shape.length - 2) shape).length = 0 := by
    simp only [List.length_take]; omega
  rw [this]
  rfl

theorem getD_swapLastTwo_snd {shape : Shape} (h : 2 ≤ shape.length) :
    (swapLastTwo shape).getD (shape.length - 1) 0 = shape.getD (shape.length - 2) 0 := by
  unfold swapLastTwo
  rw [List.getD_append_right _ _ _ _ (by simp only [List.length_take]; omega)]
  have : shape.length - 1 - (List.take (shape.length - 2) shape).length = 1 := by
    simp only [List.length_take]; omega
  rw [this]
  rfl

/-- C6 (amended): for every pair of input shapes `A`, `B` of rank at least 2,
`MatmulObj::inferShape` returns exactly one shape, `prefix(A) ++ [m, n]` with
`m = A[-2]` and `n = B[-1]` taken after the swaps; the prefix of `B` is not read. It is
the shape `broadcast(prefix(A), prefix(B)) ++ [m, n]` of the specification whenever
the inner dims agree and that broadcast is `prefix(A)`. -/
theorem matmul_inferShape_uses_prefix_of_A (transA transB : Bool) (A B : Shape)
    (hA : 2 ≤ A.length) (hB : 2 ≤ B.length) :
    MatmulObj.inferShape transA transB [A, B] =
      some [batchDims A ++ [dimM transA A, dimN transB B]] ∧
    (dimKa transA A = dimKb transB B →
      broadcastShapes (batchDims A) (batchDims B) = some (batchDims A) →
      (MatmulObj.inferShape transA transB [A, B]).map (fun r => r.head?) =
        some (matmulShapeSpec transA transB A B)) := by
  have h1 : MatmulObj.inferShape transA transB [A, B] =
      some [batchDims A ++ [dimM transA A, dimN transB B]] := by
    unfold MatmulObj.inferShape
    have e0 : ¬ ¬ ([A, B].length ≥ 2) := by simp
    rw [if_neg e0]
    have e1 : ¬ ¬ ((([A, B] : List Shape).getD 0 []).length ≥ 2 ∧
        (([A, B] : List Shape).getD 1 []).length ≥ 2) := by
      simp only [List.getD_cons_zero, List.getD_cons_succ, not_not]
      exact ⟨hA, hB⟩
    rw [if_neg e1]
    simp only [List.getD_cons_zero, List.getD_cons_succ, batchDims, dimM, dimN]
    cases transA <;> cases transB <;>
      simp only [Bool.false_eq_true, if_false, if_true, length_swapLastTwo hA,
        length_swapLastTwo hB, take_swapLastTwo hA, getD_swapLastTwo_fst hA,
        getD_swapLastTwo_snd hB, List.append_assoc, List.singleton_append]
  refine ⟨h1, ?_⟩
  intro hk hb
  rw [h1]
  simp only [matmulShapeSpec, hk, hb, Option.map_some', List.head?_cons]
  simp [hA, hB]

theorem matmul_inferShape_uses_prefix_of_A_witness :
    2 ≤ ([1, 4, 3] : Shape).length ∧ 2 ≤ ([1, 3, 5] : Shape).length ∧
    MatmulObj.inferShape false false [[1, 4, 3], [1, 3, 5]] =
      some [batchDims [1, 4, 3] ++ [dimM false [1, 4, 3], dimN false [1, 3, 5]]] :=
  ⟨by decide, by decide,
    (matmul_inferShape_uses_prefix_of_A false false [1, 4, 3] [1, 3, 5]
      (by decide) (by decide)).1⟩

/-- C6 as stated fails: for `A : [4,3]`, `B : [2,3,5]` (ranks at least 2, inner dims
3 = 3, prefixes `[]` and `[2]` broadcast-compatible) the specification's shape is
`[2,4,5]` while `inferShape` returns `[4,5]`. -/
theorem matmul_inferShape_ignores_prefix_of_B :
    2 ≤ ([4, 3] : Shape).length ∧ 2 ≤ ([2, 3, 5] : Shape).length ∧
    dimKa false [4, 3] = dimKb false [2, 3, 5] ∧
    broadcastShapes (batchDims [4, 3]) (batchDims [2, 3, 5]) = some [2] ∧
    matmulShapeSpec false false [4, 3] [2, 3, 5] = some [2, 4, 5] ∧
    MatmulObj.inferShape false false [[4, 3], [2, 3, 5]] = some [[4, 5]] ∧
    MatmulObj.inferShape false false [[4, 3], [2, 3, 5]] ≠ some [[2, 4, 5]] := by
  decide

/-! ## Topological sort -/

theorem topoReady_iff {g : GraphObj} {flags : List Nat} {op : Nat} :
    topoReady g flags op = true ↔
      op ∉ flags ∧ ∀ t ∈ (g.op op).inputs, ∀ p, (g.tensor t).source = some p → p ∈ flags := by
  unfold topoReady
  simp only [Bool.and_eq_true, Bool.not_eq_true', List.all_eq_true]
  constructor
  · rintro ⟨h1, h2⟩
    refine ⟨by simpa using h1, ?_⟩
    intro t ht p hp
    have := h2 t ht
    rw [hp] at this
    simpa using this
  · rintro ⟨h1, h2⟩
    refine ⟨by simpa using h1, ?_⟩
    intro t ht
    cases hsrc : (g.tensor t).source with
    | none => rfl
    | some p => simpa using h2 t ht p hsrc

theorem topoSweep_nil (g : GraphObj) (st : List Nat × List Nat × Bool) :
    topoSweep g [] st = st := by
  unfold topoSweep; rfl

theorem topoSweep_cons (g : GraphObj) (op : Nat) (rest s f : List Nat) (m : Bool) :
    topoSweep g (op :: rest) (s, f, m) =
      if topoReady g f op then topoSweep g rest (s ++ [op], op :: f, true)
      else topoSweep g rest (s, f, m) := by
  rw [topoSweep]

theorem topoSweep_modified_of_true (g : GraphObj) (rest : List Nat) :
    ∀ s f, (topoSweep g rest (s, f, true)).2.2 = true := by
  induction rest with
  | nil => intro s f; rw [topoSweep_nil]
  | cons op rest ih =>
    intro s f
    rw [topoSweep_cons]
    split
    · exact ih _ _
    · exact ih _ _

theorem topoSweep_length (g : GraphObj) (rest : List Nat) :
    ∀ s f m, s.length ≤ (topoSweep g rest (s, f, m)).1.length ∧
      ((topoSweep g rest (s, f, m)).2.2 = true →
        m = true ∨ s.length < (topoSweep g rest (s, f, m)).1.length) := by
  induction rest with
  | nil =>
    intro s f m
    rw [topoSweep_nil]
    exact ⟨le_refl _, fun h => Or.inl h⟩
  | cons op rest ih =>
    intro s f m
    rw [topoSweep_cons]
    split
    · have := ih (s ++ [op]) (op :: f) true
      rw [List.length_append, List.length_singleton] at this
      exact ⟨by omega, fun _ => Or.inr (by omega)⟩
    · exact ih s f m

theorem topoSweep_progress (g : GraphObj) (rest : List Nat) :
    ∀ s f m, (∃ x ∈ rest, topoReady g f x = true) →
      (topoSweep g rest (s, f, m)).2.2 = true := by
  induction rest with
  | nil => intro s f m ⟨x, hx, _⟩; simp at hx
  | cons op rest ih =>
    intro s f m ⟨x, hx, hr⟩
    rw [topoSweep_cons]
    by_cases hop : topoReady g f op = true
    · rw [if_pos hop]
      exact topoSweep_modified_of_true g rest _ _
    · rw [if_neg hop]
      rcases List.mem_cons.1 hx with rfl | hx'
      · exact absurd hr hop
      · exact ih s f m ⟨x, hx', hr⟩

theorem producersFirst_concat {g : GraphObj} {s : List Nat} {op : Nat}
    (hs : ProducersFirst g s)
    (hop : ∀ t ∈ (g.op op).inputs, ∀ p, (g.tensor t).source = some p → p ∈ s) :
    ProducersFirst g (s ++ [op]) := by
  intro l1 x l2 heq t ht p hp
  rcases List.append_eq_append_iff.1 heq with ⟨a', h1, h2⟩ | ⟨c', h1, h2⟩
  · -- `l1 = s ++ a'` and `[op] = a' ++ x :: l2`
    cases a' with
    | nil =>
      simp only [List.nil_append, List.cons.injEq] at h2
      rw [h1, List.append_nil]
      rw [← h2.1] at ht
      exact hop t ht p hp
    | cons y a'' =>
      exfalso
      have := congrArg List.length h2
      simp at this
  · -- `s = l1 ++ c'` and `x :: l2 = c' ++ [op]`
    cases c' with
    | nil =>
      simp only [List.nil_append, List.cons.injEq] at h2
      rw [List.append_nil] at h1
      rw [← h1]
      rw [h2.1] at ht
      exact hop t ht p hp
    | cons y c'' =>
      simp only [List.cons_append, List.cons.injEq] at h2
      rw [← h2.1] at h1
      exact hs l1 x c'' h1 t ht p hp

theorem producersFirst_of_concat {g : GraphObj} {s : List Nat} {op : Nat}
    (h : ProducersFirst g (s ++ [op])) :
    ProducersFirst g s ∧
      ∀ t ∈ (g.op op).inputs, ∀ p, (g.tensor t).source = some p → p ∈ s := by
  constructor
  · intro l1 x l2 heq
    exact h l1 x (l2 ++ [op]) (by rw [heq]; simp)
  · exact h s op [] rfl

/-- A sweep keeps the invariant of `topo_sort`: `flags` holds the members of `sorted`,
`sorted` has no repetition, holds operators of the graph only and lists producers first. -/
theorem topoSweep_inv (g : GraphObj) (rest : List Nat) (hrest : ∀ x ∈ rest, x ∈ g.ops) :
    ∀ s f m, (∀ x, x ∈ f ↔ x ∈ s) → s.Nodup → (∀ x ∈ s, x ∈ g.ops) → ProducersFirst g s →
      (∀ x, x ∈ (topoSweep g rest (s, f, m)).2.1 ↔ x ∈ (topoSweep g rest (s, f, m)).1) ∧
      (topoSweep g rest (s, f, m)).1.Nodup ∧
      (∀ x ∈ (topoSweep g rest (s, f, m)).1, x ∈ g.ops) ∧
      ProducersFirst g (topoSweep g rest (s, f, m)).1 := by
  induction rest with
  | nil =>
    intro s f m h1 h2 h3 h4
    rw [topoSweep_nil]
    exact ⟨h1, h2, h3, h4⟩
  | cons op rest ih =>
    intro s f m h1 h2 h3 h4
    rw [topoSweep_cons]
    have hrest' : ∀ x ∈ rest, x ∈ g.ops := fun x hx => hrest x (List.mem_cons_of_mem _ hx)
    by_cases hop : topoReady g f op = true
    · rw [if_pos hop]
      obtain ⟨hnf, hprod⟩ := topoReady_iff.1 hop
      have hns : op ∉ s := fun h => hnf ((h1 op).2 h)
      apply ih hrest'
      · intro x
        simp only [List.mem_cons, List.mem_append, List.mem_singleton, h1 x]
        tauto
      · exact List.Nodup.append h2 (List.nodup_singleton op)
          (by
            intro a ha hb
            rw [List.mem_singleton] at hb
            subst hb
            exact hns ha)
      · intro x hx
        rcases List.mem_append.1 hx with h | h
        · exact h3 x h
        · rw [List.mem_singleton] at h
          subst h
          exact hrest x (List.mem_cons_self _ _)
      · exact producersFirst_concat h4 (fun t ht p hp => (h1 p).1 (hprod t ht p hp))
    · rw [if_neg hop]
      exact ih hrest' s f m h1 h2 h3 h4

theorem exists_minimal {R : Nat → Nat → Prop} (hac : ∀ x, ¬ Relation.TransGen R x x)
    (U : List Nat) (hU : U ≠ []) : ∃ m ∈ U, ∀ p ∈ U, ¬ R p m := by
  classical
  let r : {x // x ∈ U} → {x // x ∈ U} → Prop := fun a b => Relation.TransGen R a.1 b.1
  haveI : IsTrans _ r := ⟨fun a b c h1 h2 => Relation.TransGen.trans h1 h2⟩
  haveI : IsIrrefl _ r := ⟨fun a h => hac a.1 h⟩
  have wf : WellFounded r := Finite.wellFounded_of_trans_of_irrefl r
  obtain ⟨x0, hx0⟩ := List.exists_mem_of_ne_nil U hU
  obtain ⟨m, -, hm⟩ := wf.has_min Set.univ ⟨⟨x0, hx0⟩, trivial⟩
  exact ⟨m.1, m.2, fun p hp hR => hm ⟨p, hp⟩ trivial (Relation.TransGen.single hR)⟩

theorem exists_not_mem_of_length_lt {s ops : List Nat} (hnd : ops.Nodup)
    (hlen : s.length < ops.length) : ∃ x ∈ ops, x ∉ s := by
  by_contra hc
  have hsub : ops ⊆ s := by
    intro x hx
    by_contra hx'
    exact hc ⟨x, hx, hx'⟩
  have := (List.subperm_of_subset hnd hsub).length_le
  omega

theorem exists_ready {g : GraphObj} (hac : ¬ HasCycle g) (hsrc : SourcesInGraph g)
    {f : List Nat} (hex : ∃ x ∈ g.ops, x ∉ f) : ∃ m ∈ g.ops, topoReady g f m = true := by
  obtain ⟨x, hx, hxf⟩ := hex
  have hU : g.ops.filter (fun y => decide (y ∉ f)) ≠ [] := by
    intro h
    have : x ∈ g.ops.filter (fun y => decide (y ∉ f)) := by
      simp [List.mem_filter, hx, hxf]
    rw [h] at this
    simp at this
  obtain ⟨m, hm, hmin⟩ := exists_minimal (R := Produces g) (fun y hy => hac ⟨y, hy⟩) _ hU
  have hm' : m ∈ g.ops ∧ m ∉ f := by simpa [List.mem_filter] using hm
  refine ⟨m, hm'.1, topoReady_iff.2 ⟨hm'.2, ?_⟩⟩
  intro t ht p hp
  by_contra hpf
  have hpo : p ∈ g.ops := hsrc m hm'.1 t ht p hp
  exact hmin p (by simp [List.mem_filter, hpo, hpf]) ⟨hpo, hm'.1, t, ht, hp⟩

theorem topoLoop_succ (g : GraphObj) (fuel : Nat) (s f : List Nat) :
    topoLoop g (fuel + 1) s f =
      if s.length < g.ops.length then
        if !(topoSweep g g.ops (s, f, false)).2.2 then
          some (false, (topoSweep g g.ops (s, f, false)).1)
        else topoLoop g fuel (topoSweep g g.ops (s, f, false)).1
          (topoSweep g g.ops (s, f, false)).2.1
      else some (true, s) := by
  rw [topoLoop]

/-- The loop of `topo_sort` ends within the fuel; when it returns `true` the vector
`sorted` is a permutation of `ops` listing producers first; it returns `true` when the
graph has no cycle. -/
theorem topoLoop_spec (g : GraphObj) (hnd : g.ops.Nodup) :
    ∀ fuel s f, g.ops.length - s.length < fuel →
      (∀ x, x ∈ f ↔ x ∈ s) → s.Nodup → (∀ x ∈ s, x ∈ g.ops) → ProducersFirst g s →
      ∃ b s', topoLoop g fuel s f = some (b, s') ∧
        (b = true → s'.Perm g.ops ∧ ProducersFirst g s') ∧
        (¬ HasCycle g → SourcesInGraph g → b = true) := by
  intro fuel
  induction fuel with
  | zero => intro s f h; omega
  | succ fuel ih =>
    intro s f hfuel h1 h2 h3 h4
    rw [topoLoop_succ]
    by_cases hlen : s.length < g.ops.length
    · rw [if_pos hlen]
      obtain ⟨i1, i2, i3, i4⟩ := topoSweep_inv g g.ops (fun x hx => hx) s f false h1 h2 h3 h4
      have hl := topoSweep_length g g.ops s f false
      cases hm : (topoSweep g g.ops (s, f, false)).2.2 with
      | false =>
        refine ⟨false, _, rfl, fun h => by simp at h, ?_⟩
        intro hac hsrc
        exfalso
        obtain ⟨x, hx, hxs⟩ := exists_not_mem_of_length_lt hnd hlen
        obtain ⟨m, hmo, hmr⟩ := exists_ready hac hsrc ⟨x, hx, fun h => hxs ((h1 x).1 h)⟩
        have := topoSweep_progress g g.ops s f false ⟨m, hmo, hmr⟩
        rw [hm] at this
        simp at this
      | true =>
        have hlt : s.length < (topoSweep g g.ops (s, f, false)).1.length := by
          rcases hl.2 hm with h | h
          · simp at h
          · exact h
        simp only [Bool.not_true, Bool.false_eq_true, if_false]
        exact ih _ _ (by omega) i1 i2 i3 i4
    · rw [if_neg hlen]
      refine ⟨true, s, rfl, fun _ => ⟨?_, h4⟩, fun _ _ => rfl⟩
      exact (List.subperm_of_subset h2 h3).perm_of_length_le (by omega)

theorem producersFirst_nil (g : GraphObj) : ProducersFirst g [] := by
  intro l1 op l2 h
  simp at h

/-- In a list without repetition that lists producers first, whatever reaches a member
through the producer relation is another member. -/
theorem transGen_mem_of_producersFirst (g : GraphObj) (s : List Nat) :
    s.Nodup → ProducersFirst g s →
      ∀ x y, Relation.TransGen (Produces g) x y → y ∈ s → x ∈ s ∧ x ≠ y := by
  induction s using List.reverseRecOn with
  | nil => intro _ _ x y _ hy; simp at hy
  | append_singleton s op ih =>
    intro hnd hpf x y hxy hy
    obtain ⟨hpf', hop⟩ := producersFirst_of_concat hpf
    have hnd' : s.Nodup := (List.nodup_append.1 hnd).1
    have hops : op ∉ s := by
      intro h
      exact (List.nodup_append.1 hnd).2.2 h (List.mem_singleton_self op)
    rcases List.mem_append.1 hy with hys | hyo
    · obtain ⟨h1, h2⟩ := ih hnd' hpf' x y hxy hys
      exact ⟨List.mem_append_left _ h1, h2⟩
    · rw [List.mem_singleton] at hyo
      subst hyo
      have hxs : x ∈ s := by
        rcases Relation.TransGen.tail'_iff.1 hxy with ⟨z, hxz, hzy⟩
        obtain ⟨_, _, t, ht, hp⟩ := hzy
        have hzs : z ∈ s := hop t ht z hp
        rcases Relation.reflTransGen_iff_eq_or_transGen.1 hxz with h | h
        · rw [← h]; exact hzs
        · exact (ih hnd' hpf' x z h hzs).1
      refine ⟨List.mem_append_left _ hxs, ?_⟩
      rintro rfl
      exact hops hxs

theorem no_cycle_of_producersFirst {g : GraphObj} {s : List Nat} (hperm : s.Perm g.ops)
    (hnd : g.ops.Nodup) (hpf : ProducersFirst g s) : ¬ HasCycle g := by
  rintro ⟨x, hx⟩
  have hxo : x ∈ g.ops := by
    rcases Relation.TransGen.tail'_iff.1 hx with ⟨z, _, hzx⟩
    exact hzx.2.1
  exact (transGen_mem_of_producersFirst g s (hperm.nodup_iff.2 hnd) hpf x x hx
    (hperm.mem_iff.2 hxo)).2 rfl

theorem no_cycle_of_topoLoop (g : GraphObj) (fuel : Nat) (s' : List Nat) (hnd : g.ops.Nodup)
    (hfuel : g.ops.length < fuel) (h : topoLoop g fuel [] [] = some (true, s')) :
    ¬ HasCycle g := by
  obtain ⟨b, s'', h1, h2, _⟩ := topoLoop_spec g hnd fuel [] []
    (by simp only [List.length_nil]; omega) (fun x => Iff.rfl) List.nodup_nil
    (fun x hx => by simp at hx) (producersFirst_nil g)
  rw [h] at h1
  simp only [Option.some.injEq, Prod.mk.injEq] at h1
  obtain ⟨hb, hs⟩ := h1
  subst hb; subst hs
  exact no_cycle_of_producersFirst (h2 rfl).1 hnd (h2 rfl).2

/-! ## Claims on the topological sort -/

/-- C2 (amended): for every graph whose `sorted` flag is clear, whose operator list holds
each operator once, in which every input tensor's source (when present) is an operator of the
graph and whose producer relation has no cycle, `topo_sort` ends (within
`ops.size() + 1` tests of its loop condition), returns `true`, sets `sorted` and replaces
the operator list by a permutation of it in which every operator stands after the
producer of each of its inputs; nothing else of the graph changes. -/
theorem topo_sort_orders (g : GraphObj) (fuel : Nat) (hs : g.sorted = false)
    (hnd : g.ops.Nodup) (hsrc : SourcesInGraph g) (hac : ¬ HasCycle g)
    (hfuel : g.ops.length < fuel) :
    ∃ s', g.topo_sort fuel = some (true, { g with ops := s', sorted := true }) ∧
      s'.Perm g.ops ∧ ProducersFirst g s' := by
  obtain ⟨b, s', h1, h2, h3⟩ := topoLoop_spec g hnd fuel [] []
    (by simp only [List.length_nil]; omega) (fun x => Iff.rfl) List.nodup_nil
    (fun x hx => by simp at hx) (producersFirst_nil g)
  have hb : b = true := h3 hac hsrc
  subst hb
  refine ⟨s', ?_, (h2 rfl).1, (h2 rfl).2⟩
  unfold GraphObj.topo_sort
  rw [hs, h1]
  rfl

theorem topo_sort_orders_witness :
    reversedGraph.sorted = false ∧ reversedGraph.ops = [2, 1, 0] ∧
    SourcesInGraph reversedGraph ∧ ¬ HasCycle reversedGraph ∧
    ∃ s', reversedGraph.topo_sort 4 =
        some (true, { reversedGraph with ops := s', sorted := true }) ∧
      s'.Perm reversedGraph.ops ∧ ProducersFirst reversedGraph s' :=
  have hnd : reversedGraph.ops.Nodup := by decide
  have hac : ¬ HasCycle reversedGraph :=
    no_cycle_of_topoLoop reversedGraph 4 [0, 1, 2] hnd (by decide) (by decide)
  ⟨by decide, by decide, by decide, hac,
    topo_sort_orders reversedGraph 4 (by decide) hnd (by decide) hac (by decide)⟩

/-- C10 (amended): for every graph whose `sorted` flag is clear, whose operator list holds
each operator once and in which every input tensor's source (when present) is an operator of
the graph, `topo_sort` ends (within `ops.size() + 1` tests of its loop condition) and
returns `false` if and only if the producer relation of the operators contains a cycle;
when it returns `false` the graph is left as it was. -/
theorem topo_sort_false_iff_cycle (g : GraphObj) (fuel : Nat) (hs : g.sorted = false)
    (hnd : g.ops.Nodup) (hsrc : SourcesInGraph g) (hfuel : g.ops.length < fuel) :
    ∃ b g', g.topo_sort fuel = some (b, g') ∧ (b = false ↔ HasCycle g) ∧
      (b = false → g' = g) := by
  obtain ⟨b, s', h1, h2, h3⟩ := topoLoop_spec g hnd fuel [] []
    (by simp only [List.length_nil]; omega) (fun x => Iff.rfl) List.nodup_nil
    (fun x hx => by simp at hx) (producersFirst_nil g)
  cases b with
  | false =>
    refine ⟨false, g, ?_, ?_, fun _ => rfl⟩
    · unfold GraphObj.topo_sort
      rw [hs, h1]
      rfl
    · refine ⟨fun _ => ?_, fun _ => rfl⟩
      by_contra hac
      have := h3 hac hsrc
      simp at this
  | true =>
    refine ⟨true, { g with ops := s', sorted := true }, ?_, ?_, fun h => by simp at h⟩
    · unfold GraphObj.topo_sort
      rw [hs, h1]
      rfl
    · refine ⟨fun h => by simp at h, fun hc => ?_⟩
      exact absurd hc (no_cycle_of_producersFirst (h2 rfl).1 hnd (h2 rfl).2)

theorem topo_sort_false_iff_cycle_witness :
    cycleGraph.sorted = false ∧ cycleGraph.ops = [0, 1] ∧ SourcesInGraph cycleGraph ∧
    (cycleGraph.topo_sort 3).map (fun r => r.1) = some false ∧
    ∃ b g', cycleGraph.topo_sort 3 = some (b, g') ∧ (b = false ↔ HasCycle cycleGraph) ∧
      (b = false → g' = cycleGraph) :=
  ⟨by decide, by decide, by decide, by decide,
    topo_sort_false_iff_cycle cycleGraph 3 (by decide) (by decide) (by decide) (by decide)⟩

/-! ## Rule 2 of the optimizer on a single consumer -/

theorem sizeToInt_of_lt {x : Nat} (h : x < 2147483648) : sizeToInt x = (x : Int) := by
  unfold sizeToInt
  have h1 : x % 4294967296 = x := Nat.mod_eq_of_lt (by omega)
  have h2 : (x + 2147483648) % 4294967296 = x + 2147483648 := Nat.mod_eq_of_lt (by omega)
  rw [h1, h2]
  push_cast
  omega

theorem lastTwoSwapped_append (R : List Int) (hR : R.length + 2 < 2147483648) :
    lastTwoSwapped (R ++ [((R.length + 1 : Nat) : Int), ((R.length : Nat) : Int)]) =
      some true := by
  unfold lastTwoSwapped
  have hlen : (R ++ [((R.length + 1 : Nat) : Int), ((R.length : Nat) : Int)]).length =
      R.length + 2 := by simp
  have e1 : (R.length + 2 + SIZE - 1) % SIZE = R.length + 1 := by
    simp only [SIZE]; omega
  have e2 : (R.length + 2 + SIZE - 2) % SIZE = R.length := by
    simp only [SIZE]; omega
  rw [hlen, e1, e2]
  have g1 : (R ++ [((R.length + 1 : Nat) : Int), ((R.length : Nat) : Int)])[R.length + 1]? =
      some ((R.length : Nat) : Int) := by
    rw [List.getElem?_append_right (by omega)]
    simp
  have g2 : (R ++ [((R.length + 1 : Nat) : Int), ((R.length : Nat) : Int)])[R.length]? =
      some ((R.length + 1 : Nat) : Int) := by
    rw [List.getElem?_append_right (by omega)]
    simp
  simp only [g1, g2]
  rw [sizeToInt_of_lt (by omega), sizeToInt_of_lt (by omega)]
  simp

theorem lastTwoSwapped_of_swap {perm : List Int} (h : IsLastTwoSwap perm)
    (hlen : perm.length < 2147483648) : lastTwoSwapped perm = some true := by
  obtain ⟨h1, h2⟩ := h
  generalize hn : perm.length = n at h1 h2 hlen
  obtain ⟨m, rfl⟩ : ∃ m, n = m + 2 := ⟨n - 2, by omega⟩
  have hR : ((List.range m).map Int.ofNat).length = m := by simp
  have := lastTwoSwapped_append ((List.range m).map Int.ofNat) (by rw [hR]; omega)
  rw [hR] at this
  rw [h2]
  simpa using this

theorem lastTwoSwapped_ne_none {perm : List Int} (h0 : perm ≠ [])
    (hnn : ∀ v ∈ perm, 0 ≤ v) (hlen : perm.length < 2147483648) :
    lastTwoSwapped perm ≠ none := by
  unfold lastTwoSwapped
  have hpos : 0 < perm.length := List.length_pos.2 h0
  have e1 : (perm.length + SIZE - 1) % SIZE = perm.length - 1 := by
    simp only [SIZE]; omega
  simp only [e1]
  cases hv : perm[perm.length - 1]? with
  | none =>
    rw [List.getElem?_eq_none_iff] at hv
    omega
  | some v1 =>
    have hv0 : 0 ≤ v1 := hnn _ (List.getElem?_mem hv)
    simp only []
    by_cases h1 : perm.length = 1
    · have e2 : (perm.length + SIZE - 2) % SIZE = SIZE - 1 := by
        simp only [SIZE]; omega
      have e3 : sizeToInt (SIZE - 1) = -1 := by decide
      rw [e2, e3]
      rw [if_neg (by omega)]
      simp
    · have e2 : (perm.length + SIZE - 2) % SIZE = perm.length - 2 := by
        simp only [SIZE]; omega
      rw [e2]
      cases hv2 : perm[perm.length - 2]? with
      | none =>
        rw [List.getElem?_eq_none_iff] at hv2
        omega
      | some v2 =>
        simp only []
        split <;> simp

theorem toggleTrans_inputs (o : OperatorObj) (i : Nat) : (o.toggleTrans i).inputs = o.inputs := by
  unfold OperatorObj.toggleTrans
  split
  · split <;> rfl
  · rfl

theorem toggleTrans_isMatMul (o : OperatorObj) (i : Nat) :
    (o.toggleTrans i).kind.isMatMul = o.kind.isMatMul := by
  unfold OperatorObj.toggleTrans
  split
  · rename_i a b hk
    rw [hk]
    split <;> rfl
  · rfl

theorem toggleTrans_matmul {o : OperatorObj} {a b : Bool} (hk : o.kind = .matmul a b)
    (i : Nat) : (o.toggleTrans i).kind = if i = 0 then .matmul (!a) b else .matmul a (!b) := by
  unfold OperatorObj.toggleTrans
  rw [hk]
  simp only []
  split <;> rfl

theorem optInv_transpose_iff {g : GraphObj} {T A : Nat} {st : OptState} (hG : OptInv g T A st)
    (Q : Nat) (q : List Int) :
    (st.op Q).kind = .transpose q ↔ (g.op Q).kind = .transpose q := by
  cases hm : (g.op Q).kind.isMatMul with
  | false => rw [hG.kind Q hm]
  | true =>
    have h1 := hG.mm Q hm
    constructor
    · intro h; rw [h] at h1; simp [OpKind.isMatMul] at h1
    · intro h; rw [h] at hm; simp [OpKind.isMatMul] at hm

theorem optInv_isTranspose {g : GraphObj} {T A : Nat} {st : OptState} (hG : OptInv g T A st)
    (Q : Nat) : (st.op Q).kind.isTranspose = (g.op Q).kind.isTranspose := by
  cases hm : (g.op Q).kind.isMatMul with
  | false => rw [hG.kind Q hm]
  | true =>
    have h1 := hG.mm Q hm
    cases hk : (st.op Q).kind <;> cases hk' : (g.op Q).kind <;>
      simp_all [OpKind.isMatMul, OpKind.isTranspose]

theorem stepKeeps_refl (M T A h : Nat) (st : OptState) : StepKeeps M T A h st st :=
  ⟨fun _ _ => rfl, id, fun _ h => h, fun _ h => h, id, id⟩

theorem stepKeeps_trans {M T A h : Nat} {s1 s2 s3 : OptState}
    (h12 : StepKeeps M T A h s1 s2) (h23 : StepKeeps M T A h s2 s3) :
    StepKeeps M T A h s1 s3 :=
  ⟨fun Q hQ => (h23.ops Q hQ).trans (h12.ops Q hQ),
   fun h => h23.unmarked (h12.unmarked h),
   fun x hx => h23.marks x (h12.marks x hx),
   fun x hx => h23.tmarks x (h12.tmarks x hx),
   fun h => h23.target (h12.target h),
   fun h => h23.notarget (h12.notarget h)⟩

theorem getElem?_isSome_of_lt {l : List Nat} {i : Nat} (h : i < l.length) :
    ∃ x, l[i]? = some x := by
  cases hx : l[i]? with
  | none => rw [List.getElem?_eq_none_iff] at hx; omega
  | some x => exact ⟨x, rfl⟩

/-- A turn of the loop of rule 2 for a MatMul `h` and a predecessor `p` other than `T`
returns and keeps what concerns `M`, `T` and `A`. -/
theorem fuseStep_keeps {g : GraphObj} {M T A h p i : Nat} {st : OptState}
    (hG : OptInv g T A st) (hMk : (g.op M).kind.isMatMul = true)
    (hTk : (g.op T).kind.isTranspose = true) (hh : (g.op h).kind.isMatMul = true)
    (hp : p ≠ T) (hpA : (g.op p).ArityOK) (hi : i < (g.op h).inputs.length) :
    ∃ st', fuseStep h i p st = some st' ∧ OptInv g T A st' ∧ StepKeeps M T A h st st' := by
  unfold fuseStep
  cases hk : (st.op p).kind with
  | matmul a b => exact ⟨st, rfl, hG, stepKeeps_refl _ _ _ _ _⟩
  | other => exact ⟨st, rfl, hG, stepKeeps_refl _ _ _ _ _⟩
  | transpose q =>
    have hkg : (g.op p).kind = .transpose q := (optInv_transpose_iff hG p q).1 hk
    unfold OperatorObj.ArityOK at hpA
    rw [hkg] at hpA
    obtain ⟨hlen1, hne, hnn, hlt⟩ := hpA
    simp only []
    cases hl : lastTwoSwapped q with
    | none => exact absurd hl (lastTwoSwapped_ne_none hne hnn hlt)
    | some sw =>
      cases sw with
      | false => exact ⟨st, rfl, hG, stepKeeps_refl _ _ _ _ _⟩
      | true =>
        obtain ⟨x, hx⟩ : ∃ x, (st.op p).inputs[0]? = some x :=
          getElem?_isSome_of_lt (by rw [hG.len p]; omega)
        obtain ⟨y, hy⟩ : ∃ y, (st.op h).inputs[i]? = some y :=
          getElem?_isSome_of_lt (by rw [hG.len h]; exact hi)
        simp only [hx, hy]
        have hhT : h ≠ T := by
          rintro rfl
          cases hkT : (g.op h).kind <;> simp_all [OpKind.isMatMul, OpKind.isTranspose]
        have hpM : p ≠ M := by
          rintro rfl
          rw [hkg] at hMk
          simp [OpKind.isMatMul] at hMk
        refine ⟨_, rfl, ⟨?_, ?_, ?_, ?_⟩, ⟨?_, ?_, ?_, ?_, ?_, ?_⟩⟩
        · intro Q
          by_cases hQ : Q = h
          · subst hQ
            simp only [Function.update_same]
            rw [← hG.len Q]
            split
            · rw [toggleTrans_inputs]
              simp [OperatorObj.removePredecessors, OperatorObj.replaceInput]
            · simp [OperatorObj.removePredecessors, OperatorObj.replaceInput]
          · simp only [Function.update_noteq hQ]
            exact hG.len Q
        · intro Q hQm
          have hQ : Q ≠ h := by rintro rfl; rw [hh] at hQm; simp at hQm
          simp only [Function.update_noteq hQ]
          exact hG.kind Q hQm
        · intro Q hQm
          by_cases hQ : Q = h
          · subst hQ
            simp only [Function.update_same]
            have := hG.mm Q hQm
            split
            · rw [toggleTrans_isMatMul]
              exact this
            · exact this
          · simp only [Function.update_noteq hQ]
            exact hG.mm Q hQm
        · simp only [Function.update_noteq (Ne.symm hhT)]
          exact hG.inT
        · intro Q hQ
          simp only [Function.update_noteq hQ]
        · intro hT
          split
          · simp only [List.mem_append, List.mem_singleton, not_or]
            exact ⟨hT, fun h => hp h.symm⟩
          · exact hT
        · intro v hv
          split
          · exact List.mem_append_left _ hv
          · exact hv
        · intro v hv
          exact List.mem_append_left _ hv
        · intro hM
          by_cases hxA : A = x
          · subst hxA
            simp only [Function.update_same, TensorObj.addTarget, TensorObj.removeTarget,
              List.mem_append, List.mem_filter]
            left
            exact ⟨hM, by simpa using Ne.symm hpM⟩
          · simp only [Function.update_noteq hxA]
            exact hM
        · intro hT
          by_cases hxA : A = x
          · subst hxA
            simp only [Function.update_same, TensorObj.addTarget, TensorObj.removeTarget,
              List.mem_append, List.mem_filter, List.mem_singleton, not_or]
            exact ⟨fun h => hT h.1, fun h => hhT h.symm⟩
          · simp only [Function.update_noteq hxA]
            exact hT

theorem fuseLoop_nil (h i : Nat) (st : OptState) : fuseLoop h [] i st = some st := by
  unfold fuseLoop; rfl

theorem fuseLoop_cons (h p i : Nat) (ps : List Nat) (st : OptState) :
    fuseLoop h (p :: ps) i st =
      match fuseStep h i p st with
      | none => none
      | some st' => fuseLoop h ps (i + 1) st' := by
  rw [fuseLoop]

/-- The loop of rule 2 for a MatMul `h` none of whose predecessors is `T` returns and
keeps what concerns `M`, `T` and `A`. -/
theorem fuseLoop_keeps {g : GraphObj} {M T A h : Nat} (hMk : (g.op M).kind.isMatMul = true)
    (hTk : (g.op T).kind.isTranspose = true) (hh : (g.op h).kind.isMatMul = true)
    (ps : List Nat) :
    ∀ (i : Nat) (st : OptState), OptInv g T A st → (∀ p ∈ ps, p ≠ T ∧ (g.op p).ArityOK) →
      i + ps.length ≤ (g.op h).inputs.length →
      ∃ st', fuseLoop h ps i st = some st' ∧ OptInv g T A st' ∧ StepKeeps M T A h st st' := by
  induction ps with
  | nil =>
    intro i st hG _ _
    exact ⟨st, fuseLoop_nil h i st, hG, stepKeeps_refl _ _ _ _ _⟩
  | cons p ps ih =>
    intro i st hG hps hi
    rw [List.length_cons] at hi
    obtain ⟨hp, hpA⟩ := hps p (List.mem_cons_self _ _)
    obtain ⟨st1, h1, hG1, hK1⟩ := fuseStep_keeps (M := M) (i := i) hG hMk hTk hh hp hpA (by omega)
    obtain ⟨st2, h2, hG2, hK2⟩ := ih (i + 1) st1 hG1
      (fun q hq => hps q (List.mem_cons_of_mem _ hq)) (by omega)
    refine ⟨st2, ?_, hG2, stepKeeps_trans hK1 hK2⟩
    rw [fuseLoop_cons, h1]
    exact h2

/-- Rule 1 for a Transpose `h` other than the case "`h = T` with a Transpose of the same
permute as only predecessor" returns and keeps what concerns `M`, `T` and `A`. -/
theorem cancelStep_keeps {g : GraphObj} {M T A h : Nat} {st : OptState}
    (hG : OptInv g T A st) (hMk : (g.op M).kind.isMatMul = true)
    (hpr : (st.op h).predecessors = (g.op h).predecessors)
    (hlen1 : (st.op h).predecessors.length = 1)
    (hTnp : h ≠ T → T ∉ (g.op h).predecessors) (hnc : NotCancelled g T)
    (hpA : ∀ p ∈ (g.op h).predecessors, (g.op p).ArityOK) (hhA : (g.op h).ArityOK) :
    ∃ st', cancelStep h st = some st' ∧ OptInv g T A st' ∧ StepKeeps M T A h st st' := by
  unfold cancelStep
  obtain ⟨p, hp0⟩ : ∃ p, (st.op h).predecessors[0]? = some p :=
    getElem?_isSome_of_lt (by omega)
  have hpm : p ∈ (g.op h).predecessors := by
    rw [← hpr]; exact List.getElem?_mem hp0
  simp only [hp0]
  cases hkp : (st.op p).kind with
  | matmul a b => exact ⟨st, rfl, hG, stepKeeps_refl _ _ _ _ _⟩
  | other => exact ⟨st, rfl, hG, stepKeeps_refl _ _ _ _ _⟩
  | transpose pre =>
    cases hkh : (st.op h).kind with
    | matmul a b => exact ⟨st, rfl, hG, stepKeeps_refl _ _ _ _ _⟩
    | other => exact ⟨st, rfl, hG, stepKeeps_refl _ _ _ _ _⟩
    | transpose cur =>
      simp only []
      by_cases heq : cur = pre
      · rw [if_pos heq]
        subst heq
        have hkpg : (g.op p).kind = .transpose cur := (optInv_transpose_iff hG p cur).1 hkp
        have hkhg : (g.op h).kind = .transpose cur := (optInv_transpose_iff hG h cur).1 hkh
        have hhT : h ≠ T := by
          rintro rfl
          exact hnc p hpm (by rw [← hpr]; exact hlen1) (by rw [hkpg, hkhg])
        have hpT : p ≠ T := by
          rintro rfl
          exact hTnp hhT hpm
        have hpM : p ≠ M := by
          rintro rfl
          rw [hkpg] at hMk
          simp [OpKind.isMatMul] at hMk
        have hA1 := hpA p hpm
        unfold OperatorObj.ArityOK at hA1 hhA
        rw [hkpg] at hA1
        rw [hkhg] at hhA
        obtain ⟨x, hx⟩ : ∃ x, (st.op p).inputs[0]? = some x :=
          getElem?_isSome_of_lt (by rw [hG.len p]; omega)
        obtain ⟨y, hy⟩ : ∃ y, (st.op h).inputs[0]? = some y :=
          getElem?_isSome_of_lt (by rw [hG.len h]; omega)
        simp only [hx, hy]
        refine ⟨_, rfl, ⟨?_, ?_, ?_, ?_⟩, ⟨?_, ?_, ?_, ?_, ?_, ?_⟩⟩
        · intro Q
          by_cases hQ : Q = h
          · subst hQ
            simp only [Function.update_same]
            rw [← hG.len Q]
            simp [OperatorObj.replaceInput]
          · simp only [Function.update_noteq hQ]
            exact hG.len Q
        · intro Q hQm
          by_cases hQ : Q = h
          · subst hQ
            simp only [Function.update_same]
            exact hG.kind Q hQm
          · simp only [Function.update_noteq hQ]
            exact hG.kind Q hQm
        · intro Q hQm
          by_cases hQ : Q = h
          · subst hQ
            simp only [Function.update_same]
            exact hG.mm Q hQm
          · simp only [Function.update_noteq hQ]
            exact hG.mm Q hQm
        · simp only [Function.update_noteq (Ne.symm hhT)]
          exact hG.inT
        · intro Q hQ
          simp only [Function.update_noteq hQ]
        · intro hT
          simp only [List.mem_append, List.mem_cons, List.mem_singleton, List.not_mem_nil,
            or_false, not_or]
          exact ⟨hT, fun h => hpT h.symm, fun h => hhT h.symm⟩
        · intro v hv
          exact List.mem_append_left _ hv
        · intro v hv
          exact List.mem_append_left _ hv
        · intro hM
          by_cases hxA : A = x
          · subst hxA
            simp only [Function.update_same, TensorObj.removeTarget, List.mem_filter]
            exact ⟨hM, by simpa using Ne.symm hpM⟩
          · simp only [Function.update_noteq hxA]
            exact hM
        · intro hT
          by_cases hxA : A = x
          · subst hxA
            simp only [Function.update_same, TensorObj.removeTarget, List.mem_filter]
            exact fun h => hT h.1
          · simp only [Function.update_noteq hxA]
            exact hT
      · rw [if_neg heq]
        exact ⟨st, rfl, hG, stepKeeps_refl _ _ _ _ _⟩

/-- A turn of the loop of `optimize` for an operator `h` other than `M` returns and keeps
what concerns `M`, `T` and `A`. -/
theorem optimizeStep_keeps {g : GraphObj} {M T A h : Nat} {st : OptState}
    (hG : OptInv g T A st) (hMk : (g.op M).kind.isMatMul = true)
    (hTk : (g.op T).kind.isTranspose = true)
    (hpr : (st.op h).predecessors = (g.op h).predecessors)
    (hTnp : T ∉ (g.op h).predecessors) (hnc : NotCancelled g T)
    (hpA : ∀ p ∈ (g.op h).predecessors, (g.op p).ArityOK) (hhA : (g.op h).ArityOK)
    (hple : (g.op h).predecessors.length ≤ (g.op h).inputs.length) :
    ∃ st', optimizeStep st h = some st' ∧ OptInv g T A st' ∧ StepKeeps M T A h st st' := by
  unfold optimizeStep
  by_cases h1 : (st.op h).predecessors.length = 1 ∧ (st.op h).kind.isTranspose = true
  · rw [if_pos h1]
    exact cancelStep_keeps hG hMk hpr h1.1 (fun _ => hTnp) hnc hpA hhA
  · rw [if_neg h1]
    by_cases h2 : (st.op h).kind.isMatMul = true
    · rw [if_pos h2]
      have hh : (g.op h).kind.isMatMul = true := by
        cases hm : (g.op h).kind.isMatMul with
        | true => rfl
        | false =>
          rw [hG.kind h hm] at h2
          rw [h2] at hm
          simp at hm
      rw [hpr]
      exact fuseLoop_keeps hMk hTk hh _ 0 st hG
        (fun p hp => ⟨fun hpT => hTnp (hpT ▸ hp), hpA p hp⟩) (by omega)
    · rw [if_neg h2]
      exact ⟨st, rfl, hG, stepKeeps_refl _ _ _ _ _⟩

theorem fuseLoop_inert (h : Nat) (ps : List Nat) (st : OptState) :
    ∀ i, (∀ p ∈ ps, (st.op p).kind.isTranspose = false) → fuseLoop h ps i st = some st := by
  induction ps with
  | nil => intro i _; exact fuseLoop_nil h i st
  | cons p ps ih =>
    intro i hps
    rw [fuseLoop_cons]
    have hp := hps p (List.mem_cons_self _ _)
    have h1 : fuseStep h i p st = some st := by
      unfold fuseStep
      cases hk : (st.op p).kind with
      | transpose q => rw [hk] at hp; simp [OpKind.isTranspose] at hp
      | matmul a b => rfl
      | other => rfl
    rw [h1]
    exact ih (i + 1) (fun q hq => hps q (List.mem_cons_of_mem _ hq))

theorem fuseLoop_append (h : Nat) (ps qs : List Nat) :
    ∀ i st, fuseLoop h (ps ++ qs) i st =
      match fuseLoop h ps i st with
      | none => none
      | some st' => fuseLoop h qs (i + ps.length) st' := by
  induction ps with
  | nil => intro i st; rw [List.nil_append, fuseLoop_nil]; rfl
  | cons p ps ih =>
    intro i st
    rw [List.cons_append, fuseLoop_cons, fuseLoop_cons]
    cases hs : fuseStep h i p st with
    | none => rfl
    | some st1 =>
      simp only []
      rw [ih (i + 1) st1, List.length_cons]
      have : i + 1 + ps.length = i + (ps.length + 1) := by omega
      rw [this]

/-- The turn of the loop of `optimize` for the MatMul `M`: rule 2 rewires operand `i`. -/
theorem optimizeStep_fuses {g : GraphObj} {M T i z A : Nat} {a b : Bool} {perm : List Int}
    {st : OptState} (hF : FuseFacts g M T i z A a b perm) (hG : OptInv g T A st)
    (hstM : st.op M = g.op M) (hunm : T ∉ st.removeOps) :
    ∃ st', optimizeStep st M = some st' ∧ OptInv g T A st' ∧
      (∀ Q, Q ≠ M → st'.op Q = st.op Q) ∧ Fused M T i z A a b st' := by
  obtain ⟨pre, post, hpreds, hprelen, hnt⟩ := hF.preds
  have hkM : (st.op M).kind = .matmul a b := by rw [hstM]; exact hF.kM
  have hkT : (st.op T).kind = .transpose perm := (optInv_transpose_iff hG T perm).2 hF.kT
  have hMT : M ≠ T := by
    rintro rfl
    rw [hkM] at hkT
    cases hkT
  have hntst : ∀ p ∈ pre ++ post, (st.op p).kind.isTranspose = false := by
    intro p hp
    rw [optInv_isTranspose hG p]
    exact hnt p hp
  unfold optimizeStep
  have c1 : ¬ ((st.op M).predecessors.length = 1 ∧ (st.op M).kind.isTranspose = true) := by
    rw [hkM]
    simp [OpKind.isTranspose]
  have c2 : (st.op M).kind.isMatMul = true := by rw [hkM]; rfl
  rw [if_neg c1, if_pos c2]
  have hp' : (st.op M).predecessors = pre ++ T :: post := by rw [hstM]; exact hpreds
  rw [hp', fuseLoop_append,
    fuseLoop_inert M pre st 0 (fun p hp => hntst p (List.mem_append_left _ hp))]
  simp only [Nat.zero_add, hprelen]
  rw [fuseLoop_cons]
  have hinz : (st.op M).inputs[i]? = some z := by rw [hstM]; exact hF.inz
  have hcont : st.removeOps.contains T = false := by
    simpa using hunm
  have hstep : fuseStep M i T st = some
      { op := Function.update st.op M
          ((((st.op M).replaceInput z A).removePredecessors T).toggleTrans i),
        tensor := Function.update st.tensor A (((st.tensor A).removeTarget T).addTarget M),
        removeOps := st.removeOps ++ [T],
        removeTensors := st.removeTensors ++ [z] } := by
    unfold fuseStep
    simp only [hkT, hF.sw, hG.inT, hinz, hcont, Bool.not_false, if_true]
  rw [hstep]
  simp only []
  rw [fuseLoop_inert]
  · refine ⟨_, rfl, ⟨?_, ?_, ?_, ?_⟩, ?_, ⟨?_, ?_, ?_, ?_, ?_, ?_⟩⟩
    · intro Q
      by_cases hQ : Q = M
      · subst hQ
        simp only [Function.update_same, toggleTrans_inputs]
        rw [← hG.len Q]
        simp [OperatorObj.removePredecessors, OperatorObj.replaceInput]
      · simp only [Function.update_noteq hQ]
        exact hG.len Q
    · intro Q hQm
      have hQ : Q ≠ M := by
        rintro rfl
        rw [hF.kM] at hQm
        simp [OpKind.isMatMul] at hQm
      simp only [Function.update_noteq hQ]
      exact hG.kind Q hQm
    · intro Q hQm
      by_cases hQ : Q = M
      · subst hQ
        simp only [Function.update_same, toggleTrans_isMatMul]
        exact c2
      · simp only [Function.update_noteq hQ]
        exact hG.mm Q hQm
    · simp only [Function.update_noteq (Ne.symm hMT)]
      exact hG.inT
    · intro Q hQ
      simp only [Function.update_noteq hQ]
    · simp only [Function.update_same, toggleTrans_inputs]
      simp only [OperatorObj.removePredecessors, OperatorObj.replaceInput, List.getElem?_map,
        hinz, Option.map_some', if_true]
    · simp only [Function.update_same]
      exact toggleTrans_matmul (by simpa [OperatorObj.removePredecessors,
        OperatorObj.replaceInput] using hkM) i
    · simp
    · simp
    · simp [TensorObj.addTarget]
    · simp only [Function.update_same, TensorObj.addTarget, TensorObj.removeTarget,
        List.mem_append, List.mem_filter, List.mem_singleton, not_or]
      exact ⟨fun h => by simpa using h.2, fun h => hMT h.symm⟩
  · intro p hp
    by_cases hpM : p = M
    · subst hpM
      simp only [Function.update_same]
      have := toggleTrans_isMatMul
        (((st.op p).replaceInput z A).removePredecessors T) i
      have h2 : (((st.op p).replaceInput z A).removePredecessors T).kind.isMatMul = true := c2
      rw [h2] at this
      cases hk : ((((st.op p).replaceInput z A).removePredecessors T).toggleTrans i).kind <;>
        simp_all [OpKind.isMatMul, OpKind.isTranspose]
    · simp only [Function.update_noteq hpM]
      exact hntst p (List.mem_append_right _ hp)

theorem fused_of_keeps {M T i z A h : Nat} {a b : Bool} {st st' : OptState}
    (hF : Fused M T i z A a b st) (hK : StepKeeps M T A h st st') (hh : h ≠ M) :
    Fused M T i z A a b st' := by
  have hop : st'.op M = st.op M := hK.ops M (Ne.symm hh)
  exact ⟨by rw [hop]; exact hF.input, by rw [hop]; exact hF.flags, hK.marks T hF.marked,
    hK.tmarks z hF.tmarked, hK.target hF.target, hK.notarget hF.notarget⟩

theorem optimizeOps_nil (st : OptState) : optimizeOps [] st = some st := by
  unfold optimizeOps; rfl

theorem optimizeOps_cons (h : Nat) (rest : List Nat) (st : OptState) :
    optimizeOps (h :: rest) st =
      match optimizeStep st h with
      | none => none
      | some st' => optimizeOps rest st' := by
  rw [optimizeOps]

/-- After the turn for `M`, the remaining turns of the loop of `optimize` return and
keep the rewiring. -/
theorem optimizeOps_after {g : GraphObj} {M T i z A : Nat} {a b : Bool} {perm : List Int}
    (hF : FuseFacts g M T i z A a b perm) (rest : List Nat) :
    ∀ st, (∀ h ∈ rest, h ∈ g.ops ∧ h ≠ M) → rest.Nodup → OptInv g T A st →
      (∀ Q ∈ rest, (st.op Q).predecessors = (g.op Q).predecessors) →
      Fused M T i z A a b st →
      ∃ st', optimizeOps rest st = some st' ∧ Fused M T i z A a b st' := by
  have hMk : (g.op M).kind.isMatMul = true := by rw [hF.kM]; rfl
  have hTk : (g.op T).kind.isTranspose = true := by rw [hF.kT]; rfl
  induction rest with
  | nil => intro st _ _ _ _ hFu; exact ⟨st, optimizeOps_nil st, hFu⟩
  | cons h rest ih =>
    intro st hmem hnd hG hpr hFu
    obtain ⟨hho, hhM⟩ := hmem h (List.mem_cons_self _ _)
    obtain ⟨hA1, hA2, hA3⟩ := hF.arity h hho
    obtain ⟨st1, h1, hG1, hK1⟩ := optimizeStep_keeps (M := M) hG hMk hTk
      (hpr h (List.mem_cons_self _ _)) (hF.other h hho hhM) hF.nc hA2 hA1 hA3
    rw [List.nodup_cons] at hnd
    obtain ⟨st2, h2, hFu2⟩ := ih st1 (fun q hq => hmem q (List.mem_cons_of_mem _ hq)) hnd.2 hG1
      (fun Q hQ => by
        have hne : Q ≠ h := fun e => hnd.1 (e ▸ hQ)
        rw [hK1.ops Q hne]
        exact hpr Q (List.mem_cons_of_mem _ hQ))
      (fused_of_keeps hFu hK1 hhM)
    refine ⟨st2, ?_, hFu2⟩
    rw [optimizeOps_cons, h1]
    exact h2

/-- The loop of `optimize` over operators among which `M` still stands returns, with
operand `i` of `M` rewired. -/
theorem optimizeOps_fuses {g : GraphObj} {M T i z A : Nat} {a b : Bool} {perm : List Int}
    (hF : FuseFacts g M T i z A a b perm) (rest : List Nat) :
    ∀ st, (∀ h ∈ rest, h ∈ g.ops) → rest.Nodup → M ∈ rest → OptInv g T A st →
      (∀ Q ∈ rest, (st.op Q).predecessors = (g.op Q).predecessors) →
      st.op M = g.op M → T ∉ st.removeOps →
      ∃ st', optimizeOps rest st = some st' ∧ Fused M T i z A a b st' := by
  have hMk : (g.op M).kind.isMatMul = true := by rw [hF.kM]; rfl
  have hTk : (g.op T).kind.isTranspose = true := by rw [hF.kT]; rfl
  induction rest with
  | nil => intro st _ _ hM; simp at hM
  | cons h rest ih =>
    intro st hmem hnd hM hG hpr hstM hunm
    rw [List.nodup_cons] at hnd
    rw [optimizeOps_cons]
    by_cases hhM : h = M
    · subst hhM
      obtain ⟨st1, h1, hG1, hops1, hFu1⟩ := optimizeStep_fuses hF hG hstM hunm
      rw [h1]
      simp only []
      exact optimizeOps_after hF rest st1
        (fun q hq => ⟨hmem q (List.mem_cons_of_mem _ hq), fun e => hnd.1 (e ▸ hq)⟩) hnd.2 hG1
        (fun Q hQ => by
          have hne : Q ≠ h := fun e => hnd.1 (e ▸ hQ)
          rw [hops1 Q hne]
          exact hpr Q (List.mem_cons_of_mem _ hQ))
        hFu1
    · have hho := hmem h (List.mem_cons_self _ _)
      obtain ⟨hA1, hA2, hA3⟩ := hF.arity h hho
      obtain ⟨st1, h1, hG1, hK1⟩ := optimizeStep_keeps (M := M) hG hMk hTk
        (hpr h (List.mem_cons_self _ _)) (hF.other h hho hhM) hF.nc hA2 hA1 hA3
      rw [h1]
      simp only []
      have hM' : M ∈ rest := by
        rcases List.mem_cons.1 hM with e | e
        · exact absurd e.symm hhM
        · exact e
      exact ih st1 (fun q hq => hmem q (List.mem_cons_of_mem _ hq)) hnd.2 hM' hG1
        (fun Q hQ => by
          have hne : Q ≠ h := fun e => hnd.1 (e ▸ hQ)
          rw [hK1.ops Q hne]
          exact hpr Q (List.mem_cons_of_mem _ hQ))
        (by rw [hK1.ops M (Ne.symm hhM)]; exact hstM) (hK1.unmarked hunm)

theorem foldl_removeOperator (r : List Nat) :
    ∀ g : GraphObj, (r.foldl GraphObj.removeOperator g).op = g.op ∧
      (r.foldl GraphObj.removeOperator g).tensor = g.tensor ∧
      (r.foldl GraphObj.removeOperator g).tensors = g.tensors ∧
      (r.foldl GraphObj.removeOperator g).ops = r.foldl List.erase g.ops := by
  induction r with
  | nil => intro g; exact ⟨rfl, rfl, rfl, rfl⟩
  | cons x r ih =>
    intro g
    simp only [List.foldl_cons]
    obtain ⟨h1, h2, h3, h4⟩ := ih (g.removeOperator x)
    exact ⟨h1, h2, h3, h4⟩

theorem foldl_removeTensor (r : List Nat) :
    ∀ g : GraphObj, (r.foldl GraphObj.removeTensor g).op = g.op ∧
      (r.foldl GraphObj.removeTensor g).tensor = g.tensor ∧
      (r.foldl GraphObj.removeTensor g).ops = g.ops ∧
      (r.foldl GraphObj.removeTensor g).tensors = r.foldl List.erase g.tensors := by
  induction r with
  | nil => intro g; exact ⟨rfl, rfl, rfl, rfl⟩
  | cons x r ih =>
    intro g
    simp only [List.foldl_cons]
    obtain ⟨h1, h2, h3, h4⟩ := ih (g.removeTensor x)
    exact ⟨h1, h2, h3, h4⟩

theorem not_mem_foldl_erase (r : List Nat) :
    ∀ (l : List Nat) (x : Nat), l.Nodup → (x ∈ r ∨ x ∉ l) → x ∉ r.foldl List.erase l := by
  induction r with
  | nil =>
    intro l x _ h
    rcases h with h | h
    · simp at h
    · exact h
  | cons y r ih =>
    intro l x hnd h
    simp only [List.foldl_cons]
    apply ih (l.erase y) x (hnd.erase y)
    rcases h with h | h
    · rcases List.mem_cons.1 h with rfl | h'
      · exact Or.inr (fun hx => (List.Nodup.mem_erase_iff hnd).1 hx |>.1 rfl)
      · exact Or.inl h'
    · exact Or.inr (fun hx => h (List.mem_of_mem_erase hx))

/-! ## Claims on the optimizer -/

/-- C3 (fails on the code): `chainGraph`, two transposes `Y = Transpose(X)`,
`Z = Transpose(Y)` with the same permute, passes `checkValid`; `optimize` removes both
operators and `Y`, leaves `X` without source and without target and leaves `Z` with the
removed operator as source, and `checkValid` fails afterwards. -/
theorem optimize_breaks_checkValid :
    chainGraph.checkValid = true ∧
    chainGraph.optimize.map (fun g =>
        (g.ops, g.tensors, (g.tensor 0).source, (g.tensor 0).targets, (g.tensor 2).source,
          g.checkValid)) =
      some ([], [0, 2], none, [], some 1, false) :=
  ⟨by decide, by rfl⟩

/-- C4 (fails on the code): in `chain3Graph` the second transpose (1) has the first (0)
as only predecessor, with the same permute, and its output `Z` (2) is consumed by a
third transpose (2). After `optimize` both operators are gone, but the consumer still
has `Z` as input, not `X` (0), and `Z` is still a tensor of the graph. -/
theorem optimize_rule1_leaves_consumer :
    (chain3Graph.op 1).kind = .transpose [0, 2, 1] ∧
    (chain3Graph.op 1).predecessors = [0] ∧
    (chain3Graph.op 0).kind = .transpose [0, 2, 1] ∧
    (chain3Graph.op 0).inputs = [0] ∧ (chain3Graph.op 1).outputs = [2] ∧
    (chain3Graph.op 2).inputs = [2] ∧ chain3Graph.checkValid = true ∧
    chain3Graph.optimize.map (fun g => (g.ops, g.tensors, (g.op 2).inputs)) =
      some ([2], [0, 2, 3], [2]) := by
  decide

theorem mem_getElem?_of_mem {l : List Nat} {t : Nat} (h : t ∈ l) :
    ∃ j, j < l.length ∧ l[j]? = some t := by
  obtain ⟨j, hj, hjt⟩ := List.getElem_of_mem h
  exact ⟨j, hj, by rw [List.getElem?_eq_getElem hj, hjt]⟩

theorem fuseFacts_of {g : GraphObj} {M T i z A : Nat} {a b : Bool} {perm : List Int}
    (hS : FuseSite g M T i z A a b perm) (hL : LinkedInOrder g) (hnc : NotCancelled g T)
    (hal : OperandAligned g M i) (hM : M ∈ g.ops) : FuseFacts g M T i z A a b perm := by
  obtain ⟨hi, hkM, hkT, hsw, hinz, hsrc, hinA, hsingle, hother⟩ := hS
  obtain ⟨hndo, hndt, harity, hsources, hpreds⟩ := hL
  have hzmem : z ∈ (g.op M).inputs := List.getElem?_mem hinz
  have hTo : T ∈ g.ops := hsources M hM z hzmem T hsrc
  have hTA := harity T hTo
  unfold OperatorObj.ArityOK at hTA
  rw [hkT] at hTA
  have hMA := harity M hM
  unfold OperatorObj.ArityOK at hMA
  rw [hkM] at hMA
  simp only [] at hMA hTA
  obtain ⟨t0, t1, hin⟩ := List.length_eq_two.1 hMA
  have hmemp : ∀ h ∈ g.ops, ∀ p ∈ (g.op h).predecessors,
      ∃ t ∈ (g.op h).inputs, (g.tensor t).source = some p := by
    intro h hh p hp
    rw [hpreds h hh, List.mem_filterMap] at hp
    exact hp
  refine ⟨hkM, hkT, lastTwoSwapped_of_swap hsw hTA.2.2.2, hinz, hinA, ?_, ?_, ?_, hnc⟩
  · rw [hpreds M hM, hin]
    unfold OperandAligned at hal
    rw [hin] at hinz hother hal
    rcases hi with rfl | rfl
    · -- operand 0
      simp only [List.getElem?_cons_zero, Option.some.injEq] at hinz
      subst hinz
      refine ⟨[], List.filterMap (fun t => (g.tensor t).source) [t1], ?_, rfl, ?_⟩
      · simp [List.filterMap_cons, hsrc]
      · intro p hp
        simp only [List.nil_append, List.mem_filterMap, List.mem_singleton] at hp
        obtain ⟨t, rfl, hp⟩ := hp
        exact hother 1 (by simp) (by omega) t (by simp) p hp
    · -- operand 1
      simp only [List.getElem?_cons_succ, List.getElem?_cons_zero, Option.some.injEq] at hinz
      subst hinz
      obtain ⟨t, ht, hne⟩ := hal rfl
      simp only [List.getElem?_cons_zero, Option.mem_def, Option.some.injEq] at ht
      subst ht
      cases hs0 : (g.tensor t0).source with
      | none => exact absurd hs0 hne
      | some p0 =>
        refine ⟨[p0], [], ?_, rfl, ?_⟩
        · simp [List.filterMap_cons, hsrc, hs0]
        · intro p hp
          simp only [List.append_nil, List.mem_singleton] at hp
          subst hp
          exact hother 0 (by simp) (by omega) t0 (by simp) p hs0
  · intro h hh hhM hT
    obtain ⟨t, ht, hts⟩ := hmemp h hh T hT
    obtain ⟨j, hj, hjt⟩ := mem_getElem?_of_mem ht
    exact hhM (hsingle h hh j hj t hjt hts).1
  · intro h hh
    refine ⟨harity h hh, ?_, ?_⟩
    · intro p hp
      obtain ⟨t, ht, hts⟩ := hmemp h hh p hp
      exact harity p (hsources h hh t ht p hts)
    · rw [hpreds h hh]
      exact List.length_filterMap_le _ _

/-- C5 (amended): in a graph linked in order, let operand `i` (0 or 1) of a MatMul `M` of
the graph be the output `z` of a Transpose `T` whose permute swaps the last two axes and
is the identity elsewhere, `T` producing no other operand of any operator, the other
operand of `M` not being produced by a Transpose; let `T` not be removed by rule 1 (it
has not a Transpose of the same permute as only predecessor) and, when `i = 1`, let
operand 0 have a producer. Then `optimize` returns, and afterwards input `i` of `M` is
the input `A` of `T`, `trans_a` (if `i = 0`) or `trans_b` (if `i = 1`) is negated while
the other flag is unchanged, `A` has `M` among its targets and no longer `T`, and `T` and
`z` are removed from the graph. -/
theorem optimize_fuses_transpose (g : GraphObj) (M T i z A : Nat) (a b : Bool)
    (perm : List Int) (hS : FuseSite g M T i z A a b perm) (hM : M ∈ g.ops)
    (hL : LinkedInOrder g) (hnc : NotCancelled g T) (hal : OperandAligned g M i) :
    ∃ g', g.optimize = some g' ∧
      (g'.op M).inputs[i]? = some A ∧
      (g'.op M).kind = (if i = 0 then .matmul (!a) b else .matmul a (!b)) ∧
      M ∈ (g'.tensor A).targets ∧ T ∉ (g'.tensor A).targets ∧
      T ∉ g'.ops ∧ z ∉ g'.tensors := by
  have hF := fuseFacts_of hS hL hnc hal hM
  obtain ⟨hndo, hndt, _, _, _⟩ := hL
  have hG0 : OptInv g T A ⟨g.op, g.tensor, [], []⟩ :=
    ⟨fun _ => rfl, fun _ _ => rfl, fun _ h => h, hF.inA⟩
  obtain ⟨st, hst, hFu⟩ := optimizeOps_fuses hF g.ops _ (fun h hh => hh) hndo hM hG0
    (fun _ _ => rfl) rfl (by simp)
  unfold GraphObj.optimize
  rw [hst]
  refine ⟨_, rfl, ?_⟩
  obtain ⟨t1, t2, t3, t4⟩ := foldl_removeTensor st.removeTensors
    (st.removeOps.foldl GraphObj.removeOperator { g with op := st.op, tensor := st.tensor })
  obtain ⟨o1, o2, o3, o4⟩ := foldl_removeOperator st.removeOps
    { g with op := st.op, tensor := st.tensor }
  rw [t1, t2, t3, t4, o1, o2, o3, o4]
  exact ⟨hFu.input, hFu.flags, hFu.target, hFu.notarget,
    not_mem_foldl_erase _ _ _ hndo (Or.inl hFu.marked),
    not_mem_foldl_erase _ _ _ hndt (Or.inl hFu.tmarked)⟩

theorem optimize_fuses_transpose_witness :
    FuseSite fuseGraph 1 0 0 2 0 false false [0, 2, 1] ∧ 1 ∈ fuseGraph.ops ∧
    LinkedInOrder fuseGraph ∧ NotCancelled fuseGraph 0 ∧ OperandAligned fuseGraph 1 0 ∧
    ∃ g', fuseGraph.optimize = some g' ∧
      (g'.op 1).inputs[0]? = some 0 ∧
      (g'.op 1).kind = (if 0 = 0 then .matmul (!false) false else .matmul false (!false)) ∧
      1 ∈ (g'.tensor 0).targets ∧ 0 ∉ (g'.tensor 0).targets ∧
      0 ∉ g'.ops ∧ 2 ∉ g'.tensors :=
  ⟨by decide, by decide, by decide, by decide, by decide,
    optimize_fuses_transpose fuseGraph 1 0 0 2 0 false false [0, 2, 1]
      (by decide) (by decide) (by decide) (by decide) (by decide)⟩

/-- C5 as stated fails: in `pairGraph` operand 0 of the MatMul (2) is the output `Z` (2)
of the Transpose (1) with permute `[0,2,1]` and input `Y` (1), consumed by this operand
only, the other operand being a graph input. The Transpose is also the second of a pair
that rule 1 removes, and after `optimize` the MatMul reads `X` (0), not `Y`, `trans_a`
is not negated, and `Y` still has the Transpose and not the MatMul as target. -/
theorem optimize_pair_keeps_flag :
    FuseSite pairGraph 2 1 0 2 1 false false [0, 2, 1] ∧ 2 ∈ pairGraph.ops ∧
    LinkedInOrder pairGraph ∧ pairGraph.checkValid = true ∧
    pairGraph.optimize.map (fun g =>
        ((g.op 2).inputs, (g.op 2).kind, (g.tensor 1).targets, g.ops, g.tensors)) =
      some ([0, 3], .matmul false false, [1], [2], [0, 3, 4]) :=
  ⟨by decide, by decide, by decide, by decide, by rfl⟩

/-- Scenario "transpose cancellation" of the specification on the code: after `optimize`
only the MatMul is left, it reads `X` (0) on both operands with unchanged flags, and the
tensors `Y`, `Z` and also `X` are removed from the tensor list, so that `checkValid`
fails. -/
theorem optimize_cancelGraph_eval :
    cancelGraph.checkValid = true ∧
    cancelGraph.optimize.map (fun g =>
        (g.ops, g.tensors, (g.op 2).inputs, (g.op 2).kind, g.checkValid)) =
      some ([2], [3], [0, 0], .matmul false false, false) :=
  ⟨by decide, by rfl⟩

/-- Rule 2 reads `getInputs(i)` with the index `i` of the predecessor: for
`C = MatMul(A, Transpose(B))`, where the only predecessor has index 0 and produces
operand 1, `optimize` replaces operand 0 (`A`) by `B`, negates `trans_a`, and removes
`A` and the Transpose while the MatMul keeps the Transpose's output as operand 1. -/
theorem optimize_operandB_eval :
    FuseSite operandBGraph 1 0 1 2 1 false false [0, 2, 1] ∧
    LinkedInOrder operandBGraph ∧ NotCancelled operandBGraph 0 ∧
    ¬ OperandAligned operandBGraph 1 1 ∧ operandBGraph.checkValid = true ∧
    operandBGraph.optimize.map (fun g =>
        (g.ops, g.tensors, (g.op 1).inputs, (g.op 1).kind, g.checkValid)) =
      some ([1], [1, 2, 3], [1, 2], .matmul true false, false) :=
  ⟨by decide, by decide, by decide, by decide, by decide, by rfl⟩

/-! ## Second claim on MatMul shape inference -/

theorem inferShape_of_rank (transA transB : Bool) (A B : Shape)
    (hA : 2 ≤ A.length) (hB : 2 ≤ B.length) :
    MatmulObj.inferShape transA transB [A, B] =
      some [batchDims A ++ [dimM transA A, dimN transB B]] := by
  unfold MatmulObj.inferShape
  have e0 : ¬ ¬ ([A, B].length ≥ 2) := by simp
  rw [if_neg e0]
  have e1 : ¬ ¬ ((([A, B] : List Shape).getD 0 []).length ≥ 2 ∧
      (([A, B] : List Shape).getD 1 []).length ≥ 2) := by
    simp only [List.getD_cons_zero, List.getD_cons_succ, not_not]
    exact ⟨hA, hB⟩
  rw [if_neg e1]
  simp only [List.getD_cons_zero, List.getD_cons_succ, batchDims, dimM, dimN]
  cases transA <;> cases transB <;>
    simp only [Bool.false_eq_true, if_false, if_true, length_swapLastTwo hA,
      length_swapLastTwo hB, take_swapLastTwo hA, getD_swapLastTwo_fst hA,
      getD_swapLastTwo_snd hB, List.append_assoc, List.singleton_append]

theorem inferShape_of_low_rank (transA transB : Bool) (A B : Shape)
    (h : A.length < 2 ∨ B.length < 2) :
    MatmulObj.inferShape transA transB [A, B] = none := by
  unfold MatmulObj.inferShape
  have e0 : ¬ ¬ ([A, B].length ≥ 2) := by simp
  rw [if_neg e0]
  have e1 : ¬ ((([A, B] : List Shape).getD 0 []).length ≥ 2 ∧
      (([A, B] : List Shape).getD 1 []).length ≥ 2) := by
    simp only [List.getD_cons_zero, List.getD_cons_succ]
    omega
  rw [if_pos e1]

/-- C12 (amended): for every pair of input shapes `A`, `B`, `MatmulObj::inferShape`
fails (its rank assertion) exactly when `A` or `B` has rank below 2; the inner dimensions
are never compared, and for ranks at least 2 it returns the shape `prefix(A) ++ [m, n]`
also when `A[-1] != B[-2]` after applying `trans_a` and `trans_b`. -/
theorem matmul_inferShape_fails_iff_low_rank (transA transB : Bool) (A B : Shape) :
    (MatmulObj.inferShape transA transB [A, B] = none ↔ A.length < 2 ∨ B.length < 2) ∧
    (2 ≤ A.length → 2 ≤ B.length → dimKa transA A ≠ dimKb transB B →
      MatmulObj.inferShape transA transB [A, B] =
        some [batchDims A ++ [dimM transA A, dimN transB B]]) := by
  refine ⟨⟨fun h => ?_, inferShape_of_low_rank transA transB A B⟩,
    fun hA hB _ => inferShape_of_rank transA transB A B hA hB⟩
  by_contra hc
  have hA : 2 ≤ A.length := by omega
  have hB : 2 ≤ B.length := by omega
  rw [inferShape_of_rank transA transB A B hA hB] at h
  cases h

theorem matmul_inferShape_fails_iff_low_rank_witness :
    ([3] : Shape).length < 2 ∧ MatmulObj.inferShape false false [[3], [3, 5]] = none ∧
    (2 ≤ ([2, 3] : Shape).length ∧ 2 ≤ ([4, 5] : Shape).length ∧
      dimKa false [2, 3] ≠ dimKb false [4, 5] ∧
      MatmulObj.inferShape false false [[2, 3], [4, 5]] =
        some [batchDims [2, 3] ++ [dimM false [2, 3], dimN false [4, 5]]]) :=
  ⟨by decide,
    (matmul_inferShape_fails_iff_low_rank false false [3] [3, 5]).1.2 (Or.inl (by decide)),
    by decide, by decide, by decide,
    (matmul_inferShape_fails_iff_low_rank false false [2, 3] [4, 5]).2
      (by decide) (by decide) (by decide)⟩

/-- C12 as stated fails: for `A : [2,3]`, `B : [4,5]` (ranks 2, inner dimensions
`3 != 4`, no transposition) `inferShape` returns the shape `[2,5]`. -/
theorem matmul_inferShape_accepts_inner_mismatch :
    2 ≤ ([2, 3] : Shape).length ∧ 2 ≤ ([4, 5] : Shape).length ∧
    dimKa false [2, 3] = 3 ∧ dimKb false [4, 5] = 4 ∧
    MatmulObj.inferShape false false [[2, 3], [4, 5]] = some [[2, 5]] := by
  decide

/-! ## Alignment of the offsets -/

theorem mem_of_mem_mapInsert {k v : Nat} {m : FreeMap} {x : Nat × Nat}
    (h : x ∈ mapInsert k v m) : x = (k, v) ∨ x ∈ m := by
  induction m with
  | nil =>
    simp only [mapInsert, List.mem_singleton] at h
    exact Or.inl h
  | cons e t ih =>
    unfold mapInsert at h
    by_cases h1 : k < e.1
    · rw [if_pos h1] at h
      rcases List.mem_cons.1 h with h | h
      · exact Or.inl h
      · exact Or.inr h
    · rw [if_neg h1] at h
      by_cases h2 : k = e.1
      · rw [if_pos h2] at h
        rcases List.mem_cons.1 h with h | h
        · exact Or.inl h
        · exact Or.inr (List.mem_cons_of_mem _ h)
      · rw [if_neg h2] at h
        rcases List.mem_cons.1 h with h | h
        · exact Or.inr (h ▸ List.mem_cons_self _ _)
        · rcases ih h with h' | h'
          · exact Or.inl h'
          · exact Or.inr (List.mem_cons_of_mem _ h')

theorem alignedInv_fresh : AlignedInv Session.fresh := by
  refine ⟨rfl, rfl, rfl, ?_, ?_⟩ <;> simp [Session.fresh, Allocator.fresh]

/-- Whatever `alloc` returns in an aligned state is a multiple of 8, and the state stays
aligned. -/
theorem alignedInv_alloc {s : Session} (hI : AlignedInv s) {n al off : Nat} {a' : Allocator}
    (hal : s.a.getAlignedSize n = some al) (hA : s.a.alloc n = some (off, a')) :
    off % 8 = 0 ∧ AlignedInv { a := a', live := ⟨off, n, al⟩ :: s.live } := by
  have hal8 := (getAlignedSize_bounds hI.align hal).2
  have hpk := hI.peak
  have hlive : ∀ o, o % 8 = 0 → ∀ l ∈ (⟨o, n, al⟩ : Live) :: s.live,
      l.offset % 8 = 0 ∧ l.aligned % 8 = 0 := by
    intro o ho l hl
    rcases List.mem_cons.1 hl with rfl | hl'
    · exact ⟨ho, hal8⟩
    · exact hI.live l hl'
  rcases alloc_cases hI.ptr hal hA with ⟨h1, h2, _, _⟩ | ⟨it, hf, h1, h2⟩ |
    ⟨it, _, hl, _, h1, h2⟩
  · subst h1; subst h2
    refine ⟨hpk, hI.ptr, hI.align, ?_, hI.fb, hlive _ hpk⟩
    show (s.a.peak + al) % SIZE % 8 = 0
    simp only [SIZE]; omega
  · have hmem : it ∈ s.a.freeBlock := List.mem_of_find?_eq_some hf
    obtain ⟨hi1, hi2⟩ := hI.fb it hmem
    subst h1; subst h2
    refine ⟨hi1, hI.ptr, hI.align, hpk, ?_, hlive _ hi1⟩
    intro e he
    rcases mem_of_mem_mapInsert he with rfl | he'
    · constructor
      · show (it.1 + al) % SIZE % 8 = 0
        simp only [SIZE]; omega
      · show (it.2 + SIZE - al) % SIZE % 8 = 0
        simp only [SIZE]; omega
    · exact hI.fb e (mem_mapErase.1 he').1
  · have hmem : it ∈ s.a.freeBlock := List.mem_of_getLast?_eq_some hl
    obtain ⟨hi1, hi2⟩ := hI.fb it hmem
    subst h1; subst h2
    refine ⟨hi1, hI.ptr, hI.align, ?_, ?_, hlive _ hi1⟩
    · show (s.a.peak + (al + SIZE - it.2) % SIZE) % SIZE % 8 = 0
      simp only [SIZE]; omega
    · intro e he
      exact hI.fb e (mem_mapErase.1 he).1

/-- A `free` of a live allocation keeps the state aligned. -/
theorem alignedInv_free {s : Session} (hI : AlignedInv s) {l : Live} {al : Nat}
    {a' : Allocator} (hl : l ∈ s.live) (hal : s.a.getAlignedSize l.size = some al)
    (hF : s.a.free l.offset l.size = some a') :
    AlignedInv { a := a', live := s.live.erase l } := by
  have hal8 := (getAlignedSize_bounds hI.align hal).2
  have hoff := (hI.live l hl).1
  have hne : ¬ (s.a.ptr ≠ none) := by simp [hI.ptr]
  unfold Allocator.free at hF
  rw [if_neg hne] at hF
  simp only [hal, Option.some.injEq] at hF
  subst hF
  refine ⟨hI.ptr, hI.align, hI.peak, ?_, fun x hx => hI.live x (List.mem_of_mem_erase hx)⟩
  intro e he
  have hleft : ∀ x, s.a.freeBlock.find? (fun item => decide ((item.1 + item.2) % SIZE = l.offset))
      = some x → x.1 % 8 = 0 ∧ x.2 % 8 = 0 :=
    fun x hx => hI.fb x (List.mem_of_find?_eq_some hx)
  rcases mem_of_mem_mapInsert he with rfl | he'
  · cases hL : s.a.freeBlock.find? (fun item => decide ((item.1 + item.2) % SIZE = l.offset)) with
    | none =>
      simp only []
      cases hR : s.a.freeBlock.find? (fun item => decide (item.1 = (l.offset + al) % SIZE)) with
      | none =>
        refine ⟨hoff, ?_⟩
        simp only [SIZE]; omega
      | some r =>
        have := hI.fb r (List.mem_of_find?_eq_some hR)
        refine ⟨hoff, ?_⟩
        simp only [SIZE]; omega
    | some x =>
      have hx := hleft x hL
      simp only []
      cases hR : (mapErase x.1 s.a.freeBlock).find?
          (fun item => decide (item.1 = (l.offset + al) % SIZE)) with
      | none =>
        refine ⟨hx.1, ?_⟩
        simp only [SIZE]; omega
      | some r =>
        have := hI.fb r (mem_mapErase.1 (List.mem_of_find?_eq_some hR)).1
        refine ⟨hx.1, ?_⟩
        simp only [SIZE]; omega
  · -- an entry that was already there
    have hsub : e ∈ s.a.freeBlock := by
      cases hL : s.a.freeBlock.find?
          (fun item => decide ((item.1 + item.2) % SIZE = l.offset)) with
      | none =>
        rw [hL] at he'
        simp only [] at he'
        cases hR : s.a.freeBlock.find?
            (fun item => decide (item.1 = (l.offset + al) % SIZE)) with
        | none => rw [hR] at he'; exact he'
        | some r => rw [hR] at he'; exact (mem_mapErase.1 he').1
      | some x =>
        rw [hL] at he'
        simp only [] at he'
        cases hR : (mapErase x.1 s.a.freeBlock).find?
            (fun item => decide (item.1 = (l.offset + al) % SIZE)) with
        | none => rw [hR] at he'; exact (mem_mapErase.1 he').1
        | some r => rw [hR] at he'; exact (mem_mapErase.1 (mem_mapErase.1 he').1).1
    exact hI.fb e hsub

theorem alignedInv_step {s s' : Session} {c : Call} (hI : AlignedInv s)
    (h : s.step c = some s') : AlignedInv s' := by
  cases c with
  | alloc size =>
    have hal := getAlignedSize_eq hI.align size
    rw [step_alloc_eq] at h
    simp only [hal] at h
    cases hA : s.a.alloc size with
    | none => simp [hA] at h
    | some r =>
      obtain ⟨off, a'⟩ := r
      simp only [hA, Option.some.injEq] at h
      subst h
      exact (alignedInv_alloc hI hal hA).2
  | free addr size =>
    rw [step_free_eq] at h
    cases hF : s.live.find? (fun l => decide (l.offset = addr ∧ l.size = size)) with
    | none => rw [hF] at h; simp at h
    | some l =>
      have hl : l ∈ s.live := List.mem_of_find?_eq_some hF
      have hp : l.offset = addr ∧ l.size = size := by simpa using List.find?_some hF
      rw [hF] at h
      cases hA : s.a.free addr size with
      | none => simp [hA] at h
      | some a' =>
        simp only [hA, Option.some.injEq] at h
        subst h
        rw [← hp.1, ← hp.2] at hA
        exact alignedInv_free hI hl (getAlignedSize_eq hI.align l.size) hA

theorem alignedInv_run {cs : List Call} : ∀ {s s' : Session}, AlignedInv s →
    s.run cs = some s' → AlignedInv s' := by
  induction cs with
  | nil =>
    intro s s' hI h
    rw [run_nil, Option.some.injEq] at h
    subst h
    exact hI
  | cons c cs ih =>
    intro s s' hI h
    rw [run_cons] at h
    cases hS : s.step c with
    | none => simp [hS] at h
    | some s1 =>
      simp only [hS] at h
      exact ih (alignedInv_step hI hS) h

/-- C15: on a fresh allocator `getAlignedSize size` is the least multiple of 8 that is at
least `size`, for every `size ≤ 2^64 - 8`, and `getAlignedSize 0 = 0`; after any sequence of
`alloc` calls and frees of live allocations, every recorded offset is a multiple of 8, the
next `alloc` returns, and the offset it returns is a multiple of 8 (wrap-around included). -/
theorem aligned_offsets (size : Nat) (hsize : size ≤ SIZE - 8) (cs : List Call) (s : Session)
    (hrun : Session.fresh.run cs = some s) (n : Nat) :
    (∃ r, Allocator.fresh.getAlignedSize size = some r ∧ r % 8 = 0 ∧ size ≤ r ∧
      ∀ m, m % 8 = 0 → size ≤ m → r ≤ m) ∧
    Allocator.fresh.getAlignedSize 0 = some 0 ∧
    (∀ l ∈ s.live, l.offset % 8 = 0) ∧
    ∃ off a', s.a.alloc n = some (off, a') ∧ off % 8 = 0 := by
  have hI := alignedInv_run alignedInv_fresh hrun
  refine ⟨?_, rfl, fun l hl => (hI.live l hl).1, ?_⟩
  · refine ⟨_, getAlignedSize_eq rfl size, ?_⟩
    simp only [SIZE] at hsize ⊢
    refine ⟨by omega, by omega, ?_⟩
    intro m h1 h2
    omega
  · have hal := getAlignedSize_eq hI.align n
    have hsome := alloc_isSome hI.ptr hal
    cases hA : s.a.alloc n with
    | none => rw [hA] at hsome; simp at hsome
    | some r =>
      obtain ⟨off, a'⟩ := r
      exact ⟨off, a', rfl, (alignedInv_alloc hI hal hA).1⟩

theorem aligned_offsets_witness :
    (13 ≤ SIZE - 8 ∧ Session.fresh.run firstFitCalls = some firstFitFinal) ∧
    ((∃ r, Allocator.fresh.getAlignedSize 13 = some r ∧ r % 8 = 0 ∧ 13 ≤ r ∧
      ∀ m, m % 8 = 0 → 13 ≤ m → r ≤ m) ∧
    Allocator.fresh.getAlignedSize 0 = some 0 ∧
    (∀ l ∈ firstFitFinal.live, l.offset % 8 = 0) ∧
    ∃ off a', firstFitFinal.a.alloc 5 = some (off, a') ∧ off % 8 = 0) :=
  ⟨⟨by decide, by rfl⟩, aligned_offsets 13 (by decide) firstFitCalls firstFitFinal (by rfl) 5⟩

/-! ## Accounting of `used` and `peak` -/

theorem freeTotal_cons (e : Nat × Nat) (m : FreeMap) :
    freeTotal (e :: m) = e.2 + freeTotal m := by
  simp [freeTotal]

theorem mapErase_cons (k : Nat) (e : Nat × Nat) (m : FreeMap) :
    mapErase k (e :: m) = if e.1 = k then mapErase k m else e :: mapErase k m := by
  by_cases h : e.1 = k
  · simp [mapErase, List.filter_cons, h]
  · simp [mapErase, List.filter_cons, h]

/-- Erasing a key whose entries all have length zero keeps the total. -/
theorem freeTotal_mapErase_zero {k : Nat} {m : FreeMap} (h : ∀ e ∈ m, e.1 = k → e.2 = 0) :
    freeTotal (mapErase k m) = freeTotal m := by
  induction m with
  | nil => rfl
  | cons e t ih =>
    have iht := ih (fun x hx => h x (List.mem_cons_of_mem _ hx))
    rw [mapErase_cons]
    by_cases h1 : e.1 = k
    · rw [if_pos h1, freeTotal_cons, iht, h e (List.mem_cons_self _ _) h1, Nat.zero_add]
    · rw [if_neg h1, freeTotal_cons, freeTotal_cons, iht]

theorem freeTotal_mapErase_mem {m : FreeMap} (hwf : MapWF m) {x : Nat × Nat} (hx : x ∈ m) :
    freeTotal (mapErase x.1 m) + x.2 = freeTotal m := by
  induction m with
  | nil => simp at hx
  | cons e t ih =>
    have hwf0 := hwf
    rw [MapWF, List.pairwise_cons] at hwf
    rw [mapErase_cons]
    by_cases h1 : e.1 = x.1
    · have hex : e = x := mapWF_key_inj hwf0 (List.mem_cons_self _ _) hx h1
      rw [if_pos h1, freeTotal_cons, ← hex]
      have : freeTotal (mapErase e.1 t) = freeTotal t := by
        apply freeTotal_mapErase_zero
        intro y hy hk
        have := hwf.1 y hy
        omega
      omega
    · rw [if_neg h1, freeTotal_cons, freeTotal_cons]
      rcases List.mem_cons.1 hx with rfl | hx'
      · exact absurd rfl h1
      · have := ih hwf.2 hx'
        omega

theorem freeTotal_mapInsert {k v : Nat} {m : FreeMap} (hwf : MapWF m) :
    freeTotal (mapInsert k v m) = freeTotal (mapErase k m) + v := by
  induction m with
  | nil => simp [mapInsert, mapErase, freeTotal]
  | cons e t ih =>
    have hwf0 := hwf
    rw [MapWF, List.pairwise_cons] at hwf
    have htail : ∀ j, j ≤ e.1 → freeTotal (mapErase j t) = freeTotal t := by
      intro j hj
      apply freeTotal_mapErase_zero
      intro y hy hk
      have := hwf.1 y hy
      omega
    unfold mapInsert
    rw [mapErase_cons]
    by_cases h1 : k < e.1
    · rw [if_pos h1, if_neg (by omega), freeTotal_cons, freeTotal_cons, freeTotal_cons,
        htail k (by omega)]
      show v + _ = _
      omega
    · rw [if_neg h1]
      by_cases h2 : k = e.1
      · rw [if_pos h2, if_pos h2.symm, freeTotal_cons, htail k (by omega)]
        show v + _ = _
        omega
      · rw [if_neg h2, if_neg (fun h => h2 h.symm), freeTotal_cons, freeTotal_cons, ih hwf.2]
        omega

/-- Inserting at a key whose present entries have length zero adds the new length. -/
theorem freeTotal_mapInsert_zero {k v : Nat} {m : FreeMap} (hwf : MapWF m)
    (h : ∀ e ∈ m, e.1 = k → e.2 = 0) : freeTotal (mapInsert k v m) = freeTotal m + v := by
  rw [freeTotal_mapInsert hwf, freeTotal_mapErase_zero h]

theorem accounted_alloc {s : Session} {tot size al off : Nat} {a' : Allocator}
    (hI : Inv s tot) (hA : Accounted s) (hal : s.a.getAlignedSize size = some al)
    (htot : tot + al < SIZE) (h : s.a.alloc size = some (off, a')) :
    Accounted { a := a', live := ⟨off, size, al⟩ :: s.live } := by
  have hpk := hI.peak_le
  unfold Accounted at hA ⊢
  rcases alloc_cases hI.ptr hal h with ⟨h1, h2, _, _⟩ | ⟨it, hf, h1, h2⟩ |
    ⟨it, hall, hl, hend, h1, h2⟩
  · subst h1; subst h2
    show ((al :: s.live.map Live.aligned).sum) + freeTotal s.a.freeBlock = (s.a.peak + al) % SIZE
    rw [Nat.mod_eq_of_lt (by omega), List.sum_cons]
    omega
  · subst h1; subst h2
    have hmem : it ∈ s.a.freeBlock := List.mem_of_find?_eq_some hf
    have hfit : al ≤ it.2 := by simpa using List.find?_some hf
    have hle := hI.fb_le it hmem
    have hk : (it.1 + al) % SIZE = it.1 + al := Nat.mod_eq_of_lt (by omega)
    have hr : (it.2 + SIZE - al) % SIZE = it.2 - al := by
      simp only [SIZE] at *
      omega
    have hz : ∀ e ∈ mapErase it.1 s.a.freeBlock, e.1 = it.1 + al → e.2 = 0 := by
      intro e he hk'
      obtain ⟨he1, he2⟩ := mem_mapErase.1 he
      have h3 := hI.fb_disj it hmem e he1 (fun h => he2 h.symm)
      have h4 := hI.noadj it hmem e he1 (fun h => he2 h.symm)
      simp only [Sep] at h3
      omega
    show ((al :: s.live.map Live.aligned).sum) +
      freeTotal (mapInsert ((it.1 + al) % SIZE) ((it.2 + SIZE - al) % SIZE)
        (mapErase it.1 s.a.freeBlock)) = s.a.peak
    rw [hk, hr, freeTotal_mapInsert_zero (mapWF_mapErase hI.wf) hz, List.sum_cons]
    have := freeTotal_mapErase_mem hI.wf hmem
    omega
  · subst h1; subst h2
    obtain ⟨hmem, _⟩ := mapWF_getLast_max hI.wf hl
    have hle := hI.fb_le it hmem
    have hlt := hall it hmem
    rw [Nat.mod_eq_of_lt (by omega)] at hend
    have hr : (s.a.peak + (al + SIZE - it.2) % SIZE) % SIZE = s.a.peak + (al - it.2) := by
      simp only [SIZE] at *
      omega
    show ((al :: s.live.map Live.aligned).sum) + freeTotal (mapErase it.1 s.a.freeBlock) =
      (s.a.peak + (al + SIZE - it.2) % SIZE) % SIZE
    rw [hr, List.sum_cons]
    have := freeTotal_mapErase_mem hI.wf hmem
    omega

theorem freeTotal_free {a a' : Allocator} {addr size0 s b : Nat} (hp : a.ptr = none)
    (hs : a.getAlignedSize size0 = some s) (hwf : MapWF a.freeBlock)
    (hle : ∀ e ∈ a.freeBlock, e.1 + e.2 ≤ b) (haddr : addr + s ≤ b) (hb : b < SIZE)
    (hz : ∀ e ∈ a.freeBlock, e.1 = addr → e.2 = 0 ∨ s = 0)
    (h : a.free addr size0 = some a') :
    freeTotal a'.freeBlock = freeTotal a.freeBlock + s := by
  have hne : ¬ (a.ptr ≠ none) := by simp [hp]
  have has : (addr + s) % SIZE = addr + s := Nat.mod_eq_of_lt (by omega)
  unfold Allocator.free at h
  rw [if_neg hne] at h
  simp only [hs, has, Option.some.injEq] at h
  subst h
  cases hL : a.freeBlock.find? (fun item => decide ((item.1 + item.2) % SIZE = addr)) with
  | none =>
    simp only []
    cases hR : a.freeBlock.find? (fun item => decide (item.1 = addr + s)) with
    | none =>
      have hnoR : ∀ e ∈ a.freeBlock, e.1 ≠ addr + s := by
        intro e he
        simpa using List.find?_eq_none.1 hR e he
      simp only []
      rw [freeTotal_mapInsert_zero hwf, Nat.zero_add, Nat.mod_eq_of_lt (by omega)]
      intro e he hk
      rcases hz e he hk with h0 | h0
      · exact h0
      · exact absurd (by omega) (hnoR e he)
    | some r =>
      have hr : r ∈ a.freeBlock := List.mem_of_find?_eq_some hR
      have hrk : r.1 = addr + s := by simpa using List.find?_some hR
      have hrle := hle r hr
      simp only []
      rw [freeTotal_mapInsert_zero (mapWF_mapErase hwf)]
      · have := freeTotal_mapErase_mem hwf hr
        rw [Nat.zero_add, Nat.mod_eq_of_lt (by omega : s < SIZE),
          Nat.mod_eq_of_lt (by omega : s + r.2 < SIZE)]
        omega
      · intro e he hk
        obtain ⟨he1, he2⟩ := mem_mapErase.1 he
        rcases hz e he1 hk with h0 | h0
        · exact h0
        · exact absurd (by omega) he2
  | some x =>
    have hx : x ∈ a.freeBlock := List.mem_of_find?_eq_some hL
    have hxle := hle x hx
    have hxk : x.1 + x.2 = addr := by
      have : (x.1 + x.2) % SIZE = addr := by simpa using List.find?_some hL
      rwa [Nat.mod_eq_of_lt (by omega)] at this
    have hx1 := freeTotal_mapErase_mem hwf hx
    have hnox : ∀ m : FreeMap, (∀ e ∈ m, e.1 ≠ x.1) → ∀ e ∈ m, e.1 = x.1 → e.2 = 0 :=
      fun m hm e he hk => absurd hk (hm e he)
    simp only []
    cases hR : (mapErase x.1 a.freeBlock).find? (fun item => decide (item.1 = addr + s)) with
    | none =>
      simp only []
      rw [freeTotal_mapInsert_zero (mapWF_mapErase hwf)
        (hnox _ (fun e he => (mem_mapErase.1 he).2))]
      rw [Nat.zero_add, Nat.mod_eq_of_lt (by omega : x.2 < SIZE),
        Nat.mod_eq_of_lt (by omega : x.2 + s < SIZE)]
      omega
    | some r =>
      have hr1 : r ∈ mapErase x.1 a.freeBlock := List.mem_of_find?_eq_some hR
      have hr : r ∈ a.freeBlock := (mem_mapErase.1 hr1).1
      have hrk : r.1 = addr + s := by simpa using List.find?_some hR
      have hrle := hle r hr
      have hr2 := freeTotal_mapErase_mem (mapWF_mapErase hwf) hr1
      simp only []
      rw [freeTotal_mapInsert_zero (mapWF_mapErase (mapWF_mapErase hwf))
        (hnox _ (fun e he => (mem_mapErase.1 (mem_mapErase.1 he).1).2))]
      rw [Nat.zero_add, Nat.mod_eq_of_lt (by omega : x.2 < SIZE),
        Nat.mod_eq_of_lt (by omega : x.2 + s < SIZE),
        Nat.mod_eq_of_lt (by omega : x.2 + s + r.2 < SIZE)]
      omega

theorem accounted_free {s : Session} {tot : Nat} {l : Live} {a' : Allocator} (hI : Inv s tot)
    (hA : Accounted s) (htot : tot < SIZE) (hl : l ∈ s.live)
    (h : s.a.free l.offset l.size = some a') :
    Accounted { a := a', live := s.live.erase l } := by
  have hpk := hI.peak_le
  have hal := hI.live_al l hl
  have hlle := hI.live_le l hl
  have hz : ∀ e ∈ s.a.freeBlock, e.1 = l.offset → e.2 = 0 ∨ l.aligned = 0 := by
    intro e he hk
    have := hI.fb_live e he l hl
    simp only [Sep] at this
    omega
  have hft := freeTotal_free (b := s.a.peak) hI.ptr hal hI.wf hI.fb_le hlle (by omega) hz h
  have hpeak : a'.peak = s.a.peak := by
    obtain ⟨fb', lo, ll, rl, hfree, _⟩ :=
      free_cases (b := s.a.peak) hI.ptr hal hI.wf hI.fb_le hlle (by omega)
    rw [hfree, Option.some.injEq] at h
    rw [← h]
  have hsum := List.sum_map_erase Live.aligned hl
  unfold Accounted at hA ⊢
  show ((s.live.erase l).map Live.aligned).sum + freeTotal a'.freeBlock = a'.peak
  rw [hft, hpeak]
  omega

theorem accounted_step {s s' : Session} {tot : Nat} {c : Call} (hI : Inv s tot)
    (hA : Accounted s) (htot : tot + totalAligned [c] < SIZE) (h : s.step c = some s') :
    Accounted s' := by
  cases c with
  | alloc size =>
    have hal := getAlignedSize_eq hI.align size
    rw [totalAligned_single_alloc hI.align hal] at htot
    rw [step_alloc_eq] at h
    simp only [hal] at h
    cases hB : s.a.alloc size with
    | none => simp [hB] at h
    | some r =>
      obtain ⟨off, a'⟩ := r
      simp only [hB, Option.some.injEq] at h
      subst h
      exact accounted_alloc hI hA hal htot hB
  | free addr size =>
    have h0 : totalAligned [Call.free addr size] = 0 := rfl
    rw [h0, Nat.add_zero] at htot
    rw [step_free_eq] at h
    cases hF : s.live.find? (fun l => decide (l.offset = addr ∧ l.size = size)) with
    | none => rw [hF] at h; simp at h
    | some l =>
      have hl : l ∈ s.live := List.mem_of_find?_eq_some hF
      have hp : l.offset = addr ∧ l.size = size := by simpa using List.find?_some hF
      rw [hF] at h
      cases hB : s.a.free addr size with
      | none => simp [hB] at h
      | some a' =>
        simp only [hB, Option.some.injEq] at h
        subst h
        rw [← hp.1, ← hp.2] at hB
        exact accounted_free hI hA htot hl hB

theorem accounted_run {cs : List Call} : ∀ {s s' : Session} {tot : Nat}, Inv s tot →
    Accounted s → tot + totalAligned cs < SIZE → s.run cs = some s' → Accounted s' := by
  induction cs with
  | nil =>
    intro s s' tot _ hA _ h
    rw [run_nil, Option.some.injEq] at h
    subst h
    exact hA
  | cons c cs ih =>
    intro s s' tot hI hA htot h
    rw [totalAligned_cons] at htot
    rw [run_cons] at h
    cases hS : s.step c with
    | none => simp [hS] at h
    | some s1 =>
      simp only [hS] at h
      have hI1 := inv_step hI (by omega) hS
      exact ih hI1 (accounted_step hI hA (by omega) hS) (by omega) h

/-- C16 (amended): after every sequence of `alloc` calls and frees of live allocations on
a fresh allocator (before `getPtr`) whose aligned request sizes sum to less than `2^64`,
`used` is the sum of the aligned sizes of the live allocations, `used ≤ peak`, every live
allocation ends at or below `peak`, and `used` plus the total length of the free-list
entries is `peak`. -/
theorem allocator_accounting (cs : List Call) (s : Session)
    (hfit : totalAligned cs < SIZE) (hrun : Session.fresh.run cs = some s) :
    s.a.used = (s.live.map Live.aligned).sum ∧ s.a.used ≤ s.a.peak ∧
    (∀ l ∈ s.live, l.offset + l.aligned ≤ s.a.peak) ∧
    s.a.used + freeTotal s.a.freeBlock = s.a.peak := by
  have hI := inv_run inv_fresh (by rw [Nat.zero_add]; exact hfit) hrun
  have hA : Accounted s :=
    accounted_run inv_fresh (by simp [Accounted, Session.fresh, Allocator.fresh, freeTotal])
      (by rw [Nat.zero_add]; exact hfit) hrun
  have hpk := hI.peak_le
  rw [Nat.zero_add] at hpk
  unfold Accounted at hA
  have hu : s.a.used = (s.live.map Live.aligned).sum := by
    rw [hI.used]
    exact Nat.mod_eq_of_lt (by omega)
  refine ⟨hu, by omega, hI.live_le, by omega⟩

theorem allocator_accounting_witness :
    (totalAligned firstFitCalls < SIZE ∧
      Session.fresh.run firstFitCalls = some firstFitFinal) ∧
    (firstFitFinal.a.used = (firstFitFinal.live.map Live.aligned).sum ∧
      firstFitFinal.a.used ≤ firstFitFinal.a.peak ∧
      (∀ l ∈ firstFitFinal.live, l.offset + l.aligned ≤ firstFitFinal.a.peak) ∧
      firstFitFinal.a.used + freeTotal firstFitFinal.a.freeBlock = firstFitFinal.a.peak) :=
  ⟨⟨by decide, by decide⟩,
    allocator_accounting firstFitCalls firstFitFinal (by decide) (by decide)⟩

/-- C16 as stated fails: after `alloc(2^64 - 8)`, `alloc(16)`, `alloc(8)` the counters
have wrapped around: `used = 16` is not the sum `2^64 + 16` of the live aligned sizes, and
the first allocation ends at `2^64 - 8`, above `peak = 16`. -/
theorem accounting_fails_after_wrap :
    Session.fresh.run wrapCalls = some wrapFinal ∧
    wrapFinal.a.used ≠ (wrapFinal.live.map Live.aligned).sum ∧
    ∃ l ∈ wrapFinal.live, wrapFinal.a.peak < l.offset + l.aligned := by
  refine ⟨by decide, by decide, ⟨0, SIZE - 8, SIZE - 8⟩, by simp [wrapFinal], by decide⟩

/-! ## Memory planning of the graph -/

theorem getAlignedSize_align8 {a : Allocator} (h8 : a.alignment = 8) {n : Nat}
    (hn : align8 n < SIZE) : a.getAlignedSize n = some (align8 n) := by
  rw [getAlignedSize_eq h8]
  simp only [align8, SIZE, Option.some.injEq] at hn ⊢
  omega

theorem allocTensors_cons (bytes : Nat → Nat) (t : Nat) (ts : List Nat) (a : Allocator) :
    allocTensors bytes (t :: ts) a =
      match a.alloc (bytes t) with
      | none => none
      | some (off, a1) =>
        match allocTensors bytes ts a1 with
        | none => none
        | some (offs, a2) => some (off :: offs, a2) := by
  rw [allocTensors]

/-- With an empty free list every request of the first loop is placed at `peak`. -/
theorem allocTensors_bump (bytes : Nat → Nat) (ts : List Nat) :
    ∀ a : Allocator, a.ptr = none → a.alignment = 8 → a.freeBlock = [] →
      a.peak + (ts.map (fun t => align8 (bytes t))).sum < SIZE →
      ∃ a', allocTensors bytes ts a = some (prefixOffsets bytes a.peak ts, a') ∧
        a'.ptr = none ∧ a'.peak = a.peak + (ts.map (fun t => align8 (bytes t))).sum := by
  induction ts with
  | nil =>
    intro a hp _ _ _
    exact ⟨a, rfl, hp, rfl⟩
  | cons t ts ih =>
    intro a hp h8 hfb hfit
    rw [List.map_cons, List.sum_cons] at hfit
    have hal := getAlignedSize_align8 (a := a) (n := bytes t) h8 (by omega)
    have hA : a.alloc (bytes t) = some (a.peak,
        { a with peak := (a.peak + align8 (bytes t)) % SIZE,
                 used := (a.used + align8 (bytes t)) % SIZE }) := by
      have hne : ¬ (a.ptr ≠ none) := by simp [hp]
      unfold Allocator.alloc
      rw [if_neg hne, hal]
      simp only [hfb, List.length_nil, if_true]
    have hmod : (a.peak + align8 (bytes t)) % SIZE = a.peak + align8 (bytes t) :=
      Nat.mod_eq_of_lt (by omega)
    obtain ⟨a', h1, h2, h3⟩ := ih
      { a with peak := (a.peak + align8 (bytes t)) % SIZE,
               used := (a.used + align8 (bytes t)) % SIZE } hp h8 hfb
      (by show (a.peak + align8 (bytes t)) % SIZE + _ < SIZE; rw [hmod]; omega)
    refine ⟨a', ?_, h2, ?_⟩
    · rw [allocTensors_cons, hA]
      simp only []
      rw [h1]
      simp only [hmod]
      rfl
    · rw [h3, List.map_cons, List.sum_cons]
      show (a.peak + align8 (bytes t)) % SIZE + _ = _
      rw [hmod]
      omega

theorem prefixOffsets_getElem? (bytes : Nat → Nat) (ts : List Nat) :
    ∀ (p i : Nat) (t : Nat), ts[i]? = some t →
      (prefixOffsets bytes p ts)[i]? =
        some (p + ((ts.take i).map (fun t => align8 (bytes t))).sum) := by
  induction ts with
  | nil => intro p i t h; simp at h
  | cons x ts ih =>
    intro p i t h
    cases i with
    | zero => simp [prefixOffsets]
    | succ i =>
      rw [List.getElem?_cons_succ] at h
      rw [prefixOffsets, List.getElem?_cons_succ, ih _ i t h, List.take_succ_cons,
        List.map_cons, List.sum_cons]
      congr 1
      omega

theorem sum_take_le (l : List Nat) (i : Nat) : (l.take i).sum ≤ l.sum := by
  have := List.sum_take_add_sum_drop l i
  omega

theorem sum_take_succ_le (l : List Nat) : ∀ (i j : Nat) (x : Nat), i < j → l[i]? = some x →
    (l.take i).sum + x ≤ (l.take j).sum := by
  induction l with
  | nil => intro i j x _ h; simp at h
  | cons y l ih =>
    intro i j x hij h
    cases j with
    | zero => omega
    | succ j =>
      cases i with
      | zero =>
        simp only [List.getElem?_cons_zero, Option.some.injEq] at h
        subst h
        simp
      | succ i =>
        rw [List.getElem?_cons_succ] at h
        have := ih i j x (by omega) h
        simp only [List.take_succ_cons, List.sum_cons]
        omega

theorem topo_sort_tensors {g g1 : GraphObj} {fuel : Nat} {b : Bool}
    (h : g.topo_sort fuel = some (b, g1)) : g1.tensors = g.tensors := by
  unfold GraphObj.topo_sort at h
  split at h
  · simp only [Option.some.injEq, Prod.mk.injEq] at h
    rw [← h.2]
  · split at h
    · simp at h
    · simp only [Option.some.injEq, Prod.mk.injEq] at h
      rw [← h.2]
    · simp only [Option.some.injEq, Prod.mk.injEq] at h
      rw [← h.2]

theorem plannedOffset_le (bytes : Nat → Nat) (ts : List Nat) {i j : Nat} {t : Nat}
    (hij : i < j) (h : ts[i]? = some t) :
    plannedOffset bytes ts i + align8 (bytes t) ≤ plannedOffset bytes ts j := by
  unfold plannedOffset plannedTotal
  rw [List.map_take, List.map_take]
  apply sum_take_succ_le _ i j _ hij
  rw [List.getElem?_map, h]
  rfl

theorem plannedOffset_le_total (bytes : Nat → Nat) (ts : List Nat) {i : Nat} {t : Nat}
    (h : ts[i]? = some t) :
    plannedOffset bytes ts i + align8 (bytes t) ≤ plannedTotal bytes ts := by
  have h1 := plannedOffset_le bytes ts (j := i + 1) (by omega) h
  have h2 : plannedOffset bytes ts (i + 1) ≤ plannedTotal bytes ts := by
    unfold plannedOffset plannedTotal
    rw [List.map_take]
    exact sum_take_le _ _
  omega

/-- The second loop binds every tensor when their number fits an `int`. -/
theorem bindBlobs_of_lt (ptr : Nat) (tensors offsets : List Nat)
    (hlen : offsets.length = tensors.length) (hcount : tensors.length < 2147483648) :
    bindBlobs ptr tensors offsets =
      (tensors.zip offsets).map (fun p => (p.1, (ptr + p.2) % SIZE)) := by
  unfold bindBlobs
  rw [sizeToInt_of_lt (by omega), Int.toNat_ofNat, List.take_of_length_le]
  rw [List.length_zip]
  omega

theorem prefixOffsets_length (bytes : Nat → Nat) (ts : List Nat) :
    ∀ p, (prefixOffsets bytes p ts).length = ts.length := by
  induction ts with
  | nil => intro p; rfl
  | cons x ts ih => intro p; simp [prefixOffsets, ih]

/-- C11 (amended): for every graph on which `topo_sort` succeeds, a fresh allocator and
fewer than `2^31` tensors `t_0 .. t_{n-1}` (insertion order) with
`sum of align8 (bytes t_j) < 2^64`, `dataMalloc` returns, requests a buffer of exactly
that sum from the runtime, binds `t_i` to the base address plus
`sum over j < i of align8 (bytes t_j)` (in `uintptr_t`, exact when the buffer ends inside
the address space), and the bound ranges are pairwise disjoint and lie inside the
buffer. -/
theorem dataMalloc_offsets (g g1 : GraphObj) (bytes rtAlloc : Nat → Nat) (fuel : Nat)
    (htopo : g.topo_sort fuel = some (true, g1))
    (hfit : plannedTotal bytes g.tensors < SIZE)
    (hcount : g.tensors.length < 2147483648) :
    ∃ d, g.dataMalloc Allocator.fresh bytes rtAlloc fuel = some (g1, d) ∧
      d.allocator.peak = plannedTotal bytes g.tensors ∧
      d.base = rtAlloc (plannedTotal bytes g.tensors) ∧
      d.blobs.length = g.tensors.length ∧
      (∀ i t, g.tensors[i]? = some t →
        d.blobs[i]? = some (t, (d.base + plannedOffset bytes g.tensors i) % SIZE) ∧
        (d.base + plannedTotal bytes g.tensors < SIZE →
          (d.base + plannedOffset bytes g.tensors i) % SIZE =
            d.base + plannedOffset bytes g.tensors i) ∧
        plannedOffset bytes g.tensors i + align8 (bytes t) ≤ plannedTotal bytes g.tensors) ∧
      (∀ i j ti tj, i ≠ j → g.tensors[i]? = some ti → g.tensors[j]? = some tj →
        RangesDisjoint (plannedOffset bytes g.tensors i) (align8 (bytes ti))
          (plannedOffset bytes g.tensors j) (align8 (bytes tj))) := by
  have hts := topo_sort_tensors htopo
  obtain ⟨a', h1, h2, h3⟩ := allocTensors_bump bytes g.tensors Allocator.fresh rfl rfl rfl
    (by show 0 + _ < SIZE; rw [Nat.zero_add]; exact hfit)
  have h3' : a'.peak = plannedTotal bytes g.tensors := by
    rw [h3]; show 0 + _ = _; rw [Nat.zero_add]; rfl
  have hlen : ∀ (p : Nat) (ts : List Nat), (prefixOffsets bytes p ts).length = ts.length :=
    fun p ts => prefixOffsets_length bytes ts p
  have hbase : (a'.getPtr rtAlloc).1 = rtAlloc (plannedTotal bytes g.tensors) := by
    unfold Allocator.getPtr
    rw [h2, h3']
  have hpeak : (a'.getPtr rtAlloc).2.peak = plannedTotal bytes g.tensors := by
    unfold Allocator.getPtr
    rw [h2]
    exact h3'
  refine ⟨{ allocator := (a'.getPtr rtAlloc).2, base := (a'.getPtr rtAlloc).1,
            blobs := (g.tensors.zip (prefixOffsets bytes 0 g.tensors)).map
              (fun p => (p.1, ((a'.getPtr rtAlloc).1 + p.2) % SIZE)) }, ?_, hpeak, hbase, ?_,
    ?_, ?_⟩
  · unfold GraphObj.dataMalloc
    rw [htopo]
    simp only [hts]
    rw [h1]
    simp only []
    rw [bindBlobs_of_lt _ _ _ (hlen Allocator.fresh.peak g.tensors) hcount]
    rfl
  · simp [hlen]
  · intro i t hi
    refine ⟨?_, ?_, plannedOffset_le_total bytes g.tensors hi⟩
    · have hoff := prefixOffsets_getElem? bytes g.tensors 0 i t hi
      rw [Nat.zero_add] at hoff
      show ((g.tensors.zip (prefixOffsets bytes 0 g.tensors)).map _)[i]? = _
      have hz : (g.tensors.zip (prefixOffsets bytes 0 g.tensors))[i]? =
          some (t, plannedOffset bytes g.tensors i) :=
        List.getElem?_zip_eq_some.2 ⟨hi, hoff⟩
      rw [List.getElem?_map, hz]
      rfl
    · intro hb
      have := plannedOffset_le_total bytes g.tensors hi
      exact Nat.mod_eq_of_lt (by omega)
  · intro i j ti tj hij hi hj
    rw [rangesDisjoint_iff_sep]
    rcases Nat.lt_or_gt_of_ne hij with h | h
    · exact Or.inr (Or.inr (Or.inl (plannedOffset_le bytes g.tensors h hi)))
    · exact Or.inr (Or.inr (Or.inr (plannedOffset_le bytes g.tensors h hj)))

theorem dataMalloc_offsets_witness :
    (reversedGraph.topo_sort 4 =
        some (true, { reversedGraph with ops := [0, 1, 2], sorted := true }) ∧
      plannedTotal (f32Bytes reversedGraph) reversedGraph.tensors < SIZE ∧
      reversedGraph.tensors.length < 2147483648) ∧
    ∃ d, reversedGraph.dataMalloc Allocator.fresh (f32Bytes reversedGraph) (fun _ => 4096) 4 =
        some ({ reversedGraph with ops := [0, 1, 2], sorted := true }, d) ∧
      d.allocator.peak = plannedTotal (f32Bytes reversedGraph) reversedGraph.tensors ∧
      d.base = (fun _ => 4096) (plannedTotal (f32Bytes reversedGraph) reversedGraph.tensors) ∧
      d.blobs.length = reversedGraph.tensors.length ∧
      (∀ i t, reversedGraph.tensors[i]? = some t →
        d.blobs[i]? = some (t, (d.base +
          plannedOffset (f32Bytes reversedGraph) reversedGraph.tensors i) % SIZE) ∧
        (d.base + plannedTotal (f32Bytes reversedGraph) reversedGraph.tensors < SIZE →
          (d.base + plannedOffset (f32Bytes reversedGraph) reversedGraph.tensors i) % SIZE =
            d.base + plannedOffset (f32Bytes reversedGraph) reversedGraph.tensors i) ∧
        plannedOffset (f32Bytes reversedGraph) reversedGraph.tensors i +
            align8 (f32Bytes reversedGraph t) ≤
          plannedTotal (f32Bytes reversedGraph) reversedGraph.tensors) ∧
      (∀ i j ti tj, i ≠ j → reversedGraph.tensors[i]? = some ti →
        reversedGraph.tensors[j]? = some tj →
        RangesDisjoint (plannedOffset (f32Bytes reversedGraph) reversedGraph.tensors i)
          (align8 (f32Bytes reversedGraph ti))
          (plannedOffset (f32Bytes reversedGraph) reversedGraph.tensors j)
          (align8 (f32Bytes reversedGraph tj))) :=
  ⟨⟨by rfl, by decide, by decide⟩,
    dataMalloc_offsets reversedGraph { reversedGraph with ops := [0, 1, 2], sorted := true }
      (f32Bytes reversedGraph) (fun _ => 4096) 4 (by rfl) (by decide) (by decide)⟩

/-- C11 as stated fails: for two `Float32` tensors of shape `[2147483647, 2147483647]`
(`2^64 - 2^34 + 4` bytes each) the counter `peak` wraps around: `dataMalloc` requests
`2^64 - 2^35 + 16` bytes, not the sum `2^65 - 2^35 + 16`, and binds the second tensor to
`base + 2^64 - 2^34 + 8`, beyond the end of the requested buffer. -/
theorem dataMalloc_wraps_for_huge_tensors :
    hugeGraph.topo_sort 2 = some (true, { hugeGraph with ops := [0], sorted := true }) ∧
    hugeGraph.dataMalloc Allocator.fresh (f32Bytes hugeGraph) (fun _ => 4096) 2 =
      some ({ hugeGraph with ops := [0], sorted := true },
        { allocator := { used := 18446744039349813264, peak := 18446744039349813264,
                         ptr := some 4096, alignment := 8, freeBlock := [] },
          base := 4096,
          blobs := [(0, 4096), (1, 18446744056529686536)] }) ∧
    plannedTotal (f32Bytes hugeGraph) hugeGraph.tensors = 36893488113059364880 ∧
    plannedOffset (f32Bytes hugeGraph) hugeGraph.tensors 1 = 18446744056529682440 ∧
    18446744039349813264 < plannedOffset (f32Bytes hugeGraph) hugeGraph.tensors 1 := by
  refine ⟨by rfl, by rfl, by rfl, by rfl, by decide⟩

/-! ## Claim on the validity check -/

/-- C14 (amended): `checkValid` returns `true` exactly when every tensor of the graph has
a source or a target, its targets and its source (when present) are operators of the
graph, the inputs, outputs, predecessors and successors of every operator of the graph
are tensors resp. operators of the graph, and no two entries of the tensor list share a
`fuid`. -/
theorem checkValid_iff_memberships (g : GraphObj) :
    g.checkValid = true ↔
      (∀ t ∈ g.tensors,
        ((g.tensor t).targets ≠ [] ∨ (g.tensor t).source ≠ none) ∧
        (∀ op ∈ (g.tensor t).targets, op ∈ g.ops) ∧
        (∀ op, (g.tensor t).source = some op → op ∈ g.ops)) ∧
      (∀ op ∈ g.ops,
        (∀ t ∈ (g.op op).inputs, t ∈ g.tensors) ∧
        (∀ t ∈ (g.op op).outputs, t ∈ g.tensors) ∧
        (∀ pre ∈ (g.op op).predecessors, pre ∈ g.ops) ∧
        (∀ suc ∈ (g.op op).successors, suc ∈ g.ops)) ∧
      (g.tensors.map (fun t => (g.tensor t).fuid)).Nodup := by
  have hcon : ∀ (l : List Nat) (x : Nat), l.contains x = true ↔ x ∈ l := fun l x => by simp
  unfold GraphObj.checkValid
  simp only [Bool.and_eq_true, List.all_eq_true, decide_eq_true_eq, hcon,
    Bool.not_eq_true', Bool.and_eq_false_iff, beq_eq_false_iff_ne, ne_eq,
    List.length_eq_zero, Option.isNone_eq_false_iff, Option.isSome_iff_ne_none]
  constructor
  · rintro ⟨⟨h1, h2⟩, h3⟩
    refine ⟨?_, ?_, h3⟩
    · intro t ht
      obtain ⟨⟨ha, hb⟩, hc⟩ := h1 t ht
      refine ⟨ha, hb, ?_⟩
      intro op hop
      rw [hop] at hc
      simpa using hc
    · intro op hop
      obtain ⟨⟨⟨ha, hb⟩, hc⟩, hd⟩ := h2 op hop
      exact ⟨ha, hb, hc, hd⟩
  · rintro ⟨h1, h2, h3⟩
    refine ⟨⟨?_, ?_⟩, h3⟩
    · intro t ht
      obtain ⟨ha, hb, hc⟩ := h1 t ht
      refine ⟨⟨ha, hb⟩, ?_⟩
      cases hs : (g.tensor t).source with
      | none => rfl
      | some op => simpa using hc op hs
    · intro op hop
      obtain ⟨ha, hb, hc, hd⟩ := h2 op hop
      exact ⟨⟨⟨ha, hb⟩, hc⟩, hd⟩

/-- C14 as stated fails: `checkValid` returns `true` on `crossRefGraph`, in which tensor 0
has source operator 0 but is not among its outputs, and operator 0 reads tensor 0 but is
not among its targets. -/
theorem checkValid_misses_cross_references :
    crossRefGraph.checkValid = true ∧
    (crossRefGraph.tensor 0).source = some 0 ∧ 0 ∈ crossRefGraph.tensors ∧
    0 ∉ (crossRefGraph.op 0).outputs ∧
    0 ∈ crossRefGraph.ops ∧ 0 ∈ (crossRefGraph.op 0).inputs ∧
    0 ∉ (crossRefGraph.tensor 0).targets := by
  refine ⟨by rfl, by rfl, by decide, by decide, by decide, by decide, by decide⟩

/-! ## Soundness of rule 1 -/

/-- C19 (fails on the code): in `rotateGraph` the second transpose (1) has the first (0)
as only predecessor and both have permute `[1,2,0]`. The two permutations do not compose
to the identity (`[2,3,4]` becomes `[3,4,2]` and then `[4,2,3]`), yet `optimize` removes
both operators and the tensor between them. -/
theorem optimize_rule1_removes_rotations :
    (rotateGraph.op 0).kind = .transpose [1, 2, 0] ∧
    (rotateGraph.op 1).kind = .transpose [1, 2, 0] ∧
    (rotateGraph.op 1).predecessors = [0] ∧ rotateGraph.checkValid = true ∧
    permuteShape [1, 2, 0] [2, 3, 4] = (rotateGraph.tensor 1).dims ∧
    permuteShape [1, 2, 0] (permuteShape [1, 2, 0] [2, 3, 4]) = [4, 2, 3] ∧
    permuteShape [1, 2, 0] (permuteShape [1, 2, 0] [2, 3, 4]) ≠ [2, 3, 4] ∧
    rotateGraph.optimize.map (fun g => (g.ops, g.tensors)) = some ([], [0, 2]) := by
  refine ⟨by decide, by decide, by decide, by decide, by decide, by decide, by decide, by rfl⟩

/-! ## Rule 2 under sharing -/

/-- C20 (fails on the code): for `C = MatMul(At, At)` with `At = Transpose(A, [0,2,1])`,
`optimize` rewires both operands to `A` (0) but negates only `trans_a`, and removes `A`
from the tensor list together with `At`; for two MatMuls `C = MatMul(At, B)`,
`D = MatMul(At, B)` it rewires operand 0 of both to `A` and negates `trans_a` of the first
one only. -/
theorem optimize_shared_transpose_undercounts :
    sharedGraph.checkValid = true ∧
    (sharedGraph.op 1).inputs = [1, 1] ∧ (sharedGraph.op 1).kind = .matmul false false ∧
    sharedGraph.optimize.map (fun g =>
        (g.ops, g.tensors, (g.op 1).inputs, (g.op 1).kind, g.checkValid)) =
      some ([1], [2], [0, 0], .matmul true false, false) ∧
    twoConsumerGraph.checkValid = true ∧
    twoConsumerGraph.optimize.map (fun g =>
        (g.ops, g.tensors, (g.op 1).inputs, (g.op 1).kind, (g.op 2).inputs, (g.op 2).kind)) =
      some ([1, 2], [0, 2, 3, 4], [0, 2], .matmul true false, [0, 2], .matmul false false) := by
  refine ⟨by decide, by decide, by decide, by rfl, by decide, by rfl⟩

/-! ## Tie-breaking of the topological sort -/

/-- One sweep appends a block: the block is in the order of the list swept, and it holds
every operator of that list that was ready when the sweep began. -/
theorem topoSweep_block (g : GraphObj) (rest : List Nat) :
    ∀ s f m, (∀ x, x ∈ f ↔ x ∈ s) →
      ∃ e, (topoSweep g rest (s, f, m)).1 = s ++ e ∧ e.Sublist rest ∧
        (∀ x, x ∈ (topoSweep g rest (s, f, m)).2.1 ↔ x ∈ s ++ e) ∧
        (∀ x ∈ rest, x ∉ s →
          (∀ t ∈ (g.op x).inputs, ∀ p, (g.tensor t).source = some p → p ∈ s) → x ∈ e) := by
  induction rest with
  | nil =>
    intro s f m hf
    rw [topoSweep_nil]
    exact ⟨[], by simp, List.Sublist.refl _, by simpa using hf, fun x hx => by simp at hx⟩
  | cons op rest ih =>
    intro s f m hf
    rw [topoSweep_cons]
    by_cases hop : topoReady g f op = true
    · rw [if_pos hop]
      have hf' : ∀ x, x ∈ op :: f ↔ x ∈ s ++ [op] := by
        intro x
        simp only [List.mem_cons, List.mem_append, List.mem_singleton, hf x]
        tauto
      obtain ⟨e, h1, h2, h3, h4⟩ := ih (s ++ [op]) (op :: f) true hf'
      refine ⟨op :: e, ?_, h2.cons₂ op, ?_, ?_⟩
      · rw [h1, List.append_assoc]; rfl
      · intro x
        rw [h3 x, List.append_assoc]; rfl
      · intro x hx hxs hprod
        rcases List.mem_cons.1 hx with rfl | hx'
        · exact List.mem_cons_self _ _
        · by_cases hxo : x = op
          · rw [hxo]; exact List.mem_cons_self _ _
          · apply List.mem_cons_of_mem
            apply h4 x hx'
            · simp only [List.mem_append, List.mem_singleton]
              tauto
            · intro t ht p hp
              exact List.mem_append_left _ (hprod t ht p hp)
    · rw [if_neg hop]
      obtain ⟨e, h1, h2, h3, h4⟩ := ih s f m hf
      refine ⟨e, h1, h2.cons op, h3, ?_⟩
      intro x hx hxs hprod
      rcases List.mem_cons.1 hx with rfl | hx'
      · exfalso
        apply hop
        rw [topoReady_iff]
        refine ⟨fun h => hxs ((hf x).1 h), ?_⟩
        intro t ht p hp
        exact (hf p).2 (hprod t ht p hp)
      · exact h4 x hx' hxs hprod

/-- The vector `sorted` grows by one block per sweep. -/
theorem topoLoop_blocks (g : GraphObj) :
    ∀ fuel s f s', (∀ x, x ∈ f ↔ x ∈ s) → topoLoop g fuel s f = some (true, s') →
      ∃ blocks : List (List Nat), s' = s ++ blocks.flatten ∧
        ∀ pre b post, blocks = pre ++ b :: post →
          b.Sublist g.ops ∧
          ∀ x ∈ g.ops, x ∉ s ++ pre.flatten →
            (∀ t ∈ (g.op x).inputs, ∀ p, (g.tensor t).source = some p → p ∈ s ++ pre.flatten) →
            x ∈ b := by
  intro fuel
  induction fuel with
  | zero =>
    intro s f s' _ h
    simp [topoLoop] at h
  | succ fuel ih =>
    intro s f s' hf h
    rw [topoLoop_succ] at h
    by_cases hlen : s.length < g.ops.length
    · rw [if_pos hlen] at h
      obtain ⟨e, h1, h2, h3, h4⟩ := topoSweep_block g g.ops s f false hf
      by_cases hm : (topoSweep g g.ops (s, f, false)).2.2 = true
      · rw [hm] at h
        simp only [Bool.not_true, Bool.false_eq_true, if_false] at h
        rw [h1] at h
        obtain ⟨blocks, hb1, hb2⟩ := ih (s ++ e) _ s' h3 h
        refine ⟨e :: blocks, ?_, ?_⟩
        · rw [hb1, List.flatten_cons, List.append_assoc]
        · intro pre b post hsplit
          cases pre with
          | nil =>
            simp only [List.nil_append, List.cons.injEq] at hsplit
            obtain ⟨rfl, _⟩ := hsplit
            refine ⟨h2, ?_⟩
            intro x hx hxs hprod
            simp only [List.flatten_nil, List.append_nil] at hxs hprod
            exact h4 x hx hxs hprod
          | cons c pre =>
            simp only [List.cons_append, List.cons.injEq] at hsplit
            obtain ⟨rfl, hrest⟩ := hsplit
            obtain ⟨hsub, hready⟩ := hb2 pre b post hrest
            refine ⟨hsub, ?_⟩
            intro x hx hxs hprod
            rw [List.flatten_cons, ← List.append_assoc] at hxs hprod
            exact hready x hx hxs hprod
      · have hm' : (topoSweep g g.ops (s, f, false)).2.2 = false := by
          cases hv : (topoSweep g g.ops (s, f, false)).2.2
          · rfl
          · exact absurd hv hm
        rw [hm'] at h
        simp at h
    · rw [if_neg hlen] at h
      simp only [Option.some.injEq, Prod.mk.injEq, true_and] at h
      subst h
      refine ⟨[], by simp, ?_⟩
      intro pre b post hsplit
      simp at hsplit

/-- C17 (amended): for every graph on which `topo_sort` succeeds, the resulting operator
list is a concatenation of blocks (one per sweep over the original list); every block
lists its operators in the original insertion order, and an operator not emitted in the
earlier blocks whose input producers were all emitted in the earlier blocks belongs to
the block. -/
theorem topo_sort_ties_by_sweep (g g' : GraphObj) (fuel : Nat)
    (h : g.topo_sort fuel = some (true, g')) :
    ∃ blocks : List (List Nat), g'.ops = blocks.flatten ∧
      ∀ pre b post, blocks = pre ++ b :: post →
        b.Sublist g.ops ∧
        ∀ x ∈ g.ops, x ∉ pre.flatten →
          (∀ t ∈ (g.op x).inputs, ∀ p, (g.tensor t).source = some p → p ∈ pre.flatten) →
          x ∈ b := by
  unfold GraphObj.topo_sort at h
  by_cases hs : g.sorted = true
  · rw [if_pos hs] at h
    simp only [Option.some.injEq, Prod.mk.injEq, true_and] at h
    subst h
    refine ⟨[g.ops], by simp, ?_⟩
    intro pre b post hsplit
    cases pre with
    | nil =>
      simp only [List.nil_append, List.cons.injEq] at hsplit
      obtain ⟨rfl, _⟩ := hsplit
      exact ⟨List.Sublist.refl _, fun x hx _ _ => hx⟩
    | cons c pre =>
      simp only [List.cons_append, List.cons.injEq] at hsplit
      have := hsplit.2
      simp at this
  · rw [if_neg hs] at h
    cases hL : topoLoop g fuel [] [] with
    | none => rw [hL] at h; simp at h
    | some r =>
      obtain ⟨b, s'⟩ := r
      rw [hL] at h
      cases b with
      | false => simp at h
      | true =>
        simp only [Option.some.injEq, Prod.mk.injEq, true_and] at h
        subst h
        obtain ⟨blocks, h1, h2⟩ := topoLoop_blocks g fuel [] [] s' (fun x => Iff.rfl) hL
        refine ⟨blocks, by simpa using h1, ?_⟩
        intro pre b post hsplit
        obtain ⟨ha, hb⟩ := h2 pre b post hsplit
        refine ⟨ha, ?_⟩
        intro x hx hxs hprod
        exact hb x hx (by simpa using hxs) (by simpa using hprod)

theorem topo_sort_ties_by_sweep_witness :
    tieGraph.topo_sort 4 = some (true, { tieGraph with ops := [1, 2, 0], sorted := true }) ∧
    ∃ blocks : List (List Nat), [1, 2, 0] = blocks.flatten ∧
      ∀ pre b post, blocks = pre ++ b :: post →
        b.Sublist tieGraph.ops ∧
        ∀ x ∈ tieGraph.ops, x ∉ pre.flatten →
          (∀ t ∈ (tieGraph.op x).inputs, ∀ p, (tieGraph.tensor t).source = some p →
            p ∈ pre.flatten) →
          x ∈ b :=
  ⟨by rfl, topo_sort_ties_by_sweep tieGraph { tieGraph with ops := [1, 2, 0], sorted := true }
    4 (by rfl)⟩

/-- C17 as stated fails: `tieGraph` has the operator list `[C, A, B]` (handles 0, 1, 2),
`A` producing the input of `C`. `topo_sort` returns `[A, B, C]`: when `B` is emitted
(after `A`), the earlier operator `C` is ready and not yet emitted; `[A, C, B]` is a
topological order that is lexicographically smaller in insertion indices. -/
theorem topo_sort_emits_later_operator_first :
    tieGraph.ops = [0, 1, 2] ∧
    tieGraph.topo_sort 4 = some (true, { tieGraph with ops := [1, 2, 0], sorted := true }) ∧
    topoReady tieGraph [1] 0 = true ∧
    ProducersFirst tieGraph [1, 0, 2] ∧ [1, 0, 2].Perm tieGraph.ops ∧
    [1, 0, 2] < [1, 2, 0] := by
  refine ⟨by rfl, by rfl, by rfl, ?_, by decide, by decide⟩
  have h1 : ProducersFirst tieGraph ([] ++ [1]) :=
    producersFirst_concat (producersFirst_nil _) (by decide)
  have h2 : ProducersFirst tieGraph (([] ++ [1]) ++ [0]) :=
    producersFirst_concat h1 (by decide)
  exact producersFirst_concat h2 (by decide)

/-! ## The two outcomes of a turn of the optimizer -/

/-- A turn of rule 2 that returns either leaves the state as it is, the predecessor being
no Transpose that passes the test, or rewires. -/
theorem fuseStep_cases {h i p : Nat} {st st' : OptState} (hs : fuseStep h i p st = some st') :
    (st' = st ∧ ∀ perm, (st.op p).kind = .transpose perm → lastTwoSwapped perm = some false) ∨
    (∃ perm x y, (st.op p).kind = .transpose perm ∧ lastTwoSwapped perm = some true ∧
      (st.op p).inputs[0]? = some x ∧ (st.op h).inputs[i]? = some y ∧
      st' = { op := Function.update st.op h
                (if (!(st.removeOps.contains p)) = true then
                  (((st.op h).replaceInput y x).removePredecessors p).toggleTrans i
                else ((st.op h).replaceInput y x).removePredecessors p),
              tensor := Function.update st.tensor x
                (((st.tensor x).removeTarget p).addTarget h),
              removeOps := if (!(st.removeOps.contains p)) = true then st.removeOps ++ [p]
                else st.removeOps,
              removeTensors := st.removeTensors ++ [y] }) := by
  unfold fuseStep at hs
  cases hk : (st.op p).kind with
  | matmul a b =>
    rw [hk] at hs
    simp only [Option.some.injEq] at hs
    exact Or.inl ⟨hs.symm, fun perm hp => by simp at hp⟩
  | other =>
    rw [hk] at hs
    simp only [Option.some.injEq] at hs
    exact Or.inl ⟨hs.symm, fun perm hp => by simp at hp⟩
  | transpose q =>
    rw [hk] at hs
    simp only [] at hs
    cases hl : lastTwoSwapped q with
    | none => rw [hl] at hs; simp at hs
    | some sw =>
      rw [hl] at hs
      cases sw with
      | false =>
        simp only [Option.some.injEq] at hs
        refine Or.inl ⟨hs.symm, ?_⟩
        intro perm hp
        simp only [OpKind.transpose.injEq] at hp
        rw [← hp]; exact hl
      | true =>
        simp only [] at hs
        cases hx : (st.op p).inputs[0]? with
        | none => rw [hx] at hs; simp at hs
        | some x =>
          cases hy : (st.op h).inputs[i]? with
          | none => rw [hx, hy] at hs; simp at hs
          | some y =>
            rw [hx, hy] at hs
            simp only [Option.some.injEq] at hs
            exact Or.inr ⟨q, x, y, rfl, hl, rfl, rfl, hs.symm⟩

/-- A turn of rule 1 that returns either leaves the state as it is, the condition of the
rule not being met, or marks the pair. -/
theorem cancelStep_cases {h : Nat} {st st' : OptState} (hs : cancelStep h st = some st') :
    (st' = st ∧ ¬ ∃ p perm, (st.op h).predecessors[0]? = some p ∧
      (st.op p).kind = .transpose perm ∧ (st.op h).kind = .transpose perm) ∨
    (∃ p perm x y, (st.op h).predecessors[0]? = some p ∧
      (st.op p).kind = .transpose perm ∧ (st.op h).kind = .transpose perm ∧
      (st.op p).inputs[0]? = some x ∧ (st.op h).inputs[0]? = some y ∧
      st' = { op := Function.update st.op h ((st.op h).replaceInput y x),
              tensor := Function.update st.tensor x ((st.tensor x).removeTarget p),
              removeOps := st.removeOps ++ [p, h],
              removeTensors := st.removeTensors ++ [y] }) := by
  unfold cancelStep at hs
  cases hp : (st.op h).predecessors[0]? with
  | none =>
    rw [hp] at hs
    simp only [Option.some.injEq] at hs
    exact Or.inl ⟨hs.symm, fun ⟨p, perm, h1, _⟩ => by simp at h1⟩
  | some p =>
    rw [hp] at hs
    simp only [] at hs
    cases hkp : (st.op p).kind with
    | matmul a b =>
      rw [hkp] at hs
      simp only [Option.some.injEq] at hs
      refine Or.inl ⟨hs.symm, ?_⟩
      rintro ⟨p', perm, h1, h2, _⟩
      simp only [Option.some.injEq] at h1
      subst h1
      rw [hkp] at h2
      simp at h2
    | other =>
      rw [hkp] at hs
      simp only [Option.some.injEq] at hs
      refine Or.inl ⟨hs.symm, ?_⟩
      rintro ⟨p', perm, h1, h2, _⟩
      simp only [Option.some.injEq] at h1
      subst h1
      rw [hkp] at h2
      simp at h2
    | transpose pre =>
      rw [hkp] at hs
      cases hkh : (st.op h).kind with
      | matmul a b =>
        rw [hkh] at hs
        simp only [Option.some.injEq] at hs
        refine Or.inl ⟨hs.symm, ?_⟩
        rintro ⟨p', perm, _, _, h3⟩
        simp at h3
      | other =>
        rw [hkh] at hs
        simp only [Option.some.injEq] at hs
        refine Or.inl ⟨hs.symm, ?_⟩
        rintro ⟨p', perm, _, _, h3⟩
        simp at h3
      | transpose cur =>
        rw [hkh] at hs
        simp only [] at hs
        by_cases hc : cur = pre
        · rw [if_pos hc] at hs
          subst hc
          cases hx : (st.op p).inputs[0]? with
          | none => rw [hx] at hs; simp at hs
          | some x =>
            cases hy : (st.op h).inputs[0]? with
            | none => rw [hx, hy] at hs; simp at hs
            | some y =>
              rw [hx, hy] at hs
              simp only [Option.some.injEq] at hs
              exact Or.inr ⟨p, cur, x, y, rfl, hkp, rfl, hx, rfl, hs.symm⟩
        · rw [if_neg hc] at hs
          simp only [Option.some.injEq] at hs
          refine Or.inl ⟨hs.symm, ?_⟩
          rintro ⟨p', perm, h1, h2, h3⟩
          simp only [Option.some.injEq] at h1
          subst h1
          rw [hkp] at h2
          simp only [OpKind.transpose.injEq] at h2 h3
          exact hc (h3.trans h2.symm)

/-! ## Idempotence of the optimizer -/

theorem stepFrame_refl (h : Nat) (st : OptState) : StepFrame h st st :=
  ⟨fun _ _ => rfl, Or.inl rfl, fun _ => rfl, fun _ hx => hx, rfl⟩

/-- The kind of a Transpose after a turn is the kind it had before. -/
theorem stepFrame_transpose {h : Nat} {st st' : OptState} (hF : StepFrame h st st')
    (q : Nat) (perm : List Int) (hk : (st'.op q).kind = .transpose perm) :
    (st.op q).kind = .transpose perm := by
  by_cases hq : q = h
  · subst hq
    rcases hF.kind with h1 | ⟨_, h2⟩
    · rw [← h1]; exact hk
    · rw [hk] at h2; simp [OpKind.isMatMul] at h2
  · rw [← hF.ops q hq]; exact hk

theorem settled_of_frame {h x : Nat} {st st' : OptState} (hF : StepFrame h st st')
    (hx : x ≠ h) (hS : Settled st x) : Settled st' x := by
  have hop := hF.ops x hx
  constructor
  · rintro ⟨h1, p, perm, h2, h3, h4⟩
    rw [hop] at h1 h2 h4
    exact hF.marks x (hS.1 ⟨h1, p, perm, h2, stepFrame_transpose hF p perm h3, h4⟩)
  · intro hm q hq perm hk
    rw [hop] at hm hq
    exact hS.2 hm q hq perm (stepFrame_transpose hF q perm hk)

theorem not_isMatMul_of_isTranspose {k : OpKind} (h : k.isTranspose = true) :
    k.isMatMul = false := by
  cases k <;> simp_all [OpKind.isTranspose, OpKind.isMatMul]

theorem cancelStep_frame {h : Nat} {st st' : OptState}
    (hT : (st.op h).kind.isTranspose = true) (hs : cancelStep h st = some st') :
    StepFrame h st st' ∧ Settled st' h := by
  have hnm := not_isMatMul_of_isTranspose hT
  rcases cancelStep_cases hs with ⟨rfl, hno⟩ | ⟨p, perm, x, y, h1, h2, h3, h4, h5, rfl⟩
  · refine ⟨stepFrame_refl _ _, ?_, ?_⟩
    · rintro ⟨_, p, perm, h2, h3, h4⟩
      exact absurd ⟨p, perm, h2, h3, h4⟩ hno
    · intro hm
      rw [hnm] at hm
      exact absurd hm (by simp)
  · refine ⟨⟨?_, ?_, ?_, ?_, ?_⟩, ?_, ?_⟩
    · intro q hq
      simp only [Function.update_noteq hq]
    · left
      simp only [Function.update_same, OperatorObj.replaceInput]
    · intro _
      simp only [Function.update_same, OperatorObj.replaceInput]
    · intro q hq
      exact List.mem_append_left _ hq
    · simp only [Function.update_same, OperatorObj.replaceInput, List.length_map]
    · intro _
      simp
    · intro hm
      simp only [Function.update_same, OperatorObj.replaceInput] at hm
      rw [hnm] at hm
      exact absurd hm (by simp)

/-- A turn of rule 2 for the MatMul `h`: every predecessor left is one that was there,
and the predecessor `p` of the turn is left only if the test fails on it. -/
theorem fuseStep_frame {h i p : Nat} {st st' : OptState}
    (hM : (st.op h).kind.isMatMul = true) (hs : fuseStep h i p st = some st') :
    (∀ x, x ≠ h → st'.op x = st.op x) ∧ (st'.op h).kind.isMatMul = true ∧
    (∀ x ∈ st.removeOps, x ∈ st'.removeOps) ∧
    (st'.op h).inputs.length = (st.op h).inputs.length ∧
    (∀ q ∈ (st'.op h).predecessors, q ∈ (st.op h).predecessors ∧ (q = p → TestFails st q)) := by
  rcases fuseStep_cases hs with ⟨rfl, hfail⟩ | ⟨perm, x, y, h1, h2, h3, h4, rfl⟩
  · exact ⟨fun _ _ => rfl, hM, fun _ hx => hx, rfl, fun q hq => ⟨hq, fun hqp => hqp ▸ hfail⟩⟩
  · refine ⟨?_, ?_, ?_, ?_, ?_⟩
    · intro q hq
      simp only [Function.update_noteq hq]
    · simp only [Function.update_same]
      split
      · rw [toggleTrans_isMatMul]; exact hM
      · exact hM
    · intro q hq
      simp only []
      split
      · exact List.mem_append_left _ hq
      · exact hq
    · simp only [Function.update_same]
      split
      · rw [toggleTrans_inputs]
        simp [OperatorObj.removePredecessors, OperatorObj.replaceInput]
      · simp [OperatorObj.removePredecessors, OperatorObj.replaceInput]
    · intro q hq
      simp only [Function.update_same] at hq
      have hq' : q ∈ (((st.op h).replaceInput y x).removePredecessors p).predecessors := by
        split at hq
        · unfold OperatorObj.toggleTrans at hq
          split at hq
          · split at hq <;> exact hq
          · exact hq
        · exact hq
      simp only [OperatorObj.removePredecessors, OperatorObj.replaceInput, List.mem_filter,
        bne_iff_ne, ne_eq] at hq'
      exact ⟨hq'.1, fun hqp => absurd hqp hq'.2⟩

theorem testFails_of_ops {h q : Nat} {st st' : OptState}
    (hops : ∀ x, x ≠ h → st'.op x = st.op x) (hM : (st.op h).kind.isMatMul = true)
    (hM' : (st'.op h).kind.isMatMul = true) : TestFails st q ↔ TestFails st' q := by
  by_cases hq : q = h
  · subst hq
    constructor
    · intro _ perm hk
      rw [hk] at hM'; simp [OpKind.isMatMul] at hM'
    · intro _ perm hk
      rw [hk] at hM; simp [OpKind.isMatMul] at hM
  · unfold TestFails
    rw [hops q hq]

theorem fuseLoop_frame (h : Nat) (ps : List Nat) :
    ∀ (i : Nat) (st st' : OptState), (st.op h).kind.isMatMul = true →
      fuseLoop h ps i st = some st' →
      (∀ x, x ≠ h → st'.op x = st.op x) ∧ (st'.op h).kind.isMatMul = true ∧
      (∀ x ∈ st.removeOps, x ∈ st'.removeOps) ∧
      (st'.op h).inputs.length = (st.op h).inputs.length ∧
      (∀ q ∈ (st'.op h).predecessors,
        q ∈ (st.op h).predecessors ∧ (q ∈ ps → TestFails st q)) := by
  induction ps with
  | nil =>
    intro i st st' hM hs
    rw [fuseLoop_nil, Option.some.injEq] at hs
    subst hs
    exact ⟨fun _ _ => rfl, hM, fun _ hx => hx, rfl, fun q hq => ⟨hq, fun h => by simp at h⟩⟩
  | cons p rest ih =>
    intro i st st' hM hs
    rw [fuseLoop_cons] at hs
    cases h1 : fuseStep h i p st with
    | none => rw [h1] at hs; simp at hs
    | some st1 =>
      rw [h1] at hs
      simp only [] at hs
      obtain ⟨a1, a2, a3, a5, a4⟩ := fuseStep_frame hM h1
      obtain ⟨b1, b2, b3, b5, b4⟩ := ih (i + 1) st1 st' a2 hs
      refine ⟨fun x hx => (b1 x hx).trans (a1 x hx), b2, fun x hx => b3 x (a3 x hx),
        b5.trans a5, ?_⟩
      intro q hq
      obtain ⟨c1, c2⟩ := b4 q hq
      obtain ⟨d1, d2⟩ := a4 q c1
      refine ⟨d1, ?_⟩
      intro hmem
      rcases List.mem_cons.1 hmem with hqp | hqr
      · exact d2 hqp
      · exact (testFails_of_ops a1 hM a2).2 (c2 hqr)

/-- A turn of the loop of `optimize` that returns keeps the frame and settles its
operator. -/
theorem optimizeStep_settles {h : Nat} {st st' : OptState}
    (hs : optimizeStep st h = some st') : StepFrame h st st' ∧ Settled st' h := by
  unfold optimizeStep at hs
  by_cases hc : (st.op h).predecessors.length = 1 ∧ (st.op h).kind.isTranspose = true
  · rw [if_pos hc] at hs
    exact cancelStep_frame hc.2 hs
  · rw [if_neg hc] at hs
    by_cases hM : (st.op h).kind.isMatMul = true
    · rw [if_pos hM] at hs
      obtain ⟨a1, a2, a3, a5, a4⟩ := fuseLoop_frame h _ 0 st st' hM hs
      refine ⟨⟨a1, Or.inr ⟨hM, a2⟩, fun hf => by rw [hM] at hf; simp at hf, a3, a5⟩, ?_, ?_⟩
      · rintro ⟨_, p, perm, _, _, h4⟩
        rw [h4] at a2
        simp [OpKind.isMatMul] at a2
      · intro _ q hq
        obtain ⟨c1, c2⟩ := a4 q hq
        exact (testFails_of_ops a1 hM a2).1 (c2 c1)
    · rw [if_neg hM] at hs
      simp only [Option.some.injEq] at hs
      subst hs
      refine ⟨stepFrame_refl _ _, ?_, fun hm => absurd hm hM⟩
      rintro ⟨h1, p, perm, _, _, h4⟩
      exact absurd ⟨h1, by rw [h4]; rfl⟩ hc

theorem optimizeOps_settles (l : List Nat) :
    ∀ (st st' : OptState), optimizeOps l st = some st' →
      (∀ x ∈ st.removeOps, x ∈ st'.removeOps) ∧
      ∀ x, (Settled st x ∨ x ∈ l) → Settled st' x := by
  induction l with
  | nil =>
    intro st st' hs
    rw [optimizeOps_nil, Option.some.injEq] at hs
    subst hs
    refine ⟨fun _ hx => hx, ?_⟩
    rintro x (hx | hx)
    · exact hx
    · simp at hx
  | cons h rest ih =>
    intro st st' hs
    rw [optimizeOps_cons] at hs
    cases h1 : optimizeStep st h with
    | none => rw [h1] at hs; simp at hs
    | some st1 =>
      rw [h1] at hs
      simp only [] at hs
      obtain ⟨hF, hS⟩ := optimizeStep_settles h1
      obtain ⟨b1, b2⟩ := ih st1 st' hs
      refine ⟨fun x hx => b1 x (hF.marks x hx), ?_⟩
      intro x hx
      apply b2
      by_cases hxh : x = h
      · left; rw [hxh]; exact hS
      · rcases hx with hx | hx
        · left; exact settled_of_frame hF hxh hx
        · right
          rcases List.mem_cons.1 hx with hx | hx
          · exact absurd hx hxh
          · exact hx

/-! ## The optimizer returns when the operators keep their contract -/

theorem arityInv_of_frame {g : GraphObj} {h : Nat} {st st' : OptState}
    (hG : ArityInv g st) (hF : StepFrame h st st') : ArityInv g st' := by
  refine ⟨?_, ?_, ?_⟩
  · intro Q
    by_cases hQ : Q = h
    · rw [hQ, hF.len, hG.len]
    · rw [hF.ops Q hQ, hG.len]
  · intro Q perm
    by_cases hQ : Q = h
    · subst hQ
      rcases hF.kind with h1 | ⟨h1, h2⟩
      · rw [h1]; exact hG.tr Q perm
      · constructor
        · intro hk
          rw [hk] at h2
          simp [OpKind.isMatMul] at h2
        · intro hk
          rw [hG.mm Q, hk] at h1
          simp [OpKind.isMatMul] at h1
    · rw [hF.ops Q hQ]; exact hG.tr Q perm
  · intro Q
    by_cases hQ : Q = h
    · subst hQ
      rcases hF.kind with h1 | ⟨h1, h2⟩
      · rw [h1]; exact hG.mm Q
      · rw [h2, ← hG.mm Q, h1]
    · rw [hF.ops Q hQ]; exact hG.mm Q

theorem fuseStep_returns {g : GraphObj} {h i p : Nat} {st : OptState} (hG : ArityInv g st)
    (hpA : (g.op p).ArityOK) (hi : i < (g.op h).inputs.length) :
    ∃ st', fuseStep h i p st = some st' := by
  unfold fuseStep
  cases hk : (st.op p).kind with
  | matmul a b => exact ⟨st, rfl⟩
  | other => exact ⟨st, rfl⟩
  | transpose q =>
    have hkg : (g.op p).kind = .transpose q := (hG.tr p q).1 hk
    unfold OperatorObj.ArityOK at hpA
    rw [hkg] at hpA
    obtain ⟨hlen1, hne, hnn, hlt⟩ := hpA
    simp only []
    cases hl : lastTwoSwapped q with
    | none => exact absurd hl (lastTwoSwapped_ne_none hne hnn hlt)
    | some sw =>
      cases sw with
      | false => exact ⟨st, rfl⟩
      | true =>
        obtain ⟨x, hx⟩ : ∃ x, (st.op p).inputs[0]? = some x :=
          getElem?_isSome_of_lt (by rw [hG.len p]; omega)
        obtain ⟨y, hy⟩ : ∃ y, (st.op h).inputs[i]? = some y :=
          getElem?_isSome_of_lt (by rw [hG.len h]; exact hi)
        simp only [hx, hy]
        exact ⟨_, rfl⟩

theorem fuseLoop_returns {g : GraphObj} {h : Nat} (ps : List Nat) :
    ∀ (i : Nat) (st : OptState), ArityInv g st → (st.op h).kind.isMatMul = true →
      (∀ p ∈ ps, (g.op p).ArityOK) → i + ps.length ≤ (g.op h).inputs.length →
      ∃ st', fuseLoop h ps i st = some st' := by
  induction ps with
  | nil => intro i st _ _ _ _; exact ⟨st, fuseLoop_nil h i st⟩
  | cons p rest ih =>
    intro i st hG hM hA hlen
    simp only [List.length_cons] at hlen
    obtain ⟨st1, h1⟩ := fuseStep_returns (h := h) (i := i) hG (hA p (List.mem_cons_self _ _))
      (by omega)
    obtain ⟨a1, a2, a3, a5, _⟩ := fuseStep_frame hM h1
    have hF : StepFrame h st st1 :=
      ⟨a1, Or.inr ⟨hM, a2⟩, fun hf => by rw [hM] at hf; simp at hf, a3, a5⟩
    obtain ⟨st2, h2⟩ := ih (i + 1) st1 (arityInv_of_frame hG hF) a2
      (fun q hq => hA q (List.mem_cons_of_mem _ hq)) (by omega)
    refine ⟨st2, ?_⟩
    rw [fuseLoop_cons, h1]
    exact h2

theorem cancelStep_returns {g : GraphObj} {h : Nat} {st : OptState} (hG : ArityInv g st)
    (hhA : (g.op h).ArityOK) (hpA : ∀ p ∈ (st.op h).predecessors, (g.op p).ArityOK) :
    ∃ st', cancelStep h st = some st' := by
  unfold cancelStep
  cases hp : (st.op h).predecessors[0]? with
  | none => exact ⟨st, rfl⟩
  | some p =>
    have hpm : p ∈ (st.op h).predecessors := List.getElem?_mem hp
    simp only []
    cases hkp : (st.op p).kind with
    | matmul a b => exact ⟨st, rfl⟩
    | other => exact ⟨st, rfl⟩
    | transpose pre =>
      cases hkh : (st.op h).kind with
      | matmul a b => exact ⟨st, rfl⟩
      | other => exact ⟨st, rfl⟩
      | transpose cur =>
        simp only []
        by_cases hc : cur = pre
        · rw [if_pos hc]
          have hp1 := hpA p hpm
          unfold OperatorObj.ArityOK at hp1 hhA
          rw [(hG.tr p pre).1 hkp] at hp1
          rw [(hG.tr h cur).1 hkh] at hhA
          obtain ⟨x, hx⟩ : ∃ x, (st.op p).inputs[0]? = some x :=
            getElem?_isSome_of_lt (by rw [hG.len p]; omega)
          obtain ⟨y, hy⟩ : ∃ y, (st.op h).inputs[0]? = some y :=
            getElem?_isSome_of_lt (by rw [hG.len h]; omega)
          simp only [hx, hy]
          exact ⟨_, rfl⟩
        · rw [if_neg hc]
          exact ⟨st, rfl⟩

theorem optimizeStep_returns {g : GraphObj} {h : Nat} {st : OptState} (hG : ArityInv g st)
    (hhA : (g.op h).ArityOK) (hpA : ∀ p ∈ (st.op h).predecessors, (g.op p).ArityOK)
    (hple : (st.op h).predecessors.length ≤ (g.op h).inputs.length) :
    ∃ st', optimizeStep st h = some st' := by
  unfold optimizeStep
  split
  · exact cancelStep_returns hG hhA hpA
  · split
    · rename_i hM
      exact fuseLoop_returns _ 0 st hG hM hpA (by omega)
    · exact ⟨st, rfl⟩

theorem toggleTrans_predecessors (o : OperatorObj) (i : Nat) :
    (o.toggleTrans i).predecessors = o.predecessors := by
  unfold OperatorObj.toggleTrans
  split
  · split <;> rfl
  · rfl

/-- A turn of rule 2 that returns appends to `removeOps` and only drops predecessors. -/
theorem fuseStep_grows {h i p : Nat} {st st' : OptState}
    (hs : fuseStep h i p st = some st') :
    st.removeOps <+: st'.removeOps ∧
    (st'.op h).predecessors.Sublist (st.op h).predecessors := by
  rcases fuseStep_cases hs with ⟨rfl, _⟩ | ⟨perm, x, y, _, _, _, _, rfl⟩
  · exact ⟨List.prefix_refl _, List.Sublist.refl _⟩
  · constructor
    · simp only []
      split
      · exact List.prefix_append _ _
      · exact List.prefix_refl _
    · simp only [Function.update_same]
      split
      · rw [toggleTrans_predecessors]
        exact List.filter_sublist _
      · exact List.filter_sublist _

theorem fuseLoop_grows (h : Nat) (ps : List Nat) :
    ∀ (i : Nat) (st st' : OptState), fuseLoop h ps i st = some st' →
      st.removeOps <+: st'.removeOps ∧
      (st'.op h).predecessors.Sublist (st.op h).predecessors := by
  induction ps with
  | nil =>
    intro i st st' hs
    rw [fuseLoop_nil, Option.some.injEq] at hs
    subst hs
    exact ⟨List.prefix_refl _, List.Sublist.refl _⟩
  | cons p rest ih =>
    intro i st st' hs
    rw [fuseLoop_cons] at hs
    cases h1 : fuseStep h i p st with
    | none => rw [h1] at hs; simp at hs
    | some st1 =>
      rw [h1] at hs
      simp only [] at hs
      obtain ⟨a1, a2⟩ := fuseStep_grows h1
      obtain ⟨b1, b2⟩ := ih (i + 1) st1 st' hs
      exact ⟨a1.trans b1, b2.trans a2⟩

/-- A turn of the loop of `optimize` that returns appends to `removeOps` and only drops
predecessors of its operator. -/
theorem optimizeStep_grows {h : Nat} {st st' : OptState}
    (hs : optimizeStep st h = some st') :
    st.removeOps <+: st'.removeOps ∧
    (st'.op h).predecessors.Sublist (st.op h).predecessors := by
  unfold optimizeStep at hs
  by_cases hc : (st.op h).predecessors.length = 1 ∧ (st.op h).kind.isTranspose = true
  · rw [if_pos hc] at hs
    rcases cancelStep_cases hs with ⟨rfl, _⟩ | ⟨p, perm, x, y, _, _, _, _, _, rfl⟩
    · exact ⟨List.prefix_refl _, List.Sublist.refl _⟩
    · refine ⟨List.prefix_append _ _, ?_⟩
      simp only [Function.update_same, OperatorObj.replaceInput]
      exact List.Sublist.refl _
  · rw [if_neg hc] at hs
    by_cases hM : (st.op h).kind.isMatMul = true
    · rw [if_pos hM] at hs
      exact fuseLoop_grows h _ 0 st st' hs
    · rw [if_neg hM] at hs
      simp only [Option.some.injEq] at hs
      subst hs
      exact ⟨List.prefix_refl _, List.Sublist.refl _⟩

theorem arityLinked_of_linked {g : GraphObj} (hL : LinkedInOrder g) : ArityLinked g := by
  obtain ⟨_, _, harity, hsources, hpreds⟩ := hL
  intro h hh
  refine ⟨harity h hh, ?_, ?_⟩
  · intro p hp
    rw [hpreds h hh, List.mem_filterMap] at hp
    obtain ⟨t, ht, hts⟩ := hp
    exact harity p (hsources h hh t ht p hts)
  · rw [hpreds h hh]
    exact List.length_filterMap_le _ _

theorem optimizeOps_returns {g : GraphObj} (hL : ArityLinked g) (l : List Nat) :
    ∀ st, (∀ h ∈ l, h ∈ g.ops) → ArityInv g st →
      (∀ Q, (st.op Q).predecessors.Sublist (g.op Q).predecessors) →
      ∃ st', optimizeOps l st = some st' := by
  induction l with
  | nil => intro st _ _ _; exact ⟨st, optimizeOps_nil st⟩
  | cons h rest ih =>
    intro st hmem hG hpr
    obtain ⟨hA1, hA2, hA3⟩ := hL h (hmem h (List.mem_cons_self _ _))
    have hprh := hpr h
    obtain ⟨st1, h1⟩ := optimizeStep_returns hG hA1 (fun p hp => hA2 p (hprh.subset hp))
      (le_trans hprh.length_le hA3)
    obtain ⟨hF, _⟩ := optimizeStep_settles h1
    obtain ⟨_, hsub⟩ := optimizeStep_grows h1
    obtain ⟨st2, h2⟩ := ih st1 (fun q hq => hmem q (List.mem_cons_of_mem _ hq))
      (arityInv_of_frame hG hF)
      (fun Q => by
        by_cases hQ : Q = h
        · rw [hQ]; exact hsub.trans hprh
        · rw [hF.ops Q hQ]; exact hpr Q)
    refine ⟨st2, ?_⟩
    rw [optimizeOps_cons, h1]
    exact h2

/-- On a graph whose operators keep the contract of their variant `optimize` returns. -/
theorem optimize_returns {g : GraphObj} (hL : ArityLinked g) :
    ∃ g', g.optimize = some g' := by
  obtain ⟨st, hst⟩ := optimizeOps_returns hL g.ops ⟨g.op, g.tensor, [], []⟩
    (fun _ hh => hh) ⟨fun _ => rfl, fun _ _ => Iff.rfl, fun _ => rfl⟩
    (fun _ => List.Sublist.refl _)
  unfold GraphObj.optimize
  rw [hst]
  exact ⟨_, rfl⟩

theorem fuseStep_fixed {h i p : Nat} {st : OptState} (hp : TestFails st p) :
    fuseStep h i p st = some st := by
  unfold fuseStep
  cases hk : (st.op p).kind with
  | matmul a b => rfl
  | other => rfl
  | transpose q =>
    simp only []
    rw [hp q hk]

theorem fuseLoop_fixed (h : Nat) (ps : List Nat) (st : OptState) :
    ∀ i, (∀ q ∈ ps, TestFails st q) → fuseLoop h ps i st = some st := by
  induction ps with
  | nil => intro i _; exact fuseLoop_nil h i st
  | cons p rest ih =>
    intro i hq
    rw [fuseLoop_cons, fuseStep_fixed (hq p (List.mem_cons_self _ _))]
    exact ih (i + 1) (fun q hq' => hq q (List.mem_cons_of_mem _ hq'))

/-- A turn of the loop for an operator on which neither rule has anything to do returns
the state as it is. -/
theorem optimizeStep_fixed {st : OptState} {h : Nat} (hR : ¬ R1Fires st h)
    (hC : (st.op h).kind.isMatMul = true → ∀ q ∈ (st.op h).predecessors, TestFails st q) :
    optimizeStep st h = some st := by
  unfold optimizeStep
  by_cases hc : (st.op h).predecessors.length = 1 ∧ (st.op h).kind.isTranspose = true
  · rw [if_pos hc]
    cases hs : cancelStep h st with
    | none =>
      exfalso
      unfold cancelStep at hs
      cases hp : (st.op h).predecessors[0]? with
      | none => rw [hp] at hs; simp at hs
      | some p =>
        rw [hp] at hs
        simp only [] at hs
        cases hkp : (st.op p).kind with
        | matmul a b => rw [hkp] at hs; simp at hs
        | other => rw [hkp] at hs; simp at hs
        | transpose pre =>
          cases hkh : (st.op h).kind with
          | matmul a b => rw [hkp, hkh] at hs; simp at hs
          | other => rw [hkp, hkh] at hs; simp at hs
          | transpose cur =>
            by_cases hcp : cur = pre
            · exact hR ⟨hc.1, p, pre, hp, hkp, by rw [hkh, hcp]⟩
            · rw [hkp, hkh] at hs
              simp [hcp] at hs
    | some st' =>
      rcases cancelStep_cases hs with ⟨rfl, _⟩ | ⟨p, perm, x, y, h1, h2, h3, _⟩
      · rfl
      · exact absurd ⟨hc.1, p, perm, h1, h2, h3⟩ hR
  · rw [if_neg hc]
    by_cases hM : (st.op h).kind.isMatMul = true
    · rw [if_pos hM]
      exact fuseLoop_fixed h _ st 0 (hC hM)
    · rw [if_neg hM]

theorem optimizeOps_fixed (l : List Nat) (st : OptState)
    (h : ∀ x ∈ l, optimizeStep st x = some st) : optimizeOps l st = some st := by
  induction l with
  | nil => exact optimizeOps_nil st
  | cons x rest ih =>
    rw [optimizeOps_cons, h x (List.mem_cons_self _ _)]
    exact ih (fun y hy => h y (List.mem_cons_of_mem _ hy))

theorem mem_of_mem_foldl_erase (r : List Nat) :
    ∀ (l : List Nat) (x : Nat), x ∈ r.foldl List.erase l → x ∈ l := by
  induction r with
  | nil => intro l x hx; exact hx
  | cons y r ih =>
    intro l x hx
    exact List.mem_of_mem_erase (ih (l.erase y) x hx)

/-- The condition of rule 1 does not change during the loop: if it holds after a turn, it
held before. -/
theorem r1Fires_of_frame {h x : Nat} {st st' : OptState} (hF : StepFrame h st st')
    (hR : R1Fires st' x) : R1Fires st x := by
  obtain ⟨h1, p, perm, h2, h3, h4⟩ := hR
  have hp := stepFrame_transpose hF p perm h3
  have hx := stepFrame_transpose hF x perm h4
  by_cases hxh : x = h
  · subst hxh
    have hnm : (st.op x).kind.isMatMul = false := by rw [hx]; rfl
    rw [hF.preds hnm] at h1 h2
    exact ⟨h1, p, perm, h2, hp, hx⟩
  · rw [hF.ops x hxh] at h1 h2
    exact ⟨h1, p, perm, h2, hp, hx⟩

/-- A turn for an operator that meets the condition of rule 1 marks it once more. -/
theorem optimizeStep_counts {h : Nat} {st st' : OptState} (hR : R1Fires st h)
    (hs : optimizeStep st h = some st') :
    st.removeOps.count h + 1 ≤ st'.removeOps.count h := by
  obtain ⟨h1, p, perm, h2, h3, h4⟩ := hR
  unfold optimizeStep at hs
  rw [if_pos ⟨h1, by rw [h4]; rfl⟩] at hs
  rcases cancelStep_cases hs with ⟨_, hno⟩ | ⟨p', perm', x, y, _, _, _, _, _, rfl⟩
  · exact absurd ⟨p, perm, h2, h3, h4⟩ hno
  · simp only [List.count_append, List.count_cons, List.count_nil, beq_self_eq_true, if_true]
    omega

theorem optimizeOps_counts (l : List Nat) :
    ∀ (st st' : OptState), optimizeOps l st = some st' →
      ∀ x, R1Fires st' x →
        R1Fires st x ∧ st.removeOps.count x + l.count x ≤ st'.removeOps.count x := by
  induction l with
  | nil =>
    intro st st' hs x hR
    rw [optimizeOps_nil, Option.some.injEq] at hs
    subst hs
    exact ⟨hR, by simp⟩
  | cons h rest ih =>
    intro st st' hs x hR
    rw [optimizeOps_cons] at hs
    cases h1 : optimizeStep st h with
    | none => rw [h1] at hs; simp at hs
    | some st1 =>
      rw [h1] at hs
      simp only [] at hs
      obtain ⟨hR1, hc1⟩ := ih st1 st' hs x hR
      obtain ⟨hF, _⟩ := optimizeStep_settles h1
      obtain ⟨hpre, _⟩ := optimizeStep_grows h1
      have hR0 := r1Fires_of_frame hF hR1
      refine ⟨hR0, ?_⟩
      have hmono : st.removeOps.count x ≤ st1.removeOps.count x :=
        hpre.sublist.count_le x
      by_cases hxh : x = h
      · subst hxh
        have := optimizeStep_counts hR0 h1
        rw [List.count_cons_self]
        omega
      · rw [List.count_cons_of_ne hxh]
        omega

theorem count_foldl_erase (r : List Nat) :
    ∀ (l : List Nat) (x : Nat), (r.foldl List.erase l).count x = l.count x - r.count x := by
  induction r with
  | nil => intro l x; simp
  | cons y r ih =>
    intro l x
    rw [List.foldl_cons, ih, List.count_cons]
    by_cases hxy : y = x
    · subst hxy
      rw [List.count_erase_self]
      simp
      omega
    · rw [List.count_erase_of_ne (fun e => hxy e.symm)]
      simp [hxy]

/-- A second call of `optimize` on what the first call returned changes nothing. -/
theorem optimize_twice (g g1 : GraphObj) (h : g.optimize = some g1) :
    g1.optimize = some g1 := by
  unfold GraphObj.optimize at h
  cases hO : optimizeOps g.ops (⟨g.op, g.tensor, [], []⟩ : OptState) with
  | none => rw [hO] at h; simp at h
  | some st =>
    rw [hO] at h
    simp only [Option.some.injEq] at h
    obtain ⟨_, hset⟩ := optimizeOps_settles _ _ _ hO
    have hcnt := optimizeOps_counts _ _ _ hO
    obtain ⟨t1, t2, t3, _⟩ := foldl_removeTensor st.removeTensors
      (st.removeOps.foldl GraphObj.removeOperator { g with op := st.op, tensor := st.tensor })
    obtain ⟨o1, o2, _, o4⟩ := foldl_removeOperator st.removeOps
      { g with op := st.op, tensor := st.tensor }
    rw [h] at t1 t2 t3
    have hop : g1.op = st.op := t1.trans o1
    have hops : g1.ops = st.removeOps.foldl List.erase g.ops := t3.trans o4
    have hfix : ∀ x ∈ g1.ops, optimizeStep (⟨g1.op, g1.tensor, [], []⟩ : OptState) x =
        some ⟨g1.op, g1.tensor, [], []⟩ := by
      intro x hx
      rw [hops] at hx
      have hxg : x ∈ g.ops := mem_of_mem_foldl_erase _ _ _ hx
      have hS := hset x (Or.inr hxg)
      apply optimizeStep_fixed
      · intro hf
        have hf' : R1Fires st x := by
          unfold R1Fires at hf ⊢
          simp only [hop] at hf
          exact hf
        have hc := (hcnt x hf').2
        have hz : (st.removeOps.foldl List.erase g.ops).count x = 0 := by
          rw [count_foldl_erase]
          simp only [List.count_nil, Nat.zero_add] at hc
          omega
        exact (List.count_eq_zero.1 hz) hx
      · intro hm q hq
        simp only [hop] at hm hq
        have := hS.2 hm q hq
        unfold TestFails at this ⊢
        simp only [hop]
        exact this
    unfold GraphObj.optimize
    rw [optimizeOps_fixed _ _ hfix]
    rfl

/-- C18: whenever `optimize` returns on a graph, a second call of `optimize` on the result
returns the result itself: it removes no operator and no tensor and changes no operator
and no tensor object; the operator list may hold an operator more than once. `optimize`
returns on every graph whose operators keep the contract of their variant. -/
theorem optimize_idempotent (g : GraphObj) :
    (ArityLinked g → ∃ g1, g.optimize = some g1) ∧
    ∀ g1, g.optimize = some g1 → g1.optimize = some g1 :=
  ⟨fun hL => optimize_returns hL, fun g1 h => optimize_twice g g1 h⟩

theorem optimize_idempotent_witness :
    ArityLinked dupFuseGraph ∧ dupFuseGraph.ops = [0, 0, 1] ∧
    dupFuseGraph.checkValid = true ∧
    ∃ g1, dupFuseGraph.optimize = some g1 ∧ g1.ops = [0, 1] ∧ g1.tensors = [0, 1, 3] ∧
      g1.optimize = some g1 := by
  have hI := optimize_idempotent dupFuseGraph
  obtain ⟨g1, h1⟩ := hI.1 (by decide)
  have e : dupFuseGraph.optimize.map (fun g => (g.ops, g.tensors)) =
      some ([0, 1], [0, 1, 3]) := by
    rfl
  rw [h1] at e
  simp only [Option.map_some', Option.some.injEq, Prod.mk.injEq] at e
  exact ⟨by decide, by rfl, by decide, g1, h1, e.1, e.2, hI.2 g1 h1⟩

/-! ## Rule 2 outside its condition -/

theorem lastTwoSwapped_of_not_endsSwapped {perm : List Int} (h0 : perm ≠ [])
    (hnn : ∀ v ∈ perm, 0 ≤ v) (hlen : perm.length < 2147483648) (hns : ¬ EndsSwapped perm) :
    lastTwoSwapped perm = some false := by
  unfold lastTwoSwapped
  have hpos : 0 < perm.length := List.length_pos.2 h0
  have e1 : (perm.length + SIZE - 1) % SIZE = perm.length - 1 := by
    simp only [SIZE]; omega
  simp only [e1]
  cases hv : perm[perm.length - 1]? with
  | none =>
    rw [List.getElem?_eq_none_iff] at hv
    omega
  | some v1 =>
    have hv0 : 0 ≤ v1 := hnn _ (List.getElem?_mem hv)
    simp only []
    by_cases h1 : perm.length = 1
    · have e2 : (perm.length + SIZE - 2) % SIZE = SIZE - 1 := by
        simp only [SIZE]; omega
      have e3 : sizeToInt (SIZE - 1) = -1 := by decide
      rw [e2, e3]
      rw [if_neg (by omega)]
    · have e2 : (perm.length + SIZE - 2) % SIZE = perm.length - 2 := by
        simp only [SIZE]; omega
      rw [e2, sizeToInt_of_lt (by omega), sizeToInt_of_lt (by omega)]
      by_cases hc : v1 = ((perm.length - 2 : Nat) : Int)
      · rw [if_pos hc]
        cases hv2 : perm[perm.length - 2]? with
        | none =>
          rw [List.getElem?_eq_none_iff] at hv2
          omega
        | some v2 =>
          simp only [Option.some.injEq, decide_eq_false_iff_not]
          intro hv2e
          apply hns
          refine ⟨by omega, ?_, ?_⟩
          · rw [hv, hc]; rfl
          · rw [hv2, hv2e]; rfl
      · rw [if_neg hc]

/-- What a turn of rule 2 that returns may mark and rewire. -/
theorem fuseStep_effects {h i p : Nat} {st st' : OptState}
    (hs : fuseStep h i p st = some st') :
    (∀ x ∈ st'.removeOps, x ∈ st.removeOps ∨
      (x = p ∧ ∃ perm, (st.op p).kind = .transpose perm ∧ lastTwoSwapped perm = some true)) ∧
    (∀ t ∈ (st'.op h).inputs, t ∈ (st.op h).inputs ∨
      ((st.op p).kind.isTranspose = true ∧ t ∈ (st.op p).inputs)) ∧
    (∀ y ∈ st'.removeTensors, y ∈ st.removeTensors ∨ y ∈ (st.op h).inputs) := by
  rcases fuseStep_cases hs with ⟨rfl, _⟩ | ⟨perm, x, y, h1, h2, h3, h4, rfl⟩
  · exact ⟨fun _ hx => Or.inl hx, fun _ ht => Or.inl ht, fun _ hy => Or.inl hy⟩
  · refine ⟨?_, ?_, ?_⟩
    · intro q hq
      simp only [] at hq
      split at hq
      · rcases List.mem_append.1 hq with hq | hq
        · exact Or.inl hq
        · right
          simp only [List.mem_singleton] at hq
          exact ⟨hq, perm, h1, h2⟩
      · exact Or.inl hq
    · intro t ht
      simp only [Function.update_same] at ht
      have ht' : t ∈ ((st.op h).replaceInput y x).inputs := by
        split at ht
        · rw [toggleTrans_inputs] at ht
          exact ht
        · exact ht
      simp only [OperatorObj.replaceInput, List.mem_map] at ht'
      obtain ⟨t0, ht0, hte⟩ := ht'
      split at hte
      · right
        subst hte
        exact ⟨by rw [h1]; rfl, List.getElem?_mem h3⟩
      · left
        subst hte
        exact ht0
    · intro v hv
      simp only [List.mem_append, List.mem_singleton] at hv
      rcases hv with hv | hv
      · exact Or.inl hv
      · right
        subst hv
        exact List.getElem?_mem h4

theorem fuseLoop_effects (h : Nat) (ps : List Nat) :
    ∀ (i : Nat) (st st' : OptState), (st.op h).kind.isMatMul = true →
      fuseLoop h ps i st = some st' →
      (∀ x ∈ st'.removeOps, x ∈ st.removeOps ∨
        (x ∈ ps ∧ ∃ perm, (st.op x).kind = .transpose perm ∧
          lastTwoSwapped perm = some true)) ∧
      (∀ t ∈ (st'.op h).inputs, t ∈ (st.op h).inputs ∨
        ∃ p ∈ ps, (st.op p).kind.isTranspose = true ∧ t ∈ (st.op p).inputs) ∧
      (∀ y ∈ st'.removeTensors, y ∈ st.removeTensors ∨ y ∈ (st.op h).inputs ∨
        ∃ p ∈ ps, (st.op p).kind.isTranspose = true ∧ y ∈ (st.op p).inputs) := by
  induction ps with
  | nil =>
    intro i st st' _ hs
    rw [fuseLoop_nil, Option.some.injEq] at hs
    subst hs
    exact ⟨fun _ hx => Or.inl hx, fun _ ht => Or.inl ht, fun _ hy => Or.inl hy⟩
  | cons p rest ih =>
    intro i st st' hM hs
    rw [fuseLoop_cons] at hs
    cases h1 : fuseStep h i p st with
    | none => rw [h1] at hs; simp at hs
    | some st1 =>
      rw [h1] at hs
      simp only [] at hs
      obtain ⟨a1, a2, _, _, _⟩ := fuseStep_frame hM h1
      obtain ⟨e1, e2, e3⟩ := fuseStep_effects h1
      obtain ⟨f1, f2, f3⟩ := ih (i + 1) st1 st' a2 hs
      have hsame : ∀ q, (st1.op q).kind.isTranspose = true → st1.op q = st.op q := by
        intro q hq
        apply a1
        rintro rfl
        rw [not_isMatMul_of_isTranspose hq] at a2
        simp at a2
      have hin1 : ∀ t ∈ (st1.op h).inputs, t ∈ (st.op h).inputs ∨
          ∃ q ∈ p :: rest, (st.op q).kind.isTranspose = true ∧ t ∈ (st.op q).inputs := by
        intro t ht
        rcases e2 t ht with h' | h'
        · exact Or.inl h'
        · exact Or.inr ⟨p, List.mem_cons_self _ _, h'⟩
      have hlift : ∀ t, (∃ q ∈ rest, (st1.op q).kind.isTranspose = true ∧
          t ∈ (st1.op q).inputs) →
          ∃ q ∈ p :: rest, (st.op q).kind.isTranspose = true ∧ t ∈ (st.op q).inputs := by
        rintro t ⟨q, hq, hk, ht⟩
        have := hsame q hk
        rw [this] at hk ht
        exact ⟨q, List.mem_cons_of_mem _ hq, hk, ht⟩
      refine ⟨?_, ?_, ?_⟩
      · intro x hx
        rcases f1 x hx with h' | ⟨hxr, perm, hk, hl⟩
        · rcases e1 x h' with h'' | ⟨rfl, hp⟩
          · exact Or.inl h''
          · exact Or.inr ⟨List.mem_cons_self _ _, hp⟩
        · right
          have := hsame x (by rw [hk]; rfl)
          rw [this] at hk
          exact ⟨List.mem_cons_of_mem _ hxr, perm, hk, hl⟩
      · intro t ht
        rcases f2 t ht with h' | h'
        · exact hin1 t h'
        · exact Or.inr (hlift t h')
      · intro y hy
        rcases f3 y hy with h' | h' | h'
        · rcases e3 y h' with h'' | h''
          · exact Or.inl h''
          · exact Or.inr (Or.inl h'')
        · exact Or.inr (hin1 y h')
        · exact Or.inr (Or.inr (hlift y h'))

/-- What a turn of the loop of `optimize` that returns may mark and rewire. -/
theorem optimizeStep_effects {h : Nat} {st st' : OptState}
    (hs : optimizeStep st h = some st') :
    (∀ x ∈ st'.removeOps, x ∈ st.removeOps ∨
      (R1Fires st h ∧ (x = h ∨ (st.op h).predecessors[0]? = some x)) ∨
      ((st.op h).kind.isMatMul = true ∧ x ∈ (st.op h).predecessors ∧
        ∃ perm, (st.op x).kind = .transpose perm ∧ lastTwoSwapped perm = some true)) ∧
    (∀ t ∈ (st'.op h).inputs, t ∈ (st.op h).inputs ∨
      ∃ p ∈ (st.op h).predecessors, (st.op p).kind.isTranspose = true ∧
        t ∈ (st.op p).inputs) ∧
    (∀ y ∈ st'.removeTensors, y ∈ st.removeTensors ∨ y ∈ (st.op h).inputs ∨
      ∃ p ∈ (st.op h).predecessors, (st.op p).kind.isTranspose = true ∧
        y ∈ (st.op p).inputs) := by
  unfold optimizeStep at hs
  by_cases hc : (st.op h).predecessors.length = 1 ∧ (st.op h).kind.isTranspose = true
  · rw [if_pos hc] at hs
    rcases cancelStep_cases hs with ⟨rfl, _⟩ | ⟨p, perm, x, y, h1, h2, h3, h4, h5, rfl⟩
    · exact ⟨fun _ hx => Or.inl hx, fun _ ht => Or.inl ht, fun _ hy => Or.inl hy⟩
    · have hR : R1Fires st h := ⟨hc.1, p, perm, h1, h2, h3⟩
      refine ⟨?_, ?_, ?_⟩
      · intro q hq
        simp only [List.mem_append, List.mem_cons, List.mem_singleton, List.not_mem_nil,
          or_false] at hq
        rcases hq with hq | hq | hq
        · exact Or.inl hq
        · exact Or.inr (Or.inl ⟨hR, Or.inr (by rw [hq]; exact h1)⟩)
        · exact Or.inr (Or.inl ⟨hR, Or.inl hq⟩)
      · intro t ht
        simp only [Function.update_same, OperatorObj.replaceInput, List.mem_map] at ht
        obtain ⟨t0, ht0, hte⟩ := ht
        split at hte
        · right
          subst hte
          exact ⟨p, List.getElem?_mem h1, by rw [h2]; rfl, List.getElem?_mem h4⟩
        · left
          subst hte
          exact ht0
      · intro v hv
        simp only [List.mem_append, List.mem_singleton] at hv
        rcases hv with hv | hv
        · exact Or.inl hv
        · right; left
          subst hv
          exact List.getElem?_mem h5
  · rw [if_neg hc] at hs
    by_cases hM : (st.op h).kind.isMatMul = true
    · rw [if_pos hM] at hs
      obtain ⟨f1, f2, f3⟩ := fuseLoop_effects h _ 0 st st' hM hs
      refine ⟨?_, f2, f3⟩
      intro x hx
      rcases f1 x hx with h' | ⟨h1, h2⟩
      · exact Or.inl h'
      · exact Or.inr (Or.inr ⟨hM, h1, h2⟩)
    · rw [if_neg hM] at hs
      simp only [Option.some.injEq] at hs
      subst hs
      exact ⟨fun _ hx => Or.inl hx, fun _ ht => Or.inl ht, fun _ hy => Or.inl hy⟩

theorem mem_foldl_erase_of_not_mem (r : List Nat) :
    ∀ (l : List Nat) (x : Nat), x ∈ l → x ∉ r → x ∈ r.foldl List.erase l := by
  induction r with
  | nil => intro l x hx _; exact hx
  | cons y r ih =>
    intro l x hx hr
    simp only [List.mem_cons, not_or] at hr
    exact ih (l.erase y) x ((List.mem_erase_of_ne hr.1).2 hx) hr.2

theorem inertFacts_of {g : GraphObj} {M T i z : Nat} {perm : List Int}
    (hS : InertSite g M T i z perm) (hM : M ∈ g.ops) (hL : LinkedInOrder g)
    (hnc : NotCancelled g T) : InertFacts g M T z := by
  obtain ⟨hmm, hkT, hinz, hsrc, hfail, hsingle⟩ := hS
  obtain ⟨_, _, harity, hsources, hpreds⟩ := hL
  have hmemp : ∀ h ∈ g.ops, ∀ p ∈ (g.op h).predecessors,
      ∃ t ∈ (g.op h).inputs, (g.tensor t).source = some p := by
    intro h hh p hp
    rw [hpreds h hh, List.mem_filterMap] at hp
    exact hp
  refine ⟨hmm, ?_, ?_, ?_, hnc⟩
  · intro q hq perm' hk
    obtain ⟨t, ht, hts⟩ := hmemp M hM q hq
    have hqA := harity q (hsources M hM t ht q hts)
    unfold OperatorObj.ArityOK at hqA
    rw [hk] at hqA
    have hns := hfail t ht q hts
    unfold OpKind.PassesTest at hns
    rw [hk] at hns
    exact lastTwoSwapped_of_not_endsSwapped hqA.2.1 hqA.2.2.1 hqA.2.2.2 hns
  · intro h hh hhM hT
    obtain ⟨t, ht, hts⟩ := hmemp h hh T hT
    exact hhM (hsingle h hh t ht hts)
  · intro h hh p hp
    obtain ⟨t, ht, hts⟩ := hmemp h hh p hp
    exact hsources h hh t ht p hts

/-- A turn of the loop of `optimize` that returns keeps `InertInv`. -/
theorem optimizeStep_inert {g : GraphObj} {M T z h : Nat} {st st' : OptState}
    (hF : InertFacts g M T z) (hh : h ∈ g.ops)
    (hpr : (st.op h).predecessors = (g.op h).predecessors)
    (hI : InertInv g M T z st) (hs : optimizeStep st h = some st') :
    InertInv g M T z st' ∧ StepFrame h st st' := by
  obtain ⟨hFr, _⟩ := optimizeStep_settles hs
  refine ⟨?_, hFr⟩
  have hMst : (st.op M).kind.isMatMul = true := by rw [hI.opM]; exact hF.mm
  by_cases hhM : h = M
  · -- the turn for `M` changes nothing
    subst hhM
    have hfix : optimizeStep st h = some st := by
      apply optimizeStep_fixed
      · rintro ⟨_, p, perm', _, _, hk⟩
        rw [hk] at hMst
        simp [OpKind.isMatMul] at hMst
      · intro _ q hq perm' hk
        rw [hpr] at hq
        exact hF.failM q hq perm' ((hI.arity.tr q perm').1 hk)
    rw [hfix, Option.some.injEq] at hs
    subst hs
    exact hI
  · obtain ⟨e1, e2, e3⟩ := optimizeStep_effects hs
    have hpM : ∀ p, (st.op p).kind.isTranspose = true → p ≠ M := by
      rintro p hp rfl
      rw [not_isMatMul_of_isTranspose hp] at hMst
      simp at hMst
    have hzin : ∀ t, (t ∈ (st.op h).inputs ∨
        ∃ p ∈ (st.op h).predecessors, (st.op p).kind.isTranspose = true ∧
          t ∈ (st.op p).inputs) → t ≠ z := by
      rintro t (ht | ⟨p, hp, hk, ht⟩) rfl
      · exact hI.noz h hh hhM ht
      · rw [hpr] at hp
        exact hI.noz p (hF.pm h hh p hp) (hpM p hk) ht
    refine ⟨arityInv_of_frame hI.arity hFr, ?_, ?_, ?_, ?_⟩
    · rw [hFr.ops M (Ne.symm hhM)]; exact hI.opM
    · intro hT
      rcases e1 T hT with h' | ⟨hR, h'⟩ | ⟨_, h', _⟩
      · exact hI.unmarked h'
      · rcases h' with h' | h'
        · -- rule 1 on `T` itself
          subst h'
          obtain ⟨hlen, p, perm', hp0, hkp, hkT⟩ := hR
          rw [hpr] at hlen hp0
          have hpm : p ∈ (g.op T).predecessors := List.getElem?_mem hp0
          apply hF.nc p hpm hlen
          rw [(hI.arity.tr p perm').1 hkp, (hI.arity.tr T perm').1 hkT]
        · have : T ∈ (st.op h).predecessors := List.getElem?_mem h'
          rw [hpr] at this
          exact hF.other h hh hhM this
      · rw [hpr] at h'
        exact hF.other h hh hhM h'
    · intro hz
      rcases e3 z hz with h' | h'
      · exact hI.tunmarked h'
      · exact hzin z h' rfl
    · intro Q hQ hQM hz
      by_cases hQh : Q = h
      · subst hQh
        exact hzin z (e2 z hz) rfl
      · rw [hFr.ops Q hQh] at hz
        exact hI.noz Q hQ hQM hz

theorem optimizeOps_inert {g : GraphObj} {M T z : Nat} (hF : InertFacts g M T z)
    (l : List Nat) :
    ∀ st st', optimizeOps l st = some st' → l.Nodup → (∀ h ∈ l, h ∈ g.ops) →
      (∀ Q ∈ l, (st.op Q).predecessors = (g.op Q).predecessors) →
      InertInv g M T z st → InertInv g M T z st' := by
  induction l with
  | nil =>
    intro st st' hs _ _ _ hI
    rw [optimizeOps_nil, Option.some.injEq] at hs
    subst hs
    exact hI
  | cons h rest ih =>
    intro st st' hs hnd hmem hpr hI
    rw [List.nodup_cons] at hnd
    rw [optimizeOps_cons] at hs
    cases h1 : optimizeStep st h with
    | none => rw [h1] at hs; simp at hs
    | some st1 =>
      rw [h1] at hs
      simp only [] at hs
      obtain ⟨hI1, hFr⟩ := optimizeStep_inert hF (hmem h (List.mem_cons_self _ _))
        (hpr h (List.mem_cons_self _ _)) hI h1
      exact ih st1 st' hs hnd.2 (fun q hq => hmem q (List.mem_cons_of_mem _ hq))
        (fun Q hQ => by
          have hne : Q ≠ h := fun e => hnd.1 (e ▸ hQ)
          rw [hFr.ops Q hne]
          exact hpr Q (List.mem_cons_of_mem _ hQ))
        hI1

/-- Where rule 2 has nothing to do: in a graph linked in order, let operand `i` of a MatMul
`M` of the graph be the tensor `z` of the graph, produced by a Transpose `T` whose output
is read by `M` only and which rule 1 does not remove, and let no operand of `M` be
produced by a Transpose whose permute ends with the entries `n - 1`, `n - 2` (`[2,0,1]`
does not, `[1,0,3,2]` does). Then `optimize` returns and leaves the inputs and the flags
of `M` unchanged, and `T` and `z` stay in the graph. -/
theorem optimize_keeps_unfused_operand (g : GraphObj) (M T i z : Nat) (perm : List Int)
    (hS : InertSite g M T i z perm) (hM : M ∈ g.ops) (hz : z ∈ g.tensors)
    (hL : LinkedInOrder g) (hnc : NotCancelled g T) :
    ∃ g', g.optimize = some g' ∧ (g'.op M).inputs = (g.op M).inputs ∧
      (g'.op M).kind = (g.op M).kind ∧ T ∈ g'.ops ∧ z ∈ g'.tensors := by
  have hF := inertFacts_of hS hM hL hnc
  obtain ⟨hmm, hkT, hinz, hsrc, hfail, hsingle⟩ := hS
  have hzin : z ∈ (g.op M).inputs := List.getElem?_mem hinz
  have hT : T ∈ g.ops := hL.2.2.2.1 M hM z hzin T hsrc
  obtain ⟨st, hst⟩ := optimizeOps_returns (arityLinked_of_linked hL) g.ops
    ⟨g.op, g.tensor, [], []⟩ (fun _ hh => hh)
    ⟨fun _ => rfl, fun _ _ => Iff.rfl, fun _ => rfl⟩ (fun _ => List.Sublist.refl _)
  have hI0 : InertInv g M T z ⟨g.op, g.tensor, [], []⟩ := by
    refine ⟨⟨fun _ => rfl, fun _ _ => Iff.rfl, fun _ => rfl⟩, rfl, by simp, by simp, ?_⟩
    intro Q hQ hQM hzQ
    exact hQM (hsingle Q hQ z hzQ hsrc)
  have hI := optimizeOps_inert hF g.ops _ st hst hL.1 (fun _ hh => hh) (fun _ _ => rfl) hI0
  unfold GraphObj.optimize
  rw [hst]
  refine ⟨_, rfl, ?_⟩
  obtain ⟨t1, t2, t3, t4⟩ := foldl_removeTensor st.removeTensors
    (st.removeOps.foldl GraphObj.removeOperator { g with op := st.op, tensor := st.tensor })
  obtain ⟨o1, o2, o3, o4⟩ := foldl_removeOperator st.removeOps
    { g with op := st.op, tensor := st.tensor }
  rw [t1, t3, t4, o1, o3, o4]
  show (st.op M).inputs = _ ∧ (st.op M).kind = _ ∧ _ ∧ _
  rw [hI.opM]
  exact ⟨rfl, rfl, mem_foldl_erase_of_not_mem _ _ _ hT hI.unmarked,
    mem_foldl_erase_of_not_mem _ _ _ hz hI.tunmarked⟩

theorem optimize_keeps_unfused_operand_witness :
    (InertSite inertGraph 1 0 0 2 [2, 0, 1] ∧ 1 ∈ inertGraph.ops ∧ 2 ∈ inertGraph.tensors ∧
      LinkedInOrder inertGraph ∧ NotCancelled inertGraph 0) ∧
    ∃ g', inertGraph.optimize = some g' ∧ (g'.op 1).inputs = (inertGraph.op 1).inputs ∧
      (g'.op 1).kind = (inertGraph.op 1).kind ∧ 0 ∈ g'.ops ∧ 2 ∈ g'.tensors :=
  ⟨⟨by decide, by decide, by decide, by decide, by decide⟩,
    optimize_keeps_unfused_operand inertGraph 1 0 0 2 [2, 0, 1]
      (by decide) (by decide) (by decide) (by decide) (by decide)⟩

/-- Rule 2 looks at every predecessor of the MatMul: in `mixedGraph` operand 0 of the
MatMul (2) is produced by the Transpose (0) with permute `[2,0,1]` and operand 1 by a
Transpose with permute `[0,2,1]`. `optimize` applies rule 2 to operand 1 only: the inputs
of the MatMul change from `(At, Bt)` to `(At, B)` and `trans_b` is negated, while operand
0, `trans_a`, the Transpose (0) and `At` (2) stay as they were. -/
theorem optimize_fuses_other_operand :
    (mixedGraph.op 2).kind = .matmul false false ∧ (mixedGraph.op 2).inputs = [2, 3] ∧
    (mixedGraph.tensor 2).source = some 0 ∧
    (mixedGraph.op 0).kind = .transpose [2, 0, 1] ∧ ¬ IsLastTwoSwap [2, 0, 1] ∧
    LinkedInOrder mixedGraph ∧ mixedGraph.checkValid = true ∧
    mixedGraph.optimize.map (fun g => ((g.op 2).inputs, (g.op 2).kind, g.ops, g.tensors)) =
      some ([2, 1], .matmul false true, [0, 2], [0, 1, 2, 4]) := by
  refine ⟨by decide, by decide, by decide, by decide, by decide, by decide, by decide, by rfl⟩

/-- C13 (fails on the code): in `doubleSwapGraph` operand 0 of the MatMul (1) is the output
`At` (2) of the Transpose (0) with permute `[1,0,3,2]`, which swaps the last two axes and
also the first two, so it is not a swap of the last two axes that is the identity on
every other axis. The test of rule 2 reads the last two entries of the permute only:
`optimize` rewires the MatMul to read `A` (0), negates `trans_a` and removes the
Transpose and `At`. With the permute `[2,0,1]` (`inertGraph`) nothing changes. -/
theorem optimize_fuses_double_swap :
    (doubleSwapGraph.op 1).kind = .matmul false false ∧
    (doubleSwapGraph.op 1).inputs = [2, 1] ∧ (doubleSwapGraph.tensor 2).source = some 0 ∧
    (doubleSwapGraph.op 0).kind = .transpose [1, 0, 3, 2] ∧ ¬ IsLastTwoSwap [1, 0, 3, 2] ∧
    lastTwoSwapped [1, 0, 3, 2] = some true ∧
    LinkedInOrder doubleSwapGraph ∧ doubleSwapGraph.checkValid = true ∧
    doubleSwapGraph.optimize.map (fun g => ((g.op 1).inputs, (g.op 1).kind, g.ops, g.tensors)) =
      some ([0, 1], .matmul true false, [1], [0, 1, 3]) ∧
    inertGraph.optimize.map (fun g => ((g.op 1).inputs, (g.op 1).kind, g.ops, g.tensors)) =
      some ([2, 1], .matmul false false, [0, 1], [0, 1, 2, 3]) := by
  refine ⟨by decide, by decide, by decide, by decide, by decide, by decide, by decide,
    by decide, by rfl, by rfl⟩

/-! ## An operator list with a repeated operator -/

theorem dupGraph_no_producer (p q : Nat) : ¬ Produces dupGraph p q := by
  rintro ⟨_, hq, t, ht, hs⟩
  have hq0 : q = 0 := by
    have : q ∈ [0, 0] := hq
    simpa using this
  subst hq0
  have ht0 : t = 0 := by
    have : t ∈ [0] := ht
    simpa using this
  subst ht0
  have hn : (dupGraph.tensor 0).source = none := by rfl
  rw [hn] at hs
  simp at hs

theorem dupGraph_no_cycle : ¬ HasCycle dupGraph := by
  rintro ⟨op, h⟩
  cases h with
  | single h => exact dupGraph_no_producer _ _ h
  | tail _ h => exact dupGraph_no_producer _ _ h

/-- C2 as stated fails: in `dupGraph` the flag `sorted` is clear, the only input has no
source and the producer relation is empty, and `checkValid` succeeds; but the operator
list is `[op, op]`, the second sweep emits nothing, and `topo_sort` returns `false`
leaving the list unsorted, whatever the number of loop tests allowed. -/
theorem topo_sort_fails_on_repeated_operator :
    dupGraph.sorted = false ∧ dupGraph.ops = [0, 0] ∧ SourcesInGraph dupGraph ∧
    ¬ HasCycle dupGraph ∧ dupGraph.checkValid = true ∧
    ∀ n, (dupGraph.topo_sort (n + 2)).map (fun r => (r.1, r.2.ops, r.2.sorted)) =
      some (false, [0, 0], false) :=
  ⟨by rfl, by rfl, by decide, dupGraph_no_cycle, by decide, fun n => by rfl⟩

/-- C10 as stated fails: on `dupGraph`, whose operator list is `[op, op]`, `topo_sort`
ends and returns `false` although the producer relation has no cycle (it is empty). -/
theorem topo_sort_false_without_cycle :
    dupGraph.sorted = false ∧ SourcesInGraph dupGraph ∧
    (∀ n, (dupGraph.topo_sort (n + 2)).map (fun r => r.1) = some false) ∧
    (∀ p q, ¬ Produces dupGraph p q) ∧ ¬ HasCycle dupGraph :=
  ⟨by rfl, by decide, fun n => by rfl, dupGraph_no_producer, dupGraph_no_cycle⟩

/-! ## The loop bound of the second loop of `dataMalloc` -/

theorem allocTensors_length (bytes : Nat → Nat) (ts : List Nat) :
    ∀ (a a' : Allocator) (offs : List Nat), allocTensors bytes ts a = some (offs, a') →
      offs.length = ts.length := by
  induction ts with
  | nil =>
    intro a a' offs h
    simp only [allocTensors, Option.some.injEq, Prod.mk.injEq] at h
    rw [← h.1]
  | cons t ts ih =>
    intro a a' offs h
    rw [allocTensors_cons] at h
    cases hA : a.alloc (bytes t) with
    | none => rw [hA] at h; simp at h
    | some r =>
      obtain ⟨off, a1⟩ := r
      rw [hA] at h
      simp only [] at h
      cases hR : allocTensors bytes ts a1 with
      | none => rw [hR] at h; simp at h
      | some r2 =>
        obtain ⟨offs2, a2⟩ := r2
        rw [hR] at h
        simp only [Option.some.injEq, Prod.mk.injEq] at h
        rw [← h.1, List.length_cons, ih a1 a2 offs2 hR, List.length_cons]

/-- The loop bound `int vecSize = offsets.size()` of the second loop: on a graph with
exactly `2^31` tensors the converted bound is negative and `dataMalloc`, when it returns,
has bound no tensor at all. -/
theorem dataMalloc_binds_nothing_eval (g g1 : GraphObj) (a : Allocator)
    (bytes rtAlloc : Nat → Nat) (fuel : Nat) (d : DataLayout)
    (hcount : g.tensors.length = 2147483648)
    (h : g.dataMalloc a bytes rtAlloc fuel = some (g1, d)) : d.blobs = [] := by
  unfold GraphObj.dataMalloc at h
  cases hT : g.topo_sort fuel with
  | none => rw [hT] at h; simp at h
  | some r =>
    obtain ⟨b, g2⟩ := r
    rw [hT] at h
    cases b with
    | false => simp at h
    | true =>
      simp only [] at h
      have hts := topo_sort_tensors hT
      cases hA : allocTensors bytes g2.tensors a with
      | none => rw [hA] at h; simp at h
      | some r2 =>
        obtain ⟨offs, a1⟩ := r2
        rw [hA] at h
        simp only [Option.some.injEq, Prod.mk.injEq] at h
        have hl := allocTensors_length bytes _ _ _ _ hA
        rw [hts, hcount] at hl
        have e0 : sizeToInt 2147483648 = -2147483648 := by decide
        have e : (sizeToInt offs.length).toNat = 0 := by rw [hl, e0]; rfl
        have hb : bindBlobs (a1.getPtr rtAlloc).1 g2.tensors offs = [] := by
          unfold bindBlobs
          rw [e, List.take_zero, List.map_nil]
        have hd : d.blobs = bindBlobs (a1.getPtr rtAlloc).1 g2.tensors offs := by
          rw [← h.2]
        rw [hd, hb]

end infini
